import Mathlib

/-!
# Verification of the HiDeF weaver core (`hidef/weaver.py`)

A shallow embedding of the weaving algorithm of `hidef/weaver.py`:
containment-index computation, candidate-graph construction (edge loop, root
addition, redundant-edge removal, terminal attachment), secondary-edge ranking,
percentile edge selection (`pick`), tree pruning (`prune`) and depth
annotation (`update_depth`).

Modelling conventions:

* Python floats are modelled as exact integer fractions (`Frac`), kept
  unreduced so that every arithmetic operation is a structural operation on
  `Int` and evaluates inside the kernel.  All quantities the code manipulates
  (containment indices, edge weights, percentages) are ratios of machine
  integers, so exact fractions track the intended values; `Frac.toQ` maps a
  fraction to the rational number it denotes.
* Graph nodes: an internal cluster node `(i, 0)` of the Python code is
  `Node.cluster i` (with the synthesized root as `Node.cluster (-1)`), and the
  terminal with index `i` is `Node.terminal i` (terminal labels are assumed
  distinct, as for well-formed inputs).
* `networkx.DiGraph` is modelled by insertion-ordered node and edge lists;
  all operations (`add_node`, `add_edge`, `remove_edge`, `remove_node`,
  `predecessors`, `successors`, degrees) preserve the insertion-order
  semantics of the Python dictionaries backing `networkx`.
* Unbounded `while` loops are modelled with an explicit bound (`fuel`) large
  enough for the loop to converge on well-formed inputs; theorems that need
  convergence either prove it or carry it as a hypothesis.
-/

/-- Exact fraction `num / den`, kept unreduced.  Models a Python float
produced by the weaver (all such values are ratios of machine integers). -/
structure Frac where
  num : ℤ
  den : ℤ
deriving DecidableEq, Repr

namespace Frac

/-- The rational number denoted by a fraction. -/
def toQ (a : Frac) : ℚ := (a.num : ℚ) / (a.den : ℚ)

/-- `a <= b` on Python floats, by cross multiplication (denominators of all
fractions built by the weaver are positive). -/
def le (a b : Frac) : Bool := decide (a.num * b.den ≤ b.num * a.den)

/-- `a < b` on Python floats, by cross multiplication. -/
def lt (a b : Frac) : Bool := decide (a.num * b.den < b.num * a.den)

/-- Multiplication of Python floats. -/
def mul (a b : Frac) : Frac := ⟨a.num * b.num, a.den * b.den⟩

/-- Addition of Python floats. -/
def add (a b : Frac) : Frac := ⟨a.num * b.den + b.num * a.den, a.den * b.den⟩

/-- Subtraction of Python floats. -/
def sub (a b : Frac) : Frac := ⟨a.num * b.den - b.num * a.den, a.den * b.den⟩

/-- Division of Python floats. -/
def div (a b : Frac) : Frac := ⟨a.num * b.den, a.den * b.num⟩

/-- The float `0.0`. -/
def zero : Frac := ⟨0, 1⟩

/-- The float `1.0`. -/
def one : Frac := ⟨1, 1⟩

/-- A natural number as a float. -/
def ofNat (n : ℕ) : Frac := ⟨(n : ℤ), 1⟩

theorem toQ_le_toQ {a b : Frac} (ha : 0 < a.den) (hb : 0 < b.den) :
    le a b = true ↔ toQ a ≤ toQ b := by
  unfold le toQ
  rw [div_le_div_iff (by exact_mod_cast ha) (by exact_mod_cast hb)]
  simp only [decide_eq_true_eq]
  constructor
  · intro h; exact_mod_cast h
  · intro h; exact_mod_cast h

end Frac

/-! ## Containment Index Engine (`containment_indices_boolean`) -/

/-- `np.count_nonzero` of a boolean row. -/
def countNonzero (row : List Bool) : ℕ := (row.filter id).length

/-- `astype(float)` of a boolean entry. -/
def boolToFloat (b : Bool) : Frac := if b then Frac.one else Frac.zero

/-- Inner product of two float vectors (one entry of `A.dot(B.T)`). -/
def dotF (xs ys : List Frac) : Frac :=
  (List.zipWith Frac.mul xs ys).foldl Frac.add Frac.zero

/-- `containment_indices_boolean(A, B)`: the matrix
`CI = A.astype(float).dot(B.astype(float).T) / count[:, None]` where
`count = np.count_nonzero(A, axis=1)`. -/
def containment_indices_boolean (A B : List (List Bool)) : List (List Frac) :=
  A.map fun Ai =>
    B.map fun Bj =>
      Frac.div (dotF (Ai.map boolToFloat) (Bj.map boolToFloat))
        (Frac.ofNat (countNonzero Ai))

/-- Entry lookup in the containment-index matrix (indices produced by the
weaver are always in range; out-of-range lookups return `0/1`). -/
def getCI (CI : List (List Frac)) (i j : ℕ) : Frac :=
  ((CI.getD i []).getD j Frac.zero)

theorem foldl_add_bool_dot (xs : List Bool) :
    ∀ (ys : List Bool) (m : ℤ),
      (List.zipWith Frac.mul (xs.map boolToFloat) (ys.map boolToFloat)).foldl
          Frac.add ⟨m, 1⟩ =
        ⟨m + (countNonzero (List.zipWith and xs ys) : ℤ), 1⟩ := by
  induction xs with
  | nil => intro ys m; cases ys <;> simp [countNonzero]
  | cons x xs ih =>
    intro ys m
    cases ys with
    | nil => simp [countNonzero]
    | cons y ys =>
      have hstep : Frac.add ⟨m, 1⟩ (Frac.mul (boolToFloat x) (boolToFloat y)) =
          ⟨m + (if (x && y) then 1 else 0), 1⟩ := by
        cases x <;> cases y <;>
          simp [Frac.add, Frac.mul, boolToFloat, Frac.one, Frac.zero]
      simp only [List.map_cons, List.zipWith_cons_cons, List.foldl_cons]
      rw [hstep, ih]
      cases hxy : (x && y) with
      | true =>
        have : and x y = true := hxy
        simp only [this, if_true, countNonzero, List.zipWith_cons_cons,
          List.filter_cons, id, ite_true, List.length_cons]
        congr 1
        push_cast
        ring
      | false =>
        have : and x y = false := hxy
        simp only [this, if_false, countNonzero, List.zipWith_cons_cons,
          List.filter_cons, id, ite_false, List.length_cons]
        congr 1
        push_cast
        ring

theorem dotF_bool_eq_countAnd (xs ys : List Bool) :
    dotF (xs.map boolToFloat) (ys.map boolToFloat) =
      ⟨(countNonzero (List.zipWith and xs ys) : ℤ), 1⟩ := by
  have := foldl_add_bool_dot xs ys 0
  simpa [dotF, Frac.zero] using this

theorem getCI_containment (A B : List (List Bool)) (i j : ℕ)
    (hi : i < A.length) (hj : j < B.length) :
    getCI (containment_indices_boolean A B) i j =
      Frac.div (dotF ((A.getD i []).map boolToFloat) ((B.getD j []).map boolToFloat))
        (Frac.ofNat (countNonzero (A.getD i []))) := by
  unfold getCI containment_indices_boolean
  simp [List.getD_eq_getElem?_getD, List.getElem?_map,
    List.getElem?_eq_getElem, hi, hj]

/-- **C1.** For boolean matrices `A` (m×n) and `B` (k×n) all of whose `A`-rows
are non-empty (contain a `true`), the entry `CI[i, j]` of
`containment_indices_boolean A B` denotes exactly
`|{k | A[i,k] ∧ B[j,k]}| / count_nonzero(A[i])` as a rational number. -/
theorem containment_indices_boolean_exact (A B : List (List Bool))
    (i j : ℕ) (hi : i < A.length) (hj : j < B.length)
    (hrows : ∀ r ∈ A, 0 < countNonzero r) :
    Frac.toQ (getCI (containment_indices_boolean A B) i j) =
      (countNonzero (List.zipWith and (A.getD i []) (B.getD j [])) : ℚ) /
        (countNonzero (A.getD i []) : ℚ) := by
  have hdot := dotF_bool_eq_countAnd (A.getD i []) (B.getD j [])
  rw [getCI_containment A B i j hi hj, hdot]
  unfold Frac.div Frac.ofNat Frac.toQ
  push_cast
  rw [mul_one, one_mul]

/-- Witness for C1 on a concrete input. -/
theorem containment_indices_boolean_exact_witness :
    Frac.toQ (getCI (containment_indices_boolean
        [[true, true, false], [false, true, true]]
        [[true, false, false], [true, true, true]]) 0 1) =
      (countNonzero (List.zipWith and [true, true, false] [true, true, true]) : ℚ) /
        (countNonzero [true, true, false] : ℚ) := by
  exact containment_indices_boolean_exact
    [[true, true, false], [false, true, true]]
    [[true, false, false], [true, true, true]] 0 1
    (by decide) (by decide) (by decide)

/-! ## `Weaver.set_terminals` (C10) -/

/-- The argument passed to the `terminals` setter: `None`, a numpy `ndarray`,
or any other iterable (e.g. a list or string of labels). -/
inductive TerminalsValue where
  | nonePy : TerminalsValue
  | ndarray (arr : List ℕ) : TerminalsValue
  | pylist (l : List ℕ) : TerminalsValue
deriving DecidableEq, Repr

/-- Python exceptions raised by the modelled fragments. -/
inductive PyErr where
  | unboundLocalError : PyErr
  | valueError : PyErr
  | indexError : PyErr
deriving DecidableEq, Repr

/-- `Weaver.set_terminals(value)`.  The local variable `terminals` is assigned
only in the `value is None` branch and in the `not isinstance(value,
np.ndarray)` branch; reading it afterwards raises `UnboundLocalError` when
`value` is an `ndarray`.  The unassigned local is modelled by an `Option`. -/
def set_terminals (n_terminals : ℕ) (value : TerminalsValue) :
    Except PyErr (List ℕ) :=
  let terminalsLocal : Option (List ℕ) :=
    match value with
    | .nonePy => some (List.range n_terminals)
    | .pylist l => some l
    | .ndarray _ => none
  match terminalsLocal with
  | none => .error .unboundLocalError
  | some terminals =>
    if terminals.length ≠ n_terminals then .error .valueError
    else .ok terminals

/-- **C10.** Passing a numpy `ndarray` as the terminals argument always raises
`UnboundLocalError`: neither assignment branch of `set_terminals` runs, so the
size-mismatch check reads an unbound local.  In particular the call neither
accepts the array nor raises the documented `ValueError`. -/
theorem set_terminals_ndarray_unbound (n_terminals : ℕ) (arr : List ℕ) :
    set_terminals n_terminals (.ndarray arr) = .error .unboundLocalError ∧
      set_terminals n_terminals (.ndarray arr) ≠ .error .valueError ∧
      ∀ t, set_terminals n_terminals (.ndarray arr) ≠ .ok t := by
  refine ⟨rfl, by simp [set_terminals], fun t => by simp [set_terminals]⟩

/-! ## Directed graphs (the `networkx.DiGraph` fragment used by the weaver) -/

/-- A node of the hierarchy: `cluster i` is the internal cluster node `(i, 0)`
of the Python code (`cluster (-1)` is the synthesized root) and `terminal t`
is the terminal with index `t` (terminal labels of well-formed inputs are
distinct, so they are identified with their indices). -/
inductive Node where
  | cluster (i : ℤ) : Node
  | terminal (t : ℕ) : Node
deriving DecidableEq, Repr

instance : BEq Node := ⟨fun a b => decide (a = b)⟩

instance : LawfulBEq Node where
  eq_of_beq h := by simpa [BEq.beq] using h
  rfl := by simp [BEq.beq]

/-- `istuple(n)`: cluster/root nodes are the Python tuples, terminals are not. -/
def istuple : Node → Bool
  | .cluster _ => true
  | .terminal _ => false

/-- A directed graph with insertion-ordered nodes and weighted edges,
mirroring the `networkx.DiGraph` dictionaries. -/
structure DiGraph where
  nodes : List Node
  edges : List ((Node × Node) × Frac)
deriving DecidableEq, Repr

namespace DiGraph

/-- `G.has_node(u)`. -/
def hasNode (G : DiGraph) (u : Node) : Bool := decide (u ∈ G.nodes)

/-- The weight attribute `G[u][v]['weight']`, when the edge exists. -/
def edgeWeight (G : DiGraph) (u v : Node) : Option Frac :=
  (G.edges.find? fun e => decide (e.1 = (u, v))).map (·.2)

/-- `G.has_edge(u, v)`. -/
def hasEdge (G : DiGraph) (u v : Node) : Bool := (G.edgeWeight u v).isSome

/-- `G.add_node(u)` (a no-op when the node exists). -/
def addNode (G : DiGraph) (u : Node) : DiGraph :=
  if u ∈ G.nodes then G else ⟨G.nodes ++ [u], G.edges⟩

/-- `G.add_edge(u, v, weight=w)`: adds missing endpoints, updates the weight
in place when the edge exists (dictionary order is preserved), appends the
edge otherwise. -/
def addEdge (G : DiGraph) (u v : Node) (w : Frac) : DiGraph :=
  let G1 := (G.addNode u).addNode v
  if G1.hasEdge u v then
    ⟨G1.nodes, G1.edges.map fun e => if e.1 = (u, v) then ((u, v), w) else e⟩
  else ⟨G1.nodes, G1.edges ++ [((u, v), w)]⟩

/-- `G.remove_edge(u, v)` (also `remove_edges_from` on one edge: edges absent
from the graph are ignored by the weaver's calls). -/
def removeEdge (G : DiGraph) (u v : Node) : DiGraph :=
  ⟨G.nodes, G.edges.filter fun e => !decide (e.1 = (u, v))⟩

/-- `G.remove_edges_from(l)`. -/
def removeEdgesFrom (G : DiGraph) (l : List (Node × Node)) : DiGraph :=
  l.foldl (fun g e => g.removeEdge e.1 e.2) G

/-- `G.remove_node(u)`: removes the node and all incident edges. -/
def removeNode (G : DiGraph) (u : Node) : DiGraph :=
  ⟨G.nodes.filter (fun v => !decide (v = u)),
   G.edges.filter fun e => !decide (e.1.1 = u) && !decide (e.1.2 = u)⟩

/-- `G.predecessors(v)`, in edge-insertion order. -/
def preds (G : DiGraph) (v : Node) : List Node :=
  G.edges.filterMap fun e => if e.1.2 = v then some e.1.1 else none

/-- `G.successors(u)`, in edge-insertion order. -/
def succs (G : DiGraph) (u : Node) : List Node :=
  G.edges.filterMap fun e => if e.1.1 = u then some e.1.2 else none

/-- `G.in_degree(v)`. -/
def inDeg (G : DiGraph) (v : Node) : ℕ := (G.preds v).length

/-- `G.out_degree(u)`. -/
def outDeg (G : DiGraph) (u : Node) : ℕ := (G.succs u).length

/-- One expansion step of the forward-reachability closure. -/
def reachStep (G : DiGraph) (S : Finset Node) : Finset Node :=
  G.edges.foldr (fun e acc => if e.1.1 ∈ S then insert e.1.2 acc else acc) S

/-- All nodes reachable from `u` (`u` included), by iterating `reachStep` to
its fixed point; `edges.length + 1` iterations always suffice. -/
def reachSet (G : DiGraph) (u : Node) : Finset Node :=
  (G.reachStep)^[G.edges.length + 1] {u}

/-- `networkx.has_path(G, u, v)` (true when `u = v`). -/
def hasPath (G : DiGraph) (u v : Node) : Bool := decide (v ∈ G.reachSet u)

/-- The edge relation of `G`, as a proposition. -/
def EdgeRel (G : DiGraph) (a b : Node) : Prop := G.hasEdge a b = true

/-- Reachability in `G` (reflexive-transitive closure of the edge relation). -/
def Reaches (G : DiGraph) : Node → Node → Prop := Relation.ReflTransGen G.EdgeRel

/-- A graph is acyclic when mutual reachability forces equality. -/
def Acyclic (G : DiGraph) : Prop :=
  ∀ u v, G.Reaches u v → G.Reaches v u → u = v

theorem hasEdge_iff_exists {G : DiGraph} {u v : Node} :
    G.hasEdge u v = true ↔ ∃ w, ((u, v), w) ∈ G.edges := by
  unfold hasEdge edgeWeight
  constructor
  · intro h
    have : (G.edges.find? fun e => decide (e.1 = (u, v))).isSome := by
      cases hf : G.edges.find? fun e => decide (e.1 = (u, v)) <;>
        simp [hf] at h ⊢
    rw [List.find?_isSome] at this
    rcases this with ⟨e, he, hp⟩
    exact ⟨e.2, by
      have : e.1 = (u, v) := by simpa using hp
      rw [← this]; exact he⟩
  · rintro ⟨w, hw⟩
    have : (G.edges.find? fun e => decide (e.1 = (u, v))).isSome := by
      rw [List.find?_isSome]
      exact ⟨((u, v), w), hw, by simp⟩
    cases hf : G.edges.find? fun e => decide (e.1 = (u, v)) <;>
      simp [hf] at this ⊢

theorem mem_foldr_reach {S : Finset Node} {v : Node}
    (l : List ((Node × Node) × Frac)) :
    v ∈ l.foldr (fun e acc => if e.1.1 ∈ S then insert e.1.2 acc else acc) S ↔
      v ∈ S ∨ ∃ e ∈ l, e.1.1 ∈ S ∧ e.1.2 = v := by
  induction l with
  | nil => simp
  | cons e l ih =>
    simp only [List.foldr_cons, List.mem_cons]
    by_cases h : e.1.1 ∈ S
    · rw [if_pos h, Finset.mem_insert, ih]
      constructor
      · rintro (hv | hv | ⟨e', he', hs, hv⟩)
        · exact Or.inr ⟨e, Or.inl rfl, h, hv.symm⟩
        · exact Or.inl hv
        · exact Or.inr ⟨e', Or.inr he', hs, hv⟩
      · rintro (hv | ⟨e', (rfl | he'), hs, hv⟩)
        · exact Or.inr (Or.inl hv)
        · exact Or.inl hv.symm
        · exact Or.inr (Or.inr ⟨e', he', hs, hv⟩)
    · rw [if_neg h, ih]
      constructor
      · rintro (hv | ⟨e', he', hs, hv⟩)
        · exact Or.inl hv
        · exact Or.inr ⟨e', Or.inr he', hs, hv⟩
      · rintro (hv | ⟨e', (rfl | he'), hs, hv⟩)
        · exact Or.inl hv
        · exact absurd hs h
        · exact Or.inr ⟨e', he', hs, hv⟩

theorem mem_reachStep {G : DiGraph} {S : Finset Node} {v : Node} :
    v ∈ G.reachStep S ↔ v ∈ S ∨ ∃ a ∈ S, G.EdgeRel a v := by
  unfold reachStep
  rw [mem_foldr_reach]
  constructor
  · rintro (h | ⟨e, he, ha, hv⟩)
    · exact Or.inl h
    · exact Or.inr ⟨e.1.1, ha,
        hasEdge_iff_exists.mpr ⟨e.2, by rcases e with ⟨⟨a, b⟩, w⟩; cases hv; exact he⟩⟩
  · rintro (h | ⟨a, ha, hrel⟩)
    · exact Or.inl h
    · rcases hasEdge_iff_exists.mp hrel with ⟨w, hw⟩
      exact Or.inr ⟨((a, v), w), hw, ha, rfl⟩

theorem subset_reachStep (G : DiGraph) (S : Finset Node) : S ⊆ G.reachStep S :=
  fun _ h => mem_reachStep.mpr (Or.inl h)

theorem reachStep_subset_union (G : DiGraph) (S : Finset Node) :
    G.reachStep S ⊆ S ∪ (G.edges.map fun e => e.1.2).toFinset := by
  intro v hv
  rcases mem_reachStep.mp hv with h | ⟨a, _, hrel⟩
  · exact Finset.mem_union_left _ h
  · rcases hasEdge_iff_exists.mp hrel with ⟨w, hw⟩
    refine Finset.mem_union_right _ ?_
    simp only [List.mem_toFinset, List.mem_map]
    exact ⟨((a, v), w), hw, rfl⟩

end DiGraph

namespace DiGraph

theorem reachSet_sound (G : DiGraph) (u : Node) :
    ∀ v ∈ G.reachSet u, G.Reaches u v := by
  unfold reachSet
  generalize G.edges.length + 1 = n
  induction n with
  | zero => intro v hv; simp at hv; rw [hv]; exact Relation.ReflTransGen.refl
  | succ n ih =>
    intro v hv
    rw [Function.iterate_succ_apply'] at hv
    rcases mem_reachStep.mp hv with h | ⟨a, ha, hrel⟩
    · exact ih v h
    · exact Relation.ReflTransGen.tail (ih a ha) hrel

theorem self_mem_iterate_reachStep (G : DiGraph) (u : Node) (n : ℕ) :
    u ∈ (G.reachStep)^[n] {u} := by
  induction n with
  | zero => simp
  | succ n ih =>
    rw [Function.iterate_succ_apply']
    exact subset_reachStep G _ ih

theorem iterate_reachStep_subset (G : DiGraph) (u : Node) (n : ℕ) :
    (G.reachStep)^[n] {u} ⊆ insert u (G.edges.map fun e => e.1.2).toFinset := by
  induction n with
  | zero => simp
  | succ n ih =>
    rw [Function.iterate_succ_apply']
    intro v hv
    rcases Finset.mem_union.mp (reachStep_subset_union G _ hv) with h | h
    · exact ih h
    · exact Finset.mem_insert_of_mem h

theorem iterate_reachStep_mono_succ (G : DiGraph) (u : Node) (n : ℕ) :
    (G.reachStep)^[n] {u} ⊆ (G.reachStep)^[n + 1] {u} := by
  rw [Function.iterate_succ_apply']
  exact subset_reachStep G _

/-- The closure stabilizes within `edges.length + 1` iterations. -/
theorem reachSet_fixed (G : DiGraph) (u : Node) :
    G.reachStep (G.reachSet u) = G.reachSet u := by
  set N := G.edges.length + 1 with hN
  by_cases hstab : ∃ k < N, (G.reachStep)^[k + 1] {u} = (G.reachStep)^[k] {u}
  · rcases hstab with ⟨k, hk, hfix⟩
    have hfix' : G.reachStep ((G.reachStep)^[k] {u}) = (G.reachStep)^[k] {u} := by
      rw [← Function.iterate_succ_apply' G.reachStep k {u}]; exact hfix
    have hall : ∀ m, (G.reachStep)^[k + m] {u} = (G.reachStep)^[k] {u} := by
      intro m
      rw [Nat.add_comm, Function.iterate_add_apply]
      exact Function.iterate_fixed hfix' m
    have h1 : G.reachSet u = (G.reachStep)^[k] {u} := by
      unfold reachSet
      rw [← hN, show N = k + (N - k) by omega, hall]
    rw [h1, hfix']
  · exfalso
    push_neg at hstab
    have hgrow : ∀ k, k ≤ N → k + 1 ≤ ((G.reachStep)^[k] {u}).card := by
      intro k
      induction k with
      | zero =>
        intro _
        simpa using Finset.card_pos.mpr ⟨u, by simp⟩
      | succ k ih =>
        intro hk
        have hne := hstab k (by omega)
        have hsub := iterate_reachStep_mono_succ G u k
        have : ((G.reachStep)^[k] {u}).card < ((G.reachStep)^[k + 1] {u}).card :=
          Finset.card_lt_card (Finset.ssubset_iff_subset_ne.mpr ⟨hsub, fun h => hne h.symm⟩)
        have := ih (by omega)
        omega
    have hbound : ((G.reachStep)^[N] {u}).card ≤ N := by
      calc ((G.reachStep)^[N] {u}).card
          ≤ (insert u (G.edges.map fun e => e.1.2).toFinset).card :=
            Finset.card_le_card (iterate_reachStep_subset G u N)
        _ ≤ (G.edges.map fun e => e.1.2).toFinset.card + 1 := Finset.card_insert_le _ _
        _ ≤ (G.edges.map fun e => e.1.2).length + 1 := by
            have := List.toFinset_card_le (G.edges.map fun e => e.1.2)
            omega
        _ = N := by simp [hN]
    have := hgrow N le_rfl
    omega

theorem reaches_mem_reachSet (G : DiGraph) {u v : Node} (h : G.Reaches u v) :
    v ∈ G.reachSet u := by
  induction h with
  | refl => exact self_mem_iterate_reachStep G u _
  | tail _ hrel ih =>
    have := mem_reachStep.mpr (Or.inr ⟨_, ih, hrel⟩)
    rwa [reachSet_fixed] at this

/-- `has_path` coincides with reachability. -/
theorem hasPath_iff (G : DiGraph) (u v : Node) :
    G.hasPath u v = true ↔ G.Reaches u v := by
  unfold hasPath
  rw [decide_eq_true_eq]
  exact ⟨fun h => reachSet_sound G u v h, fun h => reaches_mem_reachSet G h⟩

/-- Monotonicity of reachability under edge-set inclusion. -/
theorem reaches_mono {G H : DiGraph}
    (hsub : ∀ a b, G.hasEdge a b = true → H.hasEdge a b = true) :
    ∀ {u v}, G.Reaches u v → H.Reaches u v := by
  intro u v h
  induction h with
  | refl => exact Relation.ReflTransGen.refl
  | tail _ hrel ih => exact Relation.ReflTransGen.tail ih (hsub _ _ hrel)

theorem reaches_trans {G : DiGraph} {u v w : Node}
    (h1 : G.Reaches u v) (h2 : G.Reaches v w) : G.Reaches u w :=
  Relation.ReflTransGen.trans h1 h2

/-- A strictly decreasing measure along edges yields acyclicity. -/
theorem acyclic_of_measure {α : Type} [Preorder α] (G : DiGraph) (f : Node → α)
    (hf : ∀ u v, G.EdgeRel u v → f v < f u) : G.Acyclic := by
  have hle : ∀ a b, G.Reaches a b → f b ≤ f a := by
    intro a b h
    induction h with
    | refl => exact le_refl _
    | tail _ hrel ih => exact le_trans (le_of_lt (hf _ _ hrel)) ih
  intro u v huv hvu
  by_contra hne
  rcases (Relation.ReflTransGen.cases_head huv) with rfl | ⟨c, hc, hcv⟩
  · exact hne rfl
  · exact absurd (lt_of_lt_of_le (hf _ _ hc) (hle _ _ hvu))
      (not_lt_of_le (hle _ _ hcv))

/-- Acyclicity transfers along graphs with fewer edges. -/
theorem acyclic_of_subgraph {G H : DiGraph}
    (hsub : ∀ a b, G.hasEdge a b = true → H.hasEdge a b = true)
    (hH : H.Acyclic) : G.Acyclic := by
  intro u v h1 h2
  exact hH u v (reaches_mono hsub h1) (reaches_mono hsub h2)

end DiGraph

/-! ## Candidate Graph Builder (`Weaver._build`) -/

namespace Frac

/-- Python `x == 0` for a float with positive denominator. -/
def isZero (a : Frac) : Bool := decide (a.num = 0)

/-- Python `int(x)` (truncation towards zero). -/
def toIntTrunc (a : Frac) : ℤ := a.num.tdiv a.den

end Frac

/-- The ordered pair generator of `_build`: all pairs `(i, j)` of
`itertools.product(range(n), range(n))` in row-major order, restricted to
`levels[i] > levels[j]` when levels are assumed and to `i ≠ j` otherwise. -/
def buildPairs (nSets : ℕ) (assumeLevels : Bool) (levels : List ℤ) :
    List (ℕ × ℕ) :=
  let allPairs :=
    (List.range nSets).flatMap fun i => (List.range nSets).map fun j => (i, j)
  if assumeLevels then
    allPairs.filter fun p => decide (levels.getD p.1 0 > levels.getD p.2 0)
  else
    allPairs.filter fun p => decide (p.1 ≠ p.2)

/-- One iteration of the edge loop of `_build` on the pair `(i, j)`:
registers both cluster nodes, and for `CI[i,j] >= cutoff` adds the edge
`(j,0) -> (i,0)` with weight `CI[i,j]`, first removing an antiparallel edge
`(i,0) -> (j,0)` of strictly smaller weight (when the antiparallel edge has
greater or equal weight the pair is skipped). -/
def edgeLoopStep (CI : List (List Frac)) (cutoff : Frac)
    (G : DiGraph) (p : ℕ × ℕ) : DiGraph :=
  let i := p.1
  let j := p.2
  let C := getCI CI i j
  let na : Node := .cluster (i : ℤ)
  let nb : Node := .cluster (j : ℤ)
  let G1 := (G.addNode na).addNode nb
  if Frac.le cutoff C then
    if G1.hasEdge na nb then
      let C0 := (G1.edgeWeight na nb).getD Frac.zero
      if Frac.lt C0 C then ((G1.removeEdge na nb).addEdge nb na C)
      else G1
    else G1.addEdge nb na C
  else G1

/-- The whole edge loop of `_build`. -/
def edgeLoop (CI : List (List Frac)) (cutoff : Frac)
    (pairs : List (ℕ × ℕ)) : DiGraph :=
  pairs.foldl (edgeLoopStep CI cutoff) ⟨[], []⟩

/-- The in-degree-zero nodes, in node-insertion order (the `roots` list). -/
def rootsOf (G : DiGraph) : List Node :=
  G.nodes.filter fun v => decide (G.inDeg v = 0)

/-- Root synthesis of `_build`: when several roots exist, the virtual root
`(-1, 0)` is added with a weight-1 edge to each; with a single root that node
is used; with no roots `roots[0]` raises `IndexError` (modelled as `none`). -/
def addRootPhase (G : DiGraph) : Option (DiGraph × Node) :=
  let roots := rootsOf G
  if roots.length > 1 then
    let root : Node := .cluster (-1)
    some (roots.foldl (fun g node => g.addEdge root node Frac.one)
      (G.addNode root), root)
  else
    match roots with
    | [] => none
    | r :: _ => some (G, r)

/-- The grandparent test of the redundancy scan: some strict ancestor `b` of
`node` is a direct successor of the parent `a`.  (`nx.ancestors(G, node)` is
the set of `b ≠ node` with a path to `node`; the `neq(a, b)` guard of the
source always returns `True` on plain tuples, so it imposes nothing.) -/
def isGrandparent (G : DiGraph) (node a : Node) : Bool :=
  G.nodes.any fun b => decide (b ≠ node) && G.hasPath b node && G.hasEdge a b

/-- The redundant edges collected by `_build` (parent edges short-circuiting
an ancestor chain), in scan order. -/
def redundantEdges (G : DiGraph) : List (Node × Node) :=
  G.nodes.flatMap fun node =>
    ((G.preds node).filter fun a => isGrandparent G node a).map fun a => (a, node)

/-- Redundancy removal of `_build`: all redundant edges are collected first
and removed together. -/
def redundancyPhase (G : DiGraph) : DiGraph :=
  G.removeEdgesFrom (redundantEdges G)

/-- Scan of `reversed(attached)` during terminal attachment, on the reversed
attached list: stops (and keeps the rest) at the first `other` reachable from
`node`; drops every `other` from which `node` is reachable.  Returns the kept
part (still reversed), the dropped nodes, and the skip flag.  Terminal-edge
removals cannot change cluster-to-cluster reachability (terminals have no
out-edges), so the scan may query reachability in the pre-scan graph. -/
def scanAttached (G : DiGraph) (node : Node) :
    List Node → List Node × List Node × Bool
  | [] => ([], [], false)
  | other :: rest =>
    if G.hasPath node other then (other :: rest, [], true)
    else if G.hasPath other node then
      let (s, r, sk) := scanAttached G node rest
      (s, other :: r, sk)
    else
      let (s, r, sk) := scanAttached G node rest
      (other :: s, r, sk)

/-- Attachment of one terminal `t` to `node`: the attached record is filtered
by `scanAttached`, the corresponding terminal edges are removed, and unless
the scan skipped, the edge `node -> t` is added with weight 1. -/
def attachOne (G : DiGraph) (node : Node) (t : ℕ) (attached : List Node) :
    DiGraph × List Node :=
  let ter : Node := .terminal t
  let (survRev, removed, skip) := scanAttached G node attached.reverse
  let G' := removed.foldl (fun g other => g.removeEdge other ter) G
  let attached' := survRev.reverse
  if skip then (G', attached')
  else (G'.addEdge node ter Frac.one, attached' ++ [node])

/-- State of the terminal-attachment loop: the graph and the per-terminal
record of attached cluster nodes. -/
structure AttachState where
  G : DiGraph
  record : ℕ → List Node

/-- Attachment of all terminals contained in one cluster node (`x = X[L[n]]`,
in index order). -/
def attachNodeTerminals (node : Node) (x : List ℕ) (st : AttachState) :
    AttachState :=
  x.foldl (fun st t =>
    let p := attachOne st.G node t (st.record t)
    ⟨p.1, fun u => if u = t then p.2 else st.record u⟩) st

/-- The terminal-attachment phase of `_build`: iterates over the snapshot of
the graph's cluster nodes (insertion order), skipping the virtual root. -/
def attachPhase (L : List (List Bool)) (G0 : DiGraph) : DiGraph :=
  (G0.nodes.foldl (fun (st : AttachState) (node : Node) =>
    match node with
    | .terminal _ => st
    | .cluster n =>
      if n = -1 then st
      else
        let row := L.getD n.toNat []
        let x := (List.range row.length).filter fun t => row.getD t false
        attachNodeTerminals (.cluster n) x st) ⟨G0, fun _ => []⟩).G

/-! ## Secondary Edge Ranker -/

/-- Python list indexing including the negative-index convention
(`L[-1]` is the last row). -/
def pyIndex (n : ℕ) (i : ℤ) : ℕ := if i < 0 then ((n : ℤ) + i).toNat else i.toNat

/-- `node_size`: number of terminals of a cluster (via its assignment row,
with Python negative indexing for the virtual root), 1 for a terminal. -/
def node_size (L : List (List Bool)) : Node → ℕ
  | .cluster i => countNonzero (L.getD (pyIndex L.length i) [])
  | .terminal _ => 1

/-- The preference score of a parent `p` of an internal `node`:
`usize / (nsize + psize - usize)` with `usize = w * nsize`. -/
def parentPref (L : List (List Bool)) (G : DiGraph) (node p : Node) : Frac :=
  let w := (G.edgeWeight p node).getD Frac.zero
  let nsize := Frac.ofNat (node_size L node)
  let psize := Frac.ofNat (node_size L p)
  let usize := Frac.mul w nsize
  Frac.div usize (Frac.sub (Frac.add nsize psize) usize)

/-- Stable descending comparison by fractional score (Python's stable sort
with `reverse=True`). -/
def prefGe (a b : Node × Frac) : Prop := Frac.le b.2 a.2 = true

instance : DecidableRel prefGe := fun a b => by
  unfold prefGe; infer_instance

/-- Stable descending comparison by integer score. -/
def stepsGe (a b : (Node × Node) × ℕ) : Prop := b.2 ≤ a.2

instance : DecidableRel stepsGe := fun a b => by
  unfold stepsGe; infer_instance

/-- Stable descending comparison by fractional score on scored edges. -/
def edgePrefGe (a b : (Node × Node) × Frac) : Prop := Frac.le b.2 a.2 = true

instance : DecidableRel edgePrefGe := fun a b => by
  unfold edgePrefGe; infer_instance

/-- The ranked parent edges of an internal node (descending preference,
stable in the predecessor order). -/
def rankedParentEdges (L : List (List Bool)) (G : DiGraph) (node : Node) :
    List ((Node × Node) × Frac) :=
  let parents := G.preds node
  let pref := parents.map fun p => parentPref L G node p
  ((parents.zip pref).insertionSort prefGe).map fun x => ((x.1, node), x.2)

/-- `nx.shortest_path_length(G, root, p)`: the least `k` with `p` in the
`k`-th expansion of the closure from `root` (the weaver queries only
reachable parents; unreachable ones would raise and are given 0). -/
def distFromRoot (G : DiGraph) (root p : Node) : ℕ :=
  ((List.range (G.edges.length + 2)).find? fun k =>
    decide (p ∈ (G.reachStep)^[k] {root})).getD 0

/-- The ranked parent edges of a terminal node (descending distance from the
root, stable in the predecessor order). -/
def rankedTerminalEdges (G : DiGraph) (root : Node) (node : Node) :
    List ((Node × Node) × ℕ) :=
  let parents := G.preds node
  let scored := parents.map fun p => ((p, node), distFromRoot G root p)
  scored.insertionSort stepsGe

/-- The secondary-edge scan of `_build`: for every node with more than one
parent, all ranked parent edges except the top one, collected over nodes in
insertion order, then globally sorted descending by score (Python's stable
`sort(reverse=True)`). -/
def findSecondary (L : List (List Bool)) (G : DiGraph) (root : Node) :
    List ((Node × Node) × Frac) × List ((Node × Node) × ℕ) :=
  let perNode := G.nodes.map fun node =>
    if (G.preds node).length > 1 then
      if istuple node then ((rankedParentEdges L G node).drop 1, ([] : List ((Node × Node) × ℕ)))
      else (([] : List ((Node × Node) × Frac)), (rankedTerminalEdges G root node).drop 1)
    else ([], [])
  let secondary := (perNode.map Prod.fst).flatten
  let secter := (perNode.map Prod.snd).flatten
  (secondary.insertionSort edgePrefGe, secter.insertionSort stepsGe)

/-- The result of `Weaver._build`: the cached full candidate graph
(`self._full`), its root, and the two secondary-edge pools. -/
structure BuildResult where
  full : DiGraph
  root : Node
  secondary : List ((Node × Node) × Frac)
  secter : List ((Node × Node) × ℕ)
deriving DecidableEq, Repr

/-- `Weaver._build(cutoff=...)` on the assignment matrix `L` (one row per
cluster), per-cluster levels and the `assume_levels` flag: edge loop on the
containment indices, root synthesis (`none` when the graph has no root:
`roots[0]` raises `IndexError`), redundancy removal, terminal attachment and
the secondary-edge scan. -/
def build (L : List (List Bool)) (levels : List ℤ) (assumeLevels : Bool)
    (cutoff : Frac) : Option BuildResult :=
  let CI := containment_indices_boolean L L
  let pairs := buildPairs L.length assumeLevels levels
  let G1 := edgeLoop CI cutoff pairs
  match addRootPhase G1 with
  | none => none
  | some (G2, root) =>
    let G3 := redundancyPhase G2
    let G4 := attachPhase L G3
    let sec := findSecondary L G4 root
    some ⟨G4, root, sec.1, sec.2⟩

/-! ## Tree Pruner (`prune`) -/

/-- `get_root(T)`: the first node with in-degree 0 (insertion order),
`none` when there is no such node. -/
def getRoot (T : DiGraph) : Option Node :=
  T.nodes.find? fun v => decide (T.inDeg v = 0)

/-- One visit of the dead-end loop of `prune`: an internal node of
out-degree 0 at visit time is removed from the graph and from the working
list. -/
def deadStep (acc : DiGraph × List Node) (node : Node) : DiGraph × List Node :=
  if istuple node && decide (acc.1.outDeg node = 0) then
    (acc.1.removeNode node, acc.2.erase node)
  else acc

/-- One pass of the dead-end loop of `prune`: visits the working list of
internal nodes in reverse (the Python loop mutates graph and list while
iterating; removing the current element keeps the reversed visit order). -/
def deadPass (tl : DiGraph × List Node) : DiGraph × List Node :=
  tl.2.reverse.foldl deadStep tl

/-- The `while (0 in out_degrees)` loop of `prune`.  Each productive pass
removes at least one node, so `length + 1` units of fuel always reach the
loop's exit condition. -/
def deadLoopF : ℕ → DiGraph × List Node → DiGraph × List Node
  | 0, tl => tl
  | fuel + 1, tl =>
    if (tl.2.map tl.1.outDeg).contains 0 then deadLoopF fuel (deadPass tl)
    else tl

/-- The dead-end-removal phase of `prune`. -/
def deadEndPhase (T : DiGraph) : DiGraph × List Node :=
  let internal := T.nodes.filter istuple
  deadLoopF (internal.length + 1) (T, internal)

/-- `_single_branch(node)` of `prune`, under either policy. -/
def singleBranch (strict : Bool) (T : DiGraph) (node : Node) : Bool :=
  if T.inDeg node ≠ 1 then false
  else
    let outdeg : ℕ :=
      if strict then
        let od := T.outDeg node
        if od = 1 then
          match T.succs node with
          | child :: _ => if istuple child then od else 0
          | [] => od
        else od
      else ((T.succs node).filter istuple).length
    if outdeg > 1 then false
    else if outdeg = 0 then decide (T.outDeg node = 1)
    else true

/-- Collapse of a single-branch node: every child is re-attached to the
unique parent with the summed weight, then the node is removed. -/
def collapseNode (T : DiGraph) (node : Node) : DiGraph :=
  match T.preds node with
  | parent :: _ =>
    let w1 := (T.edgeWeight parent node).getD Frac.zero
    let children := T.succs node
    (children.foldl (fun t child =>
      let w2 := (t.edgeWeight node child).getD Frac.zero
      t.addEdge parent child (Frac.add w1 w2)) T).removeNode node
  | [] => T

/-- Breadth-first traversal worklist (`traverse_topdown`, breadth mode):
pops the queue head, skips visited nodes, appends successors.  The number of
iterations is bounded by the queue insertions (`edges + 2` suffices). -/
def bfsList : ℕ → DiGraph → List Node → (Node → Bool) → List Node → List Node
  | 0, _, _, _, acc => acc.reverse
  | _ + 1, _, [], _, acc => acc.reverse
  | fuel + 1, T, node :: Q, visited, acc =>
    if visited node then bfsList fuel T Q visited acc
    else bfsList fuel T (Q ++ T.succs node) (fun v => v = node || visited v)
      (node :: acc)

/-- `traverse_topdown(T)` in breadth-first mode, starting at `get_root(T)`
(the weaver's graphs always have a root; without one the Python generator
would fault on `None`). -/
def traverse_topdown (T : DiGraph) : List Node :=
  match getRoot T with
  | none => []
  | some root => bfsList (T.edges.length + 2) T [root] (fun _ => false) []

/-- The single-branch collapse pass of `prune`: the traversal order is
computed once, then each listed node still forming a single branch in the
current graph is collapsed. -/
def collapsePhase (strict : Bool) (T : DiGraph) (order : List Node) : DiGraph :=
  order.foldl (fun t node =>
    if singleBranch strict t node then collapseNode t node else t) T

/-- `prune(T, strict_single_branch=strict)`: dead-end removal, then
single-branch collapse along the breadth-first top-down order. -/
def prune (strict : Bool) (T : DiGraph) : DiGraph :=
  let T1 := (deadEndPhase T).1
  collapsePhase strict T1 (traverse_topdown T1)

/-! ## Edge Selector (`Weaver.pick`) -/

/-- The percentile trimming of `pick` applied to one secondary pool: at 0%
every pooled edge is removed, below 100% the pool's tail after the top
`len * percentage / 100` (truncated) entries is removed, and at (or above)
100% nothing is removed. -/
def trimSecondary (T : DiGraph) (pool : List (Node × Node))
    (percentage : Frac) : DiGraph :=
  if percentage.isZero then T.removeEdgesFrom pool
  else if Frac.lt percentage ⟨100, 1⟩ then
    let n := ((Frac.mul (Frac.ofNat pool.length) percentage).div
      ⟨100, 1⟩).toIntTrunc.toNat
    T.removeEdgesFrom (pool.drop n)
  else T

/-- The manual-edge loop of `pick`: each `(u, v)` must exist in the cached
candidate graph `G` (otherwise the loop raises `ValueError`, modelled by the
error aborting the recursion); under `replace` all current parent edges of
`v` are removed first; the edge is added with weight 1. -/
def applyAdditional (G T : DiGraph) (addEdges : List (Node × Node))
    (replace : Bool) : Except PyErr DiGraph :=
  match addEdges with
  | [] => .ok T
  | uv :: rest =>
    if G.hasEdge uv.1 uv.2 then
      applyAdditional G
        ((if replace then
            T.removeEdgesFrom ((T.preds uv.2).map fun w => (w, uv.2))
          else T).addEdge uv.1 uv.2 Frac.one) rest replace
    else .error .valueError

/-- The edge-selection part of `pick` (everything before pruning): trims the
two secondary pools on a copy of the full graph, then applies manual edges. -/
def pickCore (br : BuildResult) (pe pt : Frac)
    (addEdges : Option (List (Node × Node))) (replace : Bool) :
    Except PyErr DiGraph :=
  let secondary := br.secondary.map (·.1)
  let sectereg := br.secter.map (·.1)
  let T := trimSecondary br.full secondary pe
  let T := trimSecondary T sectereg pt
  match addEdges with
  | none => .ok T
  | some adds => applyAdditional br.full T adds replace

/-- The weaver state observable across `pick` calls: the cached build and
the current hierarchy. -/
structure WeaverState where
  build : BuildResult
  hier : Option DiGraph
deriving DecidableEq, Repr

/-- `Weaver.pick(percentage_edges, percentage_terminal_edges, additional=...,
replace=..., strict_single_branch=...)`: on success the pruned selection
becomes the new hierarchy; a raised `ValueError` (a manual edge absent from
the candidate graph) propagates before `self.hier` is assigned, so the state
is returned unchanged. -/
def pick (ws : WeaverState) (pe pt : Frac)
    (addEdges : Option (List (Node × Node))) (replace strict : Bool) :
    WeaverState × Except PyErr DiGraph :=
  match pickCore ws.build pe pt addEdges replace with
  | .error e => (ws, .error e)
  | .ok T =>
    let h := prune strict T
    ({ ws with hier := some h }, .ok h)

/-! ## Depth annotation (`Weaver.update_depth`) -/

/-- State of the `_update_topdown` worklist: the partial depth assignment
(`'depth' in T.nodes[v]`) and the queue. -/
structure DepthState where
  depth : Node → Option ℕ
  queue : List Node

/-- The relaxation of all children of one popped parent: a child is assigned
`parent depth + 1` and re-enqueued whenever unassigned or currently deeper. -/
def relaxChildren (T : DiGraph) (parent : Node) (parDepth : ℕ)
    (st : DepthState) : DepthState :=
  (T.succs parent).foldl (fun (s : DepthState) child =>
    match s.depth child with
    | some chDepth =>
      if chDepth ≤ parDepth + 1 then s
      else ⟨fun v => if v = child then some (parDepth + 1) else s.depth v,
        s.queue ++ [child]⟩
    | none =>
      ⟨fun v => if v = child then some (parDepth + 1) else s.depth v,
        s.queue ++ [child]⟩) st

/-- The `while Q` loop of `_update_topdown`, with explicit fuel. -/
def updateTopdown : ℕ → DiGraph → DepthState → DepthState
  | 0, _, st => st
  | fuel + 1, T, st =>
    match st.queue with
    | [] => st
    | parent :: Q =>
      let parDepth := ((st.depth parent).getD 0)
      updateTopdown fuel T (relaxChildren T parent parDepth ⟨st.depth, Q⟩)

/-- `Weaver.update_depth()`: sets the root depth to 0 and runs the top-down
relaxation (`none` models the error raised when no hierarchy is built, i.e.
no root exists). -/
def update_depth (fuel : ℕ) (T : DiGraph) : Option DepthState :=
  match getRoot T with
  | none => none
  | some root =>
    some (updateTopdown fuel T
      ⟨fun v => if v = root then some 0 else none, [root]⟩)

/-! ## Operation-level lemmas for the graph model -/

namespace DiGraph

/-- Well-formedness maintained by every graph operation of the weaver:
distinct nodes, distinct edge keys, and edge endpoints registered as nodes. -/
def WF (G : DiGraph) : Prop :=
  G.nodes.Nodup ∧ (G.edges.map Prod.fst).Nodup ∧
    ∀ e ∈ G.edges, e.1.1 ∈ G.nodes ∧ e.1.2 ∈ G.nodes

theorem edgeWeight_eq_some_iff {G : DiGraph} {u v : Node} {w : Frac}
    (hkeys : (G.edges.map Prod.fst).Nodup) :
    G.edgeWeight u v = some w ↔ ((u, v), w) ∈ G.edges := by
  unfold edgeWeight
  constructor
  · intro h
    rcases Option.map_eq_some'.mp h with ⟨e, hfind, hw⟩
    have hmem := List.mem_of_find?_eq_some hfind
    have hkey : e.1 = (u, v) := by
      have := List.find?_some hfind
      simpa using this
    rcases e with ⟨k, w'⟩
    simp only at hkey hw
    rw [hkey] at hmem
    rw [← hw]; exact hmem
  · intro h
    have hsome : (G.edges.find? fun e => decide (e.1 = (u, v))).isSome := by
      rw [List.find?_isSome]
      exact ⟨((u, v), w), h, by simp⟩
    rcases Option.isSome_iff_exists.mp hsome with ⟨e, hfind⟩
    have hmem := List.mem_of_find?_eq_some hfind
    have hkey : e.1 = (u, v) := by
      have := List.find?_some hfind
      simpa using this
    have : e.2 = w := by
      rcases e with ⟨k, w'⟩
      simp only at hkey
      subst hkey
      -- two entries with the same key in a key-nodup list coincide
      have h1 : ((u, v), w') ∈ G.edges := hmem
      have h2 : ((u, v), w) ∈ G.edges := h
      by_contra hne
      have : w' = w := by
        have hpair := List.inj_on_of_nodup_map hkeys h1 h2 rfl
        exact congrArg Prod.snd hpair
      exact hne this
    rw [hfind]
    simp [this]

theorem hasEdge_true_iff {G : DiGraph} {u v : Node} :
    G.hasEdge u v = true ↔ ∃ w, ((u, v), w) ∈ G.edges := hasEdge_iff_exists

theorem mem_preds {G : DiGraph} {a v : Node} :
    a ∈ G.preds v ↔ ∃ w, ((a, v), w) ∈ G.edges := by
  unfold preds
  rw [List.mem_filterMap]
  constructor
  · rintro ⟨e, he, hp⟩
    by_cases h : e.1.2 = v
    · rw [if_pos h] at hp
      rcases e with ⟨⟨x, y⟩, w⟩
      simp only at h hp
      subst h
      cases hp
      exact ⟨w, he⟩
    · rw [if_neg h] at hp; cases hp
  · rintro ⟨w, hw⟩
    exact ⟨((a, v), w), hw, by simp⟩

theorem mem_succs {G : DiGraph} {u b : Node} :
    b ∈ G.succs u ↔ ∃ w, ((u, b), w) ∈ G.edges := by
  unfold succs
  rw [List.mem_filterMap]
  constructor
  · rintro ⟨e, he, hp⟩
    by_cases h : e.1.1 = u
    · rw [if_pos h] at hp
      rcases e with ⟨⟨x, y⟩, w⟩
      simp only at h hp
      subst h
      cases hp
      exact ⟨w, he⟩
    · rw [if_neg h] at hp; cases hp
  · rintro ⟨w, hw⟩
    exact ⟨((u, b), w), hw, by simp⟩

theorem mem_preds_iff_hasEdge {G : DiGraph} {a v : Node} :
    a ∈ G.preds v ↔ G.hasEdge a v = true := by
  rw [mem_preds, hasEdge_true_iff]

theorem mem_succs_iff_hasEdge {G : DiGraph} {u b : Node} :
    b ∈ G.succs u ↔ G.hasEdge u b = true := by
  rw [mem_succs, hasEdge_true_iff]

theorem nodes_addNode (G : DiGraph) (u v : Node) :
    v ∈ (G.addNode u).nodes ↔ v ∈ G.nodes ∨ v = u := by
  unfold addNode
  by_cases h : u ∈ G.nodes
  · rw [if_pos h]
    exact ⟨Or.inl, fun hv => hv.elim id fun hv => hv ▸ h⟩
  · rw [if_neg h]
    simp

theorem edges_addNode (G : DiGraph) (u : Node) :
    (G.addNode u).edges = G.edges := by
  unfold addNode
  by_cases h : u ∈ G.nodes <;> simp [h]

theorem nodes_addEdge (G : DiGraph) (u v : Node) (w : Frac) (t : Node) :
    t ∈ (G.addEdge u v w).nodes ↔ t ∈ G.nodes ∨ t = u ∨ t = v := by
  unfold addEdge
  by_cases h : ((G.addNode u).addNode v).hasEdge u v = true
  · rw [if_pos h]
    show t ∈ ((G.addNode u).addNode v).nodes ↔ _
    rw [nodes_addNode, nodes_addNode]
    tauto
  · rw [if_neg h]
    show t ∈ ((G.addNode u).addNode v).nodes ↔ _
    rw [nodes_addNode, nodes_addNode]
    tauto

theorem edgeWeight_addEdge_self (G : DiGraph) (u v : Node) (w : Frac) :
    (G.addEdge u v w).edgeWeight u v = some w := by
  unfold addEdge
  set G1 := (G.addNode u).addNode v with hG1
  by_cases h : G1.hasEdge u v = true
  · rw [if_pos h]
    show (List.find? _ (G1.edges.map fun e => if e.1 = (u, v) then ((u, v), w) else e)).map _ = _
    have hfind : ∀ l : List ((Node × Node) × Frac),
        (∃ e ∈ l, e.1 = (u, v)) →
        (List.find? (fun e => decide (e.1 = (u, v)))
          (l.map fun e => if e.1 = (u, v) then ((u, v), w) else e)) = some ((u, v), w) := by
      intro l
      induction l with
      | nil => rintro ⟨e, he, _⟩; cases he
      | cons e l ih =>
        rintro ⟨e', he', hp⟩
        by_cases hk : e.1 = (u, v)
        · simp [List.find?_cons, hk]
        · rw [List.map_cons, if_neg hk, List.find?_cons_of_neg _ (by simpa using hk)]
          rcases List.mem_cons.mp he' with rfl | he'
          · exact absurd hp hk
          · exact ih ⟨e', he', hp⟩
    rw [hfind G1.edges]
    · rfl
    · rcases hasEdge_true_iff.mp h with ⟨w0, hw0⟩
      exact ⟨((u, v), w0), hw0, rfl⟩
  · rw [if_neg h]
    show (List.find? _ (G1.edges ++ [((u, v), w)])).map _ = _
    rw [List.find?_append]
    have hnone : G1.edges.find? (fun e => decide (e.1 = (u, v))) = none := by
      rw [List.find?_eq_none]
      intro e he
      by_contra hp
      have : e.1 = (u, v) := by simpa using hp
      exact absurd (hasEdge_true_iff.mpr ⟨e.2, by
        rcases e with ⟨k, w'⟩; simp only at this; rw [← this]; exact he⟩) h
    rw [hnone]
    simp

theorem edgeWeight_addEdge_other (G : DiGraph) (u v : Node) (w : Frac)
    {a b : Node} (h : ¬(a = u ∧ b = v)) :
    (G.addEdge u v w).edgeWeight a b = G.edgeWeight a b := by
  have hne : ((a, b) : Node × Node) ≠ (u, v) := by
    intro hc
    exact h ⟨congrArg Prod.fst hc, congrArg Prod.snd hc⟩
  unfold addEdge
  set G1 := (G.addNode u).addNode v with hG1
  have hG1e : G1.edges = G.edges := by
    rw [hG1, edges_addNode, edges_addNode]
  by_cases hh : G1.hasEdge u v = true
  · rw [if_pos hh]
    show (List.find? _ (G1.edges.map fun e => if e.1 = (u, v) then ((u, v), w) else e)).map _ = _
    unfold edgeWeight
    rw [← hG1e]
    congr 1
    have : ∀ l : List ((Node × Node) × Frac),
        List.find? (fun e => decide (e.1 = (a, b)))
          (l.map fun e => if e.1 = (u, v) then ((u, v), w) else e) =
        List.find? (fun e => decide (e.1 = (a, b))) l := by
      intro l
      induction l with
      | nil => rfl
      | cons e l ih =>
        by_cases hk : e.1 = (u, v)
        · rw [List.map_cons, if_pos hk,
            List.find?_cons_of_neg _ (by
              simp only [decide_eq_true_eq, Prod.mk.injEq, not_and]
              intro h1 h2
              exact hne (by rw [h1, h2])),
            List.find?_cons_of_neg _ (by
              simp only [hk, decide_eq_true_eq, Prod.mk.injEq, not_and]
              intro h1 h2
              exact hne (by rw [h1, h2])), ih]
        · rw [List.map_cons, if_neg hk]
          by_cases hab : e.1 = (a, b)
          · rw [List.find?_cons_of_pos _ (by simpa using hab),
              List.find?_cons_of_pos _ (by simpa using hab)]
          · rw [List.find?_cons_of_neg _ (by simpa using hab),
              List.find?_cons_of_neg _ (by simpa using hab), ih]
    exact this G1.edges
  · rw [if_neg hh]
    show (List.find? _ (G1.edges ++ [((u, v), w)])).map _ = _
    unfold edgeWeight
    rw [← hG1e, List.find?_append]
    have hlast : List.find? (fun e => decide (e.1 = (a, b))) [((u, v), w)] = none := by
      rw [List.find?_eq_none]
      intro e he
      have : e = ((u, v), w) := by simpa using he
      subst this
      simp only [decide_eq_true_eq, Prod.mk.injEq, not_and]
      intro h1 h2
      exact hne (by rw [h1, h2])
    rw [hlast]
    cases List.find? (fun e => decide (e.1 = (a, b))) G1.edges <;> rfl

theorem hasEdge_addEdge_iff (G : DiGraph) (u v : Node) (w : Frac) (a b : Node) :
    (G.addEdge u v w).hasEdge a b = true ↔
      (a = u ∧ b = v) ∨ G.hasEdge a b = true := by
  by_cases h : a = u ∧ b = v
  · rcases h with ⟨rfl, rfl⟩
    unfold hasEdge
    rw [edgeWeight_addEdge_self]
    simp
  · unfold hasEdge
    rw [edgeWeight_addEdge_other G u v w h]
    tauto

theorem edges_removeEdge_sub (G : DiGraph) (u v : Node) :
    (G.removeEdge u v).edges.Sublist G.edges := List.filter_sublist _

theorem edgeWeight_removeEdge_self (G : DiGraph) (u v : Node) :
    (G.removeEdge u v).edgeWeight u v = none := by
  unfold removeEdge edgeWeight
  rw [Option.map_eq_none', List.find?_eq_none]
  intro e he
  have := (List.mem_filter.mp he).2
  simp only [Bool.not_eq_true', decide_eq_false_iff_not] at this
  simpa using this

theorem edgeWeight_removeEdge_other (G : DiGraph) (u v : Node)
    {a b : Node} (h : ¬(a = u ∧ b = v)) :
    (G.removeEdge u v).edgeWeight a b = G.edgeWeight a b := by
  have hne : ((a, b) : Node × Node) ≠ (u, v) := by
    intro hc
    exact h ⟨congrArg Prod.fst hc, congrArg Prod.snd hc⟩
  unfold removeEdge edgeWeight
  congr 1
  induction G.edges with
  | nil => rfl
  | cons e l ih =>
    by_cases hk : e.1 = (u, v)
    · rw [List.filter_cons_of_neg (by simp [hk]),
        List.find?_cons_of_neg _ (by
          simp only [hk, decide_eq_true_eq, Prod.mk.injEq, not_and]
          intro h1 h2
          exact hne (by rw [h1, h2])), ih]
    · rw [List.filter_cons_of_pos (by simp [hk])]
      by_cases hab : e.1 = (a, b)
      · rw [List.find?_cons_of_pos _ (by simpa using hab),
          List.find?_cons_of_pos _ (by simpa using hab)]
      · rw [List.find?_cons_of_neg _ (by simpa using hab),
          List.find?_cons_of_neg _ (by simpa using hab), ih]

theorem hasEdge_removeEdge_iff (G : DiGraph) (u v a b : Node) :
    (G.removeEdge u v).hasEdge a b = true ↔
      G.hasEdge a b = true ∧ ¬(a = u ∧ b = v) := by
  by_cases h : a = u ∧ b = v
  · rcases h with ⟨rfl, rfl⟩
    unfold hasEdge
    rw [edgeWeight_removeEdge_self]
    simp
  · unfold hasEdge
    rw [edgeWeight_removeEdge_other G u v h]
    tauto

theorem nodes_removeEdge (G : DiGraph) (u v : Node) :
    (G.removeEdge u v).nodes = G.nodes := rfl

end DiGraph

namespace DiGraph

theorem nodes_removeNode (G : DiGraph) (x v : Node) :
    v ∈ (G.removeNode x).nodes ↔ v ∈ G.nodes ∧ v ≠ x := by
  unfold removeNode
  simp [List.mem_filter]


theorem edges_removeEdgesFrom (G : DiGraph) (l : List (Node × Node)) :
    (G.removeEdgesFrom l).edges =
      G.edges.filter fun e => decide (e.1 ∉ l) := by
  induction l generalizing G with
  | nil =>
    show G.edges = _
    rw [List.filter_eq_self.mpr]
    intro e _
    simp
  | cons uv l ih =>
    show ((G.removeEdge uv.1 uv.2).removeEdgesFrom l).edges = _
    rw [ih]
    show (G.edges.filter _).filter _ = _
    rw [List.filter_filter]
    apply List.filter_congr
    intro e _
    simp only [Bool.not_eq_true', decide_eq_false_iff_not, decide_eq_true_eq,
      Bool.and_eq_true, List.mem_cons]
    rcases e with ⟨k, w⟩
    by_cases h1 : k = (uv.1, uv.2) <;> by_cases h2 : k ∈ l <;>
      simp [h1, h2]


theorem hasEdge_removeEdgesFrom_iff (G : DiGraph) (l : List (Node × Node))
    (a b : Node) :
    (G.removeEdgesFrom l).hasEdge a b = true ↔
      G.hasEdge a b = true ∧ (a, b) ∉ l := by
  rw [hasEdge_true_iff, hasEdge_true_iff]
  constructor
  · rintro ⟨w, hw⟩
    rw [edges_removeEdgesFrom] at hw
    have hm := List.mem_filter.mp hw
    have := hm.2
    simp only [decide_eq_true_eq] at this
    exact ⟨⟨w, hm.1⟩, this⟩
  · rintro ⟨⟨w, hw⟩, hmem⟩
    refine ⟨w, ?_⟩
    rw [edges_removeEdgesFrom]
    exact List.mem_filter.mpr ⟨hw, by simpa using hmem⟩

theorem preds_removeEdgesFrom (G : DiGraph) (l : List (Node × Node)) (v : Node) :
    (G.removeEdgesFrom l).preds v =
      (G.preds v).filter fun a => decide ((a, v) ∉ l) := by
  unfold preds
  rw [edges_removeEdgesFrom]
  induction G.edges with
  | nil => rfl
  | cons e es ih =>
    rcases e with ⟨⟨x, y⟩, w⟩
    by_cases hm : ((x, y) : Node × Node) ∈ l
    · by_cases hy : y = v
      · subst hy
        simpa [List.filter_cons, List.filterMap_cons, hm] using ih
      · simpa [List.filter_cons, List.filterMap_cons, hm, hy] using ih
    · by_cases hy : y = v
      · subst hy
        simpa [List.filter_cons, List.filterMap_cons, hm] using ih
      · simpa [List.filter_cons, List.filterMap_cons, hm, hy] using ih

theorem preds_sub_of_edges_sub {G H : DiGraph}
    (h : G.edges.Sublist H.edges) (v : Node) :
    (G.preds v).Sublist (H.preds v) := h.filterMap _

theorem inDeg_le_of_edges_sub {G H : DiGraph}
    (h : G.edges.Sublist H.edges) (v : Node) : G.inDeg v ≤ H.inDeg v :=
  (preds_sub_of_edges_sub h v).length_le

theorem succs_sub_of_edges_sub {G H : DiGraph}
    (h : G.edges.Sublist H.edges) (u : Node) :
    (G.succs u).Sublist (H.succs u) := h.filterMap _

theorem outDeg_le_of_edges_sub {G H : DiGraph}
    (h : G.edges.Sublist H.edges) (u : Node) : G.outDeg u ≤ H.outDeg u :=
  (succs_sub_of_edges_sub h u).length_le

theorem edges_removeNode_sub (G : DiGraph) (x : Node) :
    (G.removeNode x).edges.Sublist G.edges := List.filter_sublist _

theorem edges_removeEdgesFrom_sub (G : DiGraph) (l : List (Node × Node)) :
    (G.removeEdgesFrom l).edges.Sublist G.edges := by
  rw [edges_removeEdgesFrom]
  exact List.filter_sublist _

theorem preds_nodup {G : DiGraph} (hkeys : (G.edges.map Prod.fst).Nodup)
    (v : Node) : (G.preds v).Nodup := by
  unfold preds
  have main : ∀ es : List ((Node × Node) × Frac), (es.map Prod.fst).Nodup →
      (es.filterMap fun e => if e.1.2 = v then some e.1.1 else none).Nodup := by
    intro es
    induction es with
    | nil => intro _; exact List.nodup_nil
    | cons e es ih =>
      intro hk
      rcases e with ⟨⟨x, y⟩, w⟩
      rw [List.map_cons] at hk
      have hk' := hk.of_cons
      have hnotin : ((x, y) : Node × Node) ∉ es.map Prod.fst :=
        (List.nodup_cons.mp hk).1
      by_cases hy : y = v
      · subst hy
        have hstep : (List.filterMap
            (fun (e : (Node × Node) × Frac) => if e.1.2 = y then some e.1.1 else none)
            ((((x, y), w)) :: es)) =
            x :: (es.filterMap fun e => if e.1.2 = y then some e.1.1 else none) := by
          simp [List.filterMap_cons]
        rw [hstep]
        refine List.nodup_cons.mpr ⟨?_, ih hk'⟩
        intro hx
        rw [List.mem_filterMap] at hx
        rcases hx with ⟨e', he', hp⟩
        have he1 : e'.1 = (x, y) := by
          by_cases h2 : e'.1.2 = y
          · rw [if_pos h2] at hp
            have hx1 : e'.1.1 = x := by simpa using hp
            rcases e' with ⟨⟨x', y'⟩, w'⟩
            simp only at h2 hx1
            rw [h2, hx1]
          · rw [if_neg h2] at hp; cases hp
        exact hnotin (by
          rw [← he1]
          exact List.mem_map_of_mem Prod.fst he')
      · have hstep : (List.filterMap
            (fun (e : (Node × Node) × Frac) => if e.1.2 = v then some e.1.1 else none)
            ((((x, y), w)) :: es)) =
            es.filterMap fun e => if e.1.2 = v then some e.1.1 else none := by
          simp [List.filterMap_cons, hy]
        rw [hstep]
        exact ih hk'
  exact main G.edges hkeys

end DiGraph

/-! ## A concrete built weaver (three nested clusters over three terminals) -/

/-- Assignment matrix of a small boolean input: one covering cluster and two
overlapping sub-clusters. -/
def exL : List (List Bool) :=
  [[true, true, true], [true, true, false], [false, true, true]]

/-- The build result of `weave` on `exL` with cutoff 0.8: terminal 1 is
covered by both incomparable sub-clusters, so one terminal edge is secondary. -/
def exBuild : BuildResult :=
  ⟨⟨[.cluster 0, .cluster 1, .cluster 2, .terminal 0, .terminal 1, .terminal 2],
    [((.cluster 0, .cluster 1), ⟨2, 2⟩),
     ((.cluster 0, .cluster 2), ⟨2, 2⟩),
     ((.cluster 1, .terminal 0), ⟨1, 1⟩),
     ((.cluster 1, .terminal 1), ⟨1, 1⟩),
     ((.cluster 2, .terminal 1), ⟨1, 1⟩),
     ((.cluster 2, .terminal 2), ⟨1, 1⟩)]⟩,
   .cluster 0,
   [],
   [((.cluster 2, .terminal 1), 1)]⟩

instance : DecidableEq (Except PyErr DiGraph) := fun a b =>
  match a, b with
  | .ok x, .ok y => if h : x = y then isTrue (by rw [h]) else isFalse (by simp [h])
  | .error x, .error y =>
    if h : x = y then isTrue (by rw [h]) else isFalse (by simp [h])
  | .ok _, .error _ => isFalse (by simp)
  | .error _, .ok _ => isFalse (by simp)

/-! ## C9: `pick(100)` versus the fully pruned candidate graph -/

/-- **C9, counterexample.** On the weaver built from `exL` (`build` returns
exactly `exBuild`), `pick(100)` — with its default
`percentage_terminal_edges = 0` — produces a hierarchy different from pruning
a copy of the untouched candidate graph: the secondary terminal edge
`(2,0) -> terminal 1` is removed first, after which cluster `(2,0)` forms a
single branch and is collapsed away. -/
theorem pick100_default_ne_prune_full :
    build exL [0, 1, 2] false ⟨8, 10⟩ = some exBuild ∧
    (pick ⟨exBuild, none⟩ ⟨100, 1⟩ ⟨0, 1⟩ none false false).2 ≠
      Except.ok (prune false exBuild.full) := by
  constructor
  · decide
  · decide

/-- **C9, amended.** `pick(100, percentage_terminal_edges=100)` with no
manual edges returns exactly the result of pruning a copy of the full
candidate graph from which no secondary edge (internal or terminal) has been
deleted; with the default `percentage_terminal_edges = 0`, `pick(100)` first
deletes every secondary terminal edge. -/
theorem pick_100_100_prunes_untouched_graph (ws : WeaverState)
    (replace strict : Bool) :
    pick ws ⟨100, 1⟩ ⟨100, 1⟩ none replace strict =
      ({ ws with hier := some (prune strict ws.build.full) },
        .ok (prune strict ws.build.full)) := by
  unfold pick pickCore trimSecondary Frac.isZero Frac.lt
  norm_num

/-! ## C8: manual additional edges in `pick` -/

/-- The per-edge step the manual-edge loop performs once all edges are known
to exist: with `replace`, all current parent edges of the target are removed
first; then the edge is added with weight 1. -/
def appliedAdditional (T : DiGraph) (adds : List (Node × Node))
    (replace : Bool) : DiGraph :=
  match adds with
  | [] => T
  | uv :: rest =>
    appliedAdditional
      ((if replace then
          T.removeEdgesFrom ((T.preds uv.2).map fun w => (w, uv.2))
        else T).addEdge uv.1 uv.2 Frac.one) rest replace

theorem applyAdditional_ok (G T : DiGraph) (adds : List (Node × Node))
    (replace : Bool) (hall : ∀ uv ∈ adds, G.hasEdge uv.1 uv.2 = true) :
    applyAdditional G T adds replace = .ok (appliedAdditional T adds replace) := by
  induction adds generalizing T with
  | nil => rfl
  | cons uv adds ih =>
    unfold applyAdditional appliedAdditional
    rw [if_pos (hall uv (List.mem_cons_self uv adds))]
    exact ih _ fun e he => hall e (List.mem_cons_of_mem uv he)

theorem applyAdditional_error_iff (G T : DiGraph) (adds : List (Node × Node))
    (replace : Bool) :
    (∃ e, applyAdditional G T adds replace = .error e) ↔
      ∃ uv ∈ adds, G.hasEdge uv.1 uv.2 = false := by
  constructor
  · intro ⟨e, he⟩
    by_contra hc
    push_neg at hc
    have hall : ∀ uv ∈ adds, G.hasEdge uv.1 uv.2 = true := by
      intro uv hm
      have := hc uv hm
      revert this
      cases G.hasEdge uv.1 uv.2 <;> simp
    rw [applyAdditional_ok G T adds replace hall] at he
    cases he
  · intro ⟨uv, hm, hmiss⟩
    induction adds generalizing T with
    | nil => cases hm
    | cons uv' adds ih =>
      unfold applyAdditional
      by_cases h' : G.hasEdge uv'.1 uv'.2 = true
      · rw [if_pos h']
        rcases List.mem_cons.mp hm with rfl | hm'
        · rw [h'] at hmiss; cases hmiss
        · exact ih _ hm'
      · rw [if_neg h']
        exact ⟨.valueError, rfl⟩

/-- **C8.** `pick` raises exactly when some manually supplied additional edge
is absent from the cached candidate graph (and the raised error is the
`ValueError`); when it raises, the stored weaver state — in particular the
previously stored hierarchy — is left untouched; and when every additional
edge exists, the selection applies, to the percentile-trimmed copy, the
per-edge step of `appliedAdditional`: with `replace` all other parent edges
of the target are removed first, then the edge is added with weight 1, and
the pruned result replaces the hierarchy. -/
theorem pick_additional_ok_and_error (ws : WeaverState) (pe pt : Frac)
    (adds : List (Node × Node)) (replace strict : Bool) :
    ((∃ e, (pick ws pe pt (some adds) replace strict).2 = .error e) ↔
      ∃ uv ∈ adds, ws.build.full.hasEdge uv.1 uv.2 = false) ∧
    ((∃ e, (pick ws pe pt (some adds) replace strict).2 = .error e) →
      (pick ws pe pt (some adds) replace strict).1 = ws) ∧
    ((∀ uv ∈ adds, ws.build.full.hasEdge uv.1 uv.2 = true) →
      pick ws pe pt (some adds) replace strict =
        (let T := trimSecondary
            (trimSecondary ws.build.full (ws.build.secondary.map (·.1)) pe)
            (ws.build.secter.map (·.1)) pt
         let T' := appliedAdditional T adds replace
         ({ ws with hier := some (prune strict T') }, .ok (prune strict T')))) := by
  have hcore : pickCore ws.build pe pt (some adds) replace =
      applyAdditional ws.build.full
        (trimSecondary
          (trimSecondary ws.build.full (ws.build.secondary.map (·.1)) pe)
          (ws.build.secter.map (·.1)) pt) adds replace := rfl
  set T0 := trimSecondary
      (trimSecondary ws.build.full (ws.build.secondary.map (·.1)) pe)
      (ws.build.secter.map (·.1)) pt with hT0
  refine ⟨?_, ?_, ?_⟩
  · constructor
    · intro ⟨e, he⟩
      refine (applyAdditional_error_iff ws.build.full T0 adds replace).mp ?_
      unfold pick at he
      rw [hcore] at he
      rcases h : applyAdditional ws.build.full T0 adds replace with e' | T
      · exact ⟨e', rfl⟩
      · rw [h] at he
        simp at he
    · intro hmiss
      rcases (applyAdditional_error_iff ws.build.full T0 adds replace).mpr
        hmiss with ⟨e, h⟩
      refine ⟨e, ?_⟩
      unfold pick
      rw [hcore, h]
  · intro ⟨e, he⟩
    unfold pick at he ⊢
    rw [hcore] at he ⊢
    rcases h : applyAdditional ws.build.full T0 adds replace with e' | T
    · rfl
    · rw [h] at he
      simp at he
  · intro hall
    unfold pick
    rw [hcore, applyAdditional_ok _ _ _ _ hall]

/-- Witness for C8 on the concrete built weaver: the only additional edge
exists in the candidate graph, so `pick` succeeds and applies the described
replacement step. -/
theorem pick_additional_ok_and_error_witness :
    pick ⟨exBuild, none⟩ ⟨0, 1⟩ ⟨0, 1⟩
        (some [(.cluster 2, .terminal 1)]) true false =
      (let T := trimSecondary
          (trimSecondary exBuild.full (exBuild.secondary.map (·.1)) ⟨0, 1⟩)
          (exBuild.secter.map (·.1)) ⟨0, 1⟩
       let T' := appliedAdditional T [(.cluster 2, .terminal 1)] true
       ({ build := exBuild, hier := some (prune false T') },
         .ok (prune false T'))) :=
  (pick_additional_ok_and_error ⟨exBuild, none⟩ ⟨0, 1⟩ ⟨0, 1⟩
    [(.cluster 2, .terminal 1)] true false).2.2 (by decide)

/-! ## C6: idempotence of `prune` -/

/-- A hierarchy-shaped input for `prune`: root `(0,0)`, a chain through
`(1,0)` splitting into `(2,0)` and `(3,0)` which rejoin at `(4,0)`, and one
terminal below `(4,0)`. -/
def exPruneInput : DiGraph :=
  ⟨[.cluster 0, .cluster 1, .cluster 2, .cluster 3, .cluster 4, .terminal 0],
   [((.cluster 0, .cluster 1), ⟨1, 1⟩),
    ((.cluster 1, .cluster 2), ⟨1, 1⟩),
    ((.cluster 1, .cluster 3), ⟨1, 1⟩),
    ((.cluster 2, .cluster 4), ⟨1, 1⟩),
    ((.cluster 3, .cluster 4), ⟨1, 1⟩),
    ((.cluster 4, .terminal 0), ⟨1, 1⟩)]⟩

/-- **C6, counterexample.** `prune` is not idempotent under either
single-branch policy: on `exPruneInput` the first prune collapses `(2,0)`,
`(3,0)` and then `(4,0)`, after which the already-visited `(1,0)` has become
a single branch; only a second prune collapses it. -/
theorem prune_not_idempotent_counterexample :
    prune false (prune false exPruneInput) ≠ prune false exPruneInput ∧
      prune true (prune true exPruneInput) ≠ prune true exPruneInput := by
  constructor
  · decide
  · decide

theorem deadStep_edges_sub (acc : DiGraph × List Node) (node : Node) :
    (deadStep acc node).1.edges.Sublist acc.1.edges := by
  unfold deadStep
  by_cases h : (istuple node && decide (acc.1.outDeg node = 0)) = true
  · rw [if_pos h]
    exact DiGraph.edges_removeNode_sub acc.1 node
  · rw [if_neg h]

theorem foldl_deadStep_edges_sub (l : List Node) :
    ∀ acc : DiGraph × List Node,
      (l.foldl deadStep acc).1.edges.Sublist acc.1.edges := by
  induction l with
  | nil => intro acc; exact List.Sublist.refl _
  | cons b l ih =>
    intro acc
    exact (ih (deadStep acc b)).trans (deadStep_edges_sub acc b)

theorem foldl_deadStep_length_le (l : List Node) :
    ∀ acc : DiGraph × List Node,
      (l.foldl deadStep acc).2.length ≤ acc.2.length := by
  induction l with
  | nil => intro acc; exact le_refl _
  | cons b l ih =>
    intro acc
    refine (ih (deadStep acc b)).trans ?_
    unfold deadStep
    by_cases h : (istuple b && decide (acc.1.outDeg b = 0)) = true
    · rw [if_pos h]
      exact (List.erase_sublist b acc.2).length_le
    · rw [if_neg h]

theorem foldl_deadStep_removes (l : List Node) :
    ∀ (acc : DiGraph × List Node) (a : Node), a ∈ l → a ∈ acc.2 →
      istuple a = true → acc.1.outDeg a = 0 → acc.2.Nodup →
      (l.foldl deadStep acc).2.length < acc.2.length := by
  induction l with
  | nil => intro _ _ h; cases h
  | cons b l ih =>
    intro acc a ha haL htuple hdeg hnodup
    rw [List.foldl_cons]
    by_cases hb : b = a
    · subst hb
      have hcond : (istuple b && decide (acc.1.outDeg b = 0)) = true := by
        rw [htuple, hdeg]; simp
      have hstep : deadStep acc b = (acc.1.removeNode b, acc.2.erase b) := by
        unfold deadStep; rw [if_pos hcond]
      rw [hstep]
      calc (l.foldl deadStep (acc.1.removeNode b, acc.2.erase b)).2.length
          ≤ (acc.2.erase b).length := foldl_deadStep_length_le l _
        _ = acc.2.length - 1 := List.length_erase_of_mem haL
        _ < acc.2.length := by
            have : 0 < acc.2.length := List.length_pos_of_mem haL
            omega
    · have ha' : a ∈ l := by
        rcases List.mem_cons.mp ha with h | h
        · exact absurd h.symm hb
        · exact h
      unfold deadStep
      by_cases hcond : (istuple b && decide (acc.1.outDeg b = 0)) = true
      · rw [if_pos hcond]
        have hmem : a ∈ acc.2.erase b :=
          (hnodup.mem_erase_iff).mpr ⟨fun h => hb h.symm, haL⟩
        have hdeg' : (acc.1.removeNode b).outDeg a = 0 :=
          Nat.le_zero.mp (hdeg ▸ DiGraph.outDeg_le_of_edges_sub
            (DiGraph.edges_removeNode_sub acc.1 b) a)
        have := ih (acc.1.removeNode b, acc.2.erase b) a ha' hmem htuple hdeg'
          (hnodup.erase b)
        calc (l.foldl deadStep (acc.1.removeNode b, acc.2.erase b)).2.length
            < (acc.2.erase b).length := this
          _ ≤ acc.2.length := (List.erase_sublist b acc.2).length_le
      · rw [if_neg hcond]
        exact ih acc a ha' haL htuple hdeg hnodup

theorem deadStep_sync {acc : DiGraph × List Node} (node : Node)
    (hsync : acc.2 = acc.1.nodes.filter istuple) (hnd : acc.1.nodes.Nodup) :
    (deadStep acc node).2 = (deadStep acc node).1.nodes.filter istuple ∧
      (deadStep acc node).1.nodes.Nodup := by
  unfold deadStep
  by_cases h : (istuple node && decide (acc.1.outDeg node = 0)) = true
  · rw [if_pos h]
    constructor
    · show acc.2.erase node = (acc.1.nodes.filter _).filter istuple
      rw [List.filter_filter, hsync]
      rw [List.Nodup.erase_eq_filter (hsync ▸ hnd.filter istuple) node]
      rw [List.filter_filter]
      apply List.filter_congr
      intro x _
      cases hx : istuple x <;> by_cases hxn : x = node <;>
        simp [hx, hxn]
    · exact hnd.filter _
  · rw [if_neg h]
    exact ⟨hsync, hnd⟩

theorem foldl_deadStep_sync (l : List Node) :
    ∀ acc : DiGraph × List Node, acc.2 = acc.1.nodes.filter istuple →
      acc.1.nodes.Nodup →
      (l.foldl deadStep acc).2 = (l.foldl deadStep acc).1.nodes.filter istuple ∧
        (l.foldl deadStep acc).1.nodes.Nodup := by
  induction l with
  | nil => intro acc h1 h2; exact ⟨h1, h2⟩
  | cons b l ih =>
    intro acc h1 h2
    rw [List.foldl_cons]
    rcases deadStep_sync b h1 h2 with ⟨h1', h2'⟩
    exact ih (deadStep acc b) h1' h2'

theorem deadLoopF_done (fuel : ℕ) :
    ∀ tl : DiGraph × List Node, tl.2.length < fuel →
      tl.2 = tl.1.nodes.filter istuple → tl.1.nodes.Nodup →
      ((deadLoopF fuel tl).2.map (deadLoopF fuel tl).1.outDeg).contains 0 = false ∧
        (deadLoopF fuel tl).2 = (deadLoopF fuel tl).1.nodes.filter istuple ∧
        (deadLoopF fuel tl).1.nodes.Nodup := by
  induction fuel with
  | zero => intro tl h; omega
  | succ fuel ih =>
    intro tl hfuel hsync hnd
    unfold deadLoopF
    by_cases hcond : ((tl.2.map tl.1.outDeg).contains 0) = true
    · rw [if_pos hcond]
      rcases List.contains_iff_exists_mem_beq.mp hcond with ⟨d, hd, hbeq⟩
      have hd0 : d = 0 := by
        have := LawfulBEq.eq_of_beq hbeq
        omega
      subst hd0
      rcases List.mem_map.mp hd with ⟨a, haL, hdeg⟩
      have htuple : istuple a = true := by
        rw [hsync] at haL
        exact (List.mem_filter.mp haL).2
      have hnodup2 : tl.2.Nodup := hsync ▸ hnd.filter istuple
      have hlt : (deadPass tl).2.length < tl.2.length := by
        unfold deadPass
        exact foldl_deadStep_removes tl.2.reverse tl a
          (List.mem_reverse.mpr haL) haL htuple hdeg hnodup2
      rcases foldl_deadStep_sync tl.2.reverse tl hsync hnd with ⟨h1', h2'⟩
      exact ih (deadPass tl) (by omega) h1' h2'
    · rw [if_neg hcond]
      exact ⟨by simpa using hcond, hsync, hnd⟩

theorem deadLoopF_of_done (fuel : ℕ) (tl : DiGraph × List Node)
    (h : (tl.2.map tl.1.outDeg).contains 0 = false) : deadLoopF fuel tl = tl := by
  cases fuel with
  | zero => rfl
  | succ fuel =>
    unfold deadLoopF
    rw [h]
    simp

/-- **C6, amended.** The dead-end-removal phase of `prune` is idempotent on
every graph with distinct nodes: after one run no internal node of
out-degree 0 remains, so a second run exits its loop immediately.  (Full
`prune` is not idempotent; see the counterexample.) -/
theorem deadEndPhase_idempotent (T : DiGraph) (h : T.nodes.Nodup) :
    (deadEndPhase (deadEndPhase T).1).1 = (deadEndPhase T).1 := by
  rcases deadLoopF_done ((T.nodes.filter istuple).length + 1)
      (T, T.nodes.filter istuple) (Nat.lt_succ_self _) rfl h with
    ⟨hdone, hsync, hnd⟩
  have key : ∀ r : DiGraph × List Node,
      (r.2.map r.1.outDeg).contains 0 = false →
      r.2 = r.1.nodes.filter istuple → (deadEndPhase r.1).1 = r.1 := by
    intro r hdone' hsync'
    unfold deadEndPhase
    rw [← hsync', deadLoopF_of_done _ (r.1, r.2) hdone']
  exact key (deadEndPhase T) hdone hsync

/-- Witness for C6's amended theorem on the counterexample graph. -/
theorem deadEndPhase_idempotent_witness :
    (deadEndPhase (deadEndPhase exPruneInput).1).1 = (deadEndPhase exPruneInput).1 :=
  deadEndPhase_idempotent exPruneInput (by decide)

/-! ## Well-formedness preservation -/

namespace DiGraph

theorem WF.empty : WF ⟨[], []⟩ := by
  refine ⟨List.nodup_nil, List.nodup_nil, ?_⟩
  intro e he
  cases he

theorem nodes_nodup_addNode {G : DiGraph} (h : G.nodes.Nodup) (u : Node) :
    (G.addNode u).nodes.Nodup := by
  unfold addNode
  by_cases hm : u ∈ G.nodes
  · rw [if_pos hm]; exact h
  · rw [if_neg hm]
    simpa [List.nodup_append] using ⟨h, fun hc => hm hc⟩

theorem WF.addNode {G : DiGraph} (h : WF G) (u : Node) : WF (G.addNode u) := by
  refine ⟨nodes_nodup_addNode h.1 u, ?_, ?_⟩
  · rw [edges_addNode]; exact h.2.1
  · intro e he
    rw [edges_addNode] at he
    rcases h.2.2 e he with ⟨h1, h2⟩
    exact ⟨(nodes_addNode G u e.1.1).mpr (Or.inl h1),
      (nodes_addNode G u e.1.2).mpr (Or.inl h2)⟩

theorem WF.addEdge {G : DiGraph} (h : WF G) (u v : Node) (w : Frac) :
    WF (G.addEdge u v w) := by
  have h1 : WF ((G.addNode u).addNode v) := (h.addNode u).addNode v
  unfold DiGraph.addEdge
  by_cases hh : ((G.addNode u).addNode v).hasEdge u v = true
  · rw [if_pos hh]
    have hkeys : (((G.addNode u).addNode v).edges.map
        (fun e => if e.1 = (u, v) then ((u, v), w) else e)).map Prod.fst =
        ((G.addNode u).addNode v).edges.map Prod.fst := by
      rw [List.map_map]
      apply List.map_congr_left
      intro e _
      by_cases hk : e.1 = (u, v) <;> simp [hk]
    refine ⟨h1.1, ?_, ?_⟩
    · show (List.map Prod.fst _).Nodup
      rw [hkeys]
      exact h1.2.1
    · intro e he
      rw [List.mem_map] at he
      rcases he with ⟨e', he', rfl⟩
      rcases h1.2.2 e' he' with ⟨ha, hb⟩
      by_cases hk : e'.1 = (u, v)
      · rw [if_pos hk]
        rw [hk] at ha hb
        exact ⟨ha, hb⟩
      · rw [if_neg hk]
        exact ⟨ha, hb⟩
  · rw [if_neg hh]
    refine ⟨h1.1, ?_, ?_⟩
    · show (List.map Prod.fst (_ ++ _)).Nodup
      rw [List.map_append]
      rw [List.nodup_append]
      refine ⟨h1.2.1, List.nodup_singleton _, ?_⟩
      intro k hk
      simp only [List.map_cons, List.map_nil, List.mem_singleton]
      intro hkuv
      rw [List.mem_map] at hk
      rcases hk with ⟨e', he', rfl⟩
      apply absurd (hasEdge_true_iff.mpr ⟨e'.2, ?_⟩) hh
      rcases e' with ⟨k', w'⟩
      simp only at hkuv
      rw [← hkuv]
      exact he'
    · intro e he
      rw [List.mem_append] at he
      rcases he with he | he
      · exact h1.2.2 e he
      · have : e = ((u, v), w) := by simpa using he
        subst this
        constructor
        · show u ∈ ((G.addNode u).addNode v).nodes
          rw [nodes_addNode]
          exact Or.inl ((nodes_addNode G u u).mpr (Or.inr rfl))
        · show v ∈ ((G.addNode u).addNode v).nodes
          rw [nodes_addNode]
          exact Or.inr rfl

theorem WF.sub_edges {G : DiGraph} (h : WF G) {edges' : List ((Node × Node) × Frac)}
    (hsub : edges'.Sublist G.edges) : WF ⟨G.nodes, edges'⟩ := by
  refine ⟨h.1, (hsub.map Prod.fst).nodup h.2.1, ?_⟩
  intro e he
  exact h.2.2 e (hsub.mem he)

theorem WF.removeEdge {G : DiGraph} (h : WF G) (u v : Node) :
    WF (G.removeEdge u v) := h.sub_edges (edges_removeEdge_sub G u v)

theorem WF.removeEdgesFrom {G : DiGraph} (h : WF G) (l : List (Node × Node)) :
    WF (G.removeEdgesFrom l) := by
  induction l generalizing G with
  | nil => exact h
  | cons uv l ih => exact ih (h.removeEdge uv.1 uv.2)

theorem WF.removeNode {G : DiGraph} (h : WF G) (x : Node) :
    WF (G.removeNode x) := by
  refine ⟨h.1.filter _, ((edges_removeNode_sub G x).map Prod.fst).nodup h.2.1, ?_⟩
  intro e he
  have hmem := (edges_removeNode_sub G x).mem he
  rcases h.2.2 e hmem with ⟨h1, h2⟩
  have hcond := (List.mem_filter.mp he).2
  simp only [Bool.and_eq_true, Bool.not_eq_true', decide_eq_false_iff_not] at hcond
  exact ⟨(nodes_removeNode G x e.1.1).mpr ⟨h1, hcond.1⟩,
    (nodes_removeNode G x e.1.2).mpr ⟨h2, hcond.2⟩⟩

theorem edgeWeight_addNode (G : DiGraph) (x a b : Node) :
    (G.addNode x).edgeWeight a b = G.edgeWeight a b := by
  unfold edgeWeight
  rw [edges_addNode]

end DiGraph

/-! ## Characterization of the edge loop (C3 and the acyclicity backbone) -/

/-- The cluster node of index `i`. -/
def clNode (i : ℕ) : Node := .cluster (i : ℤ)

theorem clNode_inj {i j : ℕ} (h : clNode i = clNode j) : i = j := by
  have := Node.cluster.inj h
  exact_mod_cast this

/-- Row-major order on index pairs (the `itertools.product` iteration order). -/
def lexLT (p q : ℕ × ℕ) : Prop := p.1 < q.1 ∨ (p.1 = q.1 ∧ p.2 < q.2)

theorem pairwise_lexLT_flatMap (is js : List ℕ)
    (h1 : is.Pairwise (· < ·)) (h2 : js.Pairwise (· < ·)) :
    (is.flatMap fun i => js.map fun j => (i, j)).Pairwise lexLT := by
  induction is with
  | nil => exact List.Pairwise.nil
  | cons i is ih =>
    rw [List.flatMap_cons, List.pairwise_append]
    refine ⟨?_, ih h1.of_cons, ?_⟩
    · rw [List.pairwise_map]
      exact h2.imp fun hab => Or.inr ⟨rfl, hab⟩
    · intro a ha b hb
      rcases List.mem_map.mp ha with ⟨x, _, rfl⟩
      rcases List.mem_flatMap.mp hb with ⟨i', hi', hb'⟩
      rcases List.mem_map.mp hb' with ⟨y, _, rfl⟩
      exact Or.inl (List.rel_of_pairwise_cons h1 hi')

theorem buildPairs_pairwise (nSets : ℕ) (assumeLevels : Bool) (levels : List ℤ) :
    (buildPairs nSets assumeLevels levels).Pairwise lexLT := by
  have hall := pairwise_lexLT_flatMap (List.range nSets) (List.range nSets)
    (List.pairwise_lt_range nSets) (List.pairwise_lt_range nSets)
  unfold buildPairs
  by_cases h : assumeLevels = true <;>
    simp only [h, if_true, if_false, Bool.false_eq_true] <;>
    exact hall.sublist (List.filter_sublist _)

theorem buildPairs_ne (nSets : ℕ) (assumeLevels : Bool) (levels : List ℤ) :
    ∀ p ∈ buildPairs nSets assumeLevels levels, p.1 ≠ p.2 := by
  intro p hp
  unfold buildPairs at hp
  by_cases h : assumeLevels = true
  · rw [if_pos (by simp [h])] at hp
    have := (List.mem_filter.mp hp).2
    simp only [decide_eq_true_eq] at this
    intro hc
    rw [hc] at this
    omega
  · rw [if_neg (by simp [h])] at hp
    have := (List.mem_filter.mp hp).2
    simpa using this

theorem mem_buildPairs_false (nSets : ℕ) (levels : List ℤ) (i j : ℕ) :
    (i, j) ∈ buildPairs nSets false levels ↔ i < nSets ∧ j < nSets ∧ i ≠ j := by
  unfold buildPairs
  simp only [Bool.false_eq_true, if_false, List.mem_filter, List.mem_flatMap,
    List.mem_map, List.mem_range, decide_eq_true_eq]
  constructor
  · rintro ⟨⟨a, ha, b, hb, hab⟩, hne⟩
    cases hab
    exact ⟨ha, hb, hne⟩
  · rintro ⟨hi, hj, hne⟩
    exact ⟨⟨i, hi, j, hj, rfl⟩, hne⟩

/-- The winning condition between the two antiparallel edge candidates of an
unordered pair: the candidate `(i, j)` (edge `(j,0) -> (i,0)`) survives when
the reverse containment is below the cutoff, or strictly smaller, or equal
with `(i, j)` processed first (row-major: `i < j`). -/
def pairWins (CI : List (List Frac)) (cutoff : Frac) (i j : ℕ) : Prop :=
  Frac.lt (getCI CI j i) (getCI CI i j) = true ∨
    Frac.le cutoff (getCI CI j i) = false ∨
    (Frac.lt (getCI CI j i) (getCI CI i j) = false ∧
      Frac.lt (getCI CI i j) (getCI CI j i) = false ∧ i < j)

instance pairWins.instDec (CI : List (List Frac)) (cutoff : Frac) (i j : ℕ) :
    Decidable (pairWins CI cutoff i j) := by
  unfold pairWins
  infer_instance

/-- The intended edge content of the graph after the edge loop has processed
the pairs of `Q`: the edge `(j,0) -> (i,0)` carries weight `CI[i,j]` exactly
when `(i,j)` was processed, met the cutoff, and (if the reverse pair was also
processed) wins against the antiparallel candidate. -/
def midSpec (CI : List (List Frac)) (cutoff : Frac) (Q : List (ℕ × ℕ))
    (i j : ℕ) : Option Frac :=
  if (i, j) ∈ Q ∧ Frac.le cutoff (getCI CI i j) = true ∧
      ((j, i) ∈ Q → pairWins CI cutoff i j)
    then some (getCI CI i j) else none

/-- Invariant of the edge loop of `_build` after processing the pairs `Q`. -/
structure LoopInv (CI : List (List Frac)) (cutoff : Frac) (Q : List (ℕ × ℕ))
    (G : DiGraph) : Prop where
  wf : G.WF
  nodesSub : ∀ v ∈ G.nodes, ∃ p ∈ Q, v = clNode p.1 ∨ v = clNode p.2
  nodesCover : ∀ p ∈ Q, clNode p.1 ∈ G.nodes ∧ clNode p.2 ∈ G.nodes
  edgesSpec : ∀ i j : ℕ, i ≠ j →
    G.edgeWeight (clNode j) (clNode i) = midSpec CI cutoff Q i j
  edgesCl : ∀ e ∈ G.edges,
    (∃ a : ℕ, e.1.1 = clNode a) ∧ ∃ b : ℕ, e.1.2 = clNode b

theorem loopInv_init (CI : List (List Frac)) (cutoff : Frac) :
    LoopInv CI cutoff [] ⟨[], []⟩ := by
  refine ⟨DiGraph.WF.empty, ?_, ?_, ?_, ?_⟩
  · intro v hv; cases hv
  · intro p hp; cases hp
  · intro i j _
    unfold midSpec
    rw [if_neg (by simp)]
    rfl
  · intro e he; cases he

theorem Frac.lt_asymm {a b : Frac} (h : Frac.lt a b = true) :
    Frac.lt b a = false := by
  unfold Frac.lt at h ⊢
  simp only [decide_eq_true_eq] at h
  simp only [decide_eq_false_iff_not, not_lt]
  omega

theorem midSpec_stable (CI : List (List Frac)) (cutoff : Frac)
    (Q : List (ℕ × ℕ)) (p : ℕ × ℕ) (x y : ℕ)
    (h1 : (x, y) ≠ p) (h2 : (y, x) ≠ p) :
    midSpec CI cutoff (Q ++ [p]) x y = midSpec CI cutoff Q x y := by
  unfold midSpec
  refine if_congr ?_ rfl rfl
  rw [List.mem_append, List.mem_singleton, List.mem_append, List.mem_singleton]
  simp [h1, h2]

theorem mem_edges_addEdge {G : DiGraph} {u v : Node} {w : Frac} {e : (Node × Node) × Frac}
    (h : e ∈ (G.addEdge u v w).edges) : e = ((u, v), w) ∨ e ∈ G.edges := by
  unfold DiGraph.addEdge at h
  set G1 := (G.addNode u).addNode v with hG1
  have hG1e : G1.edges = G.edges := by
    rw [hG1, DiGraph.edges_addNode, DiGraph.edges_addNode]
  by_cases hh : G1.hasEdge u v = true
  · rw [if_pos hh] at h
    have h' : e ∈ G1.edges.map fun e => if e.1 = (u, v) then ((u, v), w) else e := h
    rw [List.mem_map] at h'
    rcases h' with ⟨e', he', rfl⟩
    by_cases hk : e'.1 = (u, v)
    · rw [if_pos hk]
      exact Or.inl rfl
    · rw [if_neg hk]
      rw [hG1e] at he'
      exact Or.inr he'
  · rw [if_neg hh] at h
    have h' : e ∈ G1.edges ++ [((u, v), w)] := h
    rw [List.mem_append, List.mem_singleton] at h'
    rcases h' with h' | h'
    · rw [hG1e] at h'
      exact Or.inr h'
    · exact Or.inl h'

theorem loopInv_step (CI : List (List Frac)) (cutoff : Frac)
    (Q : List (ℕ × ℕ)) (G : DiGraph) (p : ℕ × ℕ)
    (inv : LoopInv CI cutoff Q G)
    (hne : p.1 ≠ p.2)
    (hnotQ : p ∉ Q)
    (hswap : (p.2, p.1) ∈ Q → p.2 < p.1) :
    LoopInv CI cutoff (Q ++ [p]) (edgeLoopStep CI cutoff G p) := by
  set C := getCI CI p.1 p.2 with hC
  set Crev := getCI CI p.2 p.1 with hCrev
  set na := clNode p.1 with hna
  set nb := clNode p.2 with hnb
  set G1 := (G.addNode na).addNode nb with hG1
  have hG1wf : G1.WF := (inv.wf.addNode na).addNode nb
  have hG1ew : ∀ a b, G1.edgeWeight a b = G.edgeWeight a b := by
    intro a b
    rw [hG1, DiGraph.edgeWeight_addNode, DiGraph.edgeWeight_addNode]
  have hG1edges : G1.edges = G.edges := by
    rw [hG1, DiGraph.edges_addNode, DiGraph.edges_addNode]
  have hG1nodes : ∀ v, v ∈ G1.nodes ↔ v ∈ G.nodes ∨ v = na ∨ v = nb := by
    intro v
    rw [hG1, DiGraph.nodes_addNode, DiGraph.nodes_addNode]
    tauto
  have hacc : na ∈ G1.nodes ∧ nb ∈ G1.nodes :=
    ⟨(hG1nodes na).mpr (Or.inr (Or.inl rfl)),
     (hG1nodes nb).mpr (Or.inr (Or.inr rfl))⟩
  have hswapne : ((p.2, p.1) : ℕ × ℕ) ≠ p := by
    intro hc
    exact hne (congrArg Prod.fst hc).symm
  have hmemP : ∀ x y : ℕ, ((x, y) ∈ Q ++ [p]) ↔ ((x, y) ∈ Q ∨ (x, y) = p) := by
    intro x y
    rw [List.mem_append, List.mem_singleton]
  have hspec_mem : ((p.1, p.2) ∈ Q ++ [p]) := by
    rw [hmemP]
    right
    rfl
  have hswap_memQ : ((p.2, p.1) ∈ Q ++ [p]) ↔ ((p.2, p.1) ∈ Q) := by
    rw [hmemP]
    simp [hswapne]
  have hG_nb_na : G.edgeWeight nb na = midSpec CI cutoff Q p.1 p.2 :=
    inv.edgesSpec p.1 p.2 hne
  have hG_na_nb : G.edgeWeight na nb = midSpec CI cutoff Q p.2 p.1 :=
    inv.edgesSpec p.2 p.1 (Ne.symm hne)
  have hmid_p_none : midSpec CI cutoff Q p.1 p.2 = none := by
    unfold midSpec
    rw [if_neg]
    intro hcond
    exact hnotQ hcond.1
  have hnodesSub : ∀ v ∈ G1.nodes,
      ∃ q ∈ Q ++ [p], v = clNode q.1 ∨ v = clNode q.2 := by
    intro v hv
    rcases (hG1nodes v).mp hv with hv | rfl | rfl
    · rcases inv.nodesSub v hv with ⟨q, hq, hvq⟩
      refine ⟨q, ?_, hvq⟩
      rw [List.mem_append]
      exact Or.inl hq
    · exact ⟨p, hspec_mem, Or.inl rfl⟩
    · exact ⟨p, hspec_mem, Or.inr rfl⟩
  have hnodesCover : ∀ q ∈ Q ++ [p],
      clNode q.1 ∈ G1.nodes ∧ clNode q.2 ∈ G1.nodes := by
    intro q hq
    have hq' : (q.1, q.2) ∈ Q ++ [p] := by
      rcases q with ⟨q1, q2⟩
      exact hq
    rcases (hmemP q.1 q.2).mp hq' with hq'' | hq''
    · rcases inv.nodesCover q hq'' with ⟨h1, h2⟩
      exact ⟨(hG1nodes _).mpr (Or.inl h1), (hG1nodes _).mpr (Or.inl h2)⟩
    · constructor
      · rw [show q.1 = p.1 from congrArg Prod.fst hq'']
        exact hacc.1
      · rw [show q.2 = p.2 from congrArg Prod.snd hq'']
        exact hacc.2
  have hedgesClG1 : ∀ e ∈ G1.edges,
      (∃ a : ℕ, e.1.1 = clNode a) ∧ ∃ b : ℕ, e.1.2 = clNode b := by
    rw [hG1edges]
    exact inv.edgesCl
  have hkey_p : ∀ x y : ℕ, ((clNode y, clNode x) = (nb, na)) ↔ ((x, y) = p) := by
    intro x y
    constructor
    · intro h
      have h1 : y = p.2 := clNode_inj (congrArg Prod.fst h)
      have h2 : x = p.1 := clNode_inj (congrArg Prod.snd h)
      rw [Prod.ext_iff]
      exact ⟨h2, h1⟩
    · intro h
      rw [show x = p.1 from congrArg Prod.fst h,
        show y = p.2 from congrArg Prod.snd h]
  have hkey_swap : ∀ x y : ℕ, ((clNode y, clNode x) = (na, nb)) ↔ ((y, x) = p) := by
    intro x y
    constructor
    · intro h
      have h1 : y = p.1 := clNode_inj (congrArg Prod.fst h)
      have h2 : x = p.2 := clNode_inj (congrArg Prod.snd h)
      rw [Prod.ext_iff]
      exact ⟨h1, h2⟩
    · intro h
      rw [show y = p.1 from congrArg Prod.fst h,
        show x = p.2 from congrArg Prod.snd h]
  -- nodes of the add-edge results coincide with the nodes of G1
  have hnodes_add : ∀ (X : DiGraph) (w : Frac), X.nodes = G1.nodes →
      ∀ v, v ∈ (X.addEdge nb na w).nodes ↔ v ∈ G1.nodes := by
    intro X w hX v
    rw [DiGraph.nodes_addEdge, hX]
    constructor
    · rintro (h | rfl | rfl)
      · exact h
      · exact hacc.2
      · exact hacc.1
    · exact Or.inl
  have hedgesCl_add : ∀ (X : DiGraph) (w : Frac),
      (∀ e ∈ X.edges, (∃ a : ℕ, e.1.1 = clNode a) ∧ ∃ b : ℕ, e.1.2 = clNode b) →
      ∀ e ∈ (X.addEdge nb na w).edges,
        (∃ a : ℕ, e.1.1 = clNode a) ∧ ∃ b : ℕ, e.1.2 = clNode b := by
    intro X w hX e he
    rcases mem_edges_addEdge he with rfl | he'
    · exact ⟨⟨p.2, rfl⟩, ⟨p.1, rfl⟩⟩
    · exact hX e he'
  -- the spec entry for the processed pair when the antiparallel candidate
  -- does not beat it
  have hmid_new_p : ∀ (hcut : Frac.le cutoff C = true)
      (hwin : (p.2, p.1) ∈ Q → pairWins CI cutoff p.1 p.2),
      midSpec CI cutoff (Q ++ [p]) p.1 p.2 = some C := by
    intro hcut hwin
    unfold midSpec
    rw [if_pos]
    refine ⟨hspec_mem, hcut, ?_⟩
    intro hmem
    exact hwin (hswap_memQ.mp hmem)
  have hmid_new_p_none_cut : Frac.le cutoff C = false →
      midSpec CI cutoff (Q ++ [p]) p.1 p.2 = none := by
    intro hcut
    unfold midSpec
    rw [if_neg]
    intro hcond
    rw [hcond.2.1] at hcut
    cases hcut
  -- the spec entry for the reverse pair after processing p
  have hmid_new_swap : ∀ (hwin : pairWins CI cutoff p.2 p.1),
      midSpec CI cutoff (Q ++ [p]) p.2 p.1 = midSpec CI cutoff Q p.2 p.1 := by
    intro hwin
    unfold midSpec
    refine if_congr ?_ rfl rfl
    rw [hswap_memQ]
    constructor
    · rintro ⟨h1, h2, _⟩
      refine ⟨h1, h2, fun hmem => absurd hmem hnotQ⟩
    · rintro ⟨h1, h2, _⟩
      exact ⟨h1, h2, fun _ => hwin⟩
  have hmid_new_swap_none : ∀ (hnowin : ¬ pairWins CI cutoff p.2 p.1),
      midSpec CI cutoff (Q ++ [p]) p.2 p.1 = none := by
    intro hnowin
    unfold midSpec
    rw [if_neg]
    rintro ⟨h1, h2, h3⟩
    exact hnowin (h3 hspec_mem)
  have hnanb : ¬(na = nb ∧ nb = na) := by
    rintro ⟨h1, _⟩
    rw [hna, hnb] at h1
    exact hne (clNode_inj h1)
  have hstep : edgeLoopStep CI cutoff G p =
      if Frac.le cutoff C = true then
        (if G1.hasEdge na nb = true then
          (if Frac.lt ((G1.edgeWeight na nb).getD Frac.zero) C = true then
            ((G1.removeEdge na nb).addEdge nb na C)
          else G1)
        else G1.addEdge nb na C)
      else G1 := rfl
  rw [hstep]
  by_cases hcut : Frac.le cutoff C = true
  · rw [if_pos hcut]
    by_cases hrev : G1.hasEdge na nb = true
    · rw [if_pos hrev]
      have hrevQle : (p.2, p.1) ∈ Q ∧ Frac.le cutoff Crev = true := by
        by_contra hc
        unfold DiGraph.hasEdge at hrev
        rw [hG1ew, hG_na_nb] at hrev
        unfold midSpec at hrev
        rw [if_neg] at hrev
        · simp at hrev
        · rintro ⟨h1, h2, _⟩
          exact hc ⟨h1, h2⟩
      have hp21 : p.2 < p.1 := hswap hrevQle.1
      have hC0 : (G1.edgeWeight na nb).getD Frac.zero = Crev := by
        rw [hG1ew, hG_na_nb]
        unfold midSpec
        rw [if_pos ⟨hrevQle.1, hrevQle.2, fun hm => absurd hm hnotQ⟩]
        rfl
      rw [hC0]
      by_cases hlt : Frac.lt Crev C = true
      · rw [if_pos hlt]
        have hiff := hnodes_add (G1.removeEdge na nb) C rfl
        refine ⟨(hG1wf.removeEdge na nb).addEdge nb na C,
          fun v hv => hnodesSub v ((hiff v).mp hv),
          fun q hq => ⟨(hiff _).mpr (hnodesCover q hq).1,
            (hiff _).mpr (hnodesCover q hq).2⟩, ?_,
          hedgesCl_add (G1.removeEdge na nb) C
            (fun e he => hedgesClG1 e
              ((DiGraph.edges_removeEdge_sub G1 na nb).mem he))⟩
        intro x y hxy
        by_cases hxp : ((x, y) : ℕ × ℕ) = p
        · rw [show x = p.1 from congrArg Prod.fst hxp,
            show y = p.2 from congrArg Prod.snd hxp]
          show ((G1.removeEdge na nb).addEdge nb na C).edgeWeight nb na =
            midSpec CI cutoff (Q ++ [p]) p.1 p.2
          rw [DiGraph.edgeWeight_addEdge_self,
            hmid_new_p hcut (fun _ => Or.inl hlt)]
        · by_cases hxs : ((y, x) : ℕ × ℕ) = p
          · rw [show y = p.1 from congrArg Prod.fst hxs,
              show x = p.2 from congrArg Prod.snd hxs]
            show ((G1.removeEdge na nb).addEdge nb na C).edgeWeight na nb =
              midSpec CI cutoff (Q ++ [p]) p.2 p.1
            have hnowin : ¬ pairWins CI cutoff p.2 p.1 := by
              rintro (h | h | ⟨h1, h2, h3⟩)
              · rw [Frac.lt_asymm hlt] at h
                cases h
              · rw [hcut] at h
                cases h
              · rw [hlt] at h2
                cases h2
            rw [hmid_new_swap_none hnowin,
              DiGraph.edgeWeight_addEdge_other (G1.removeEdge na nb) nb na C hnanb,
              DiGraph.edgeWeight_removeEdge_self]
          · have hne1 : ¬(clNode y = nb ∧ clNode x = na) := by
              rintro ⟨h1, h2⟩
              exact hxp ((hkey_p x y).mp (by rw [Prod.ext_iff]; exact ⟨h1, h2⟩))
            have hne2 : ¬(clNode y = na ∧ clNode x = nb) := by
              rintro ⟨h1, h2⟩
              exact hxs ((hkey_swap x y).mp (by rw [Prod.ext_iff]; exact ⟨h1, h2⟩))
            rw [DiGraph.edgeWeight_addEdge_other _ _ _ _ hne1,
              DiGraph.edgeWeight_removeEdge_other _ _ _ hne2, hG1ew,
              inv.edgesSpec x y hxy]
            exact (midSpec_stable CI cutoff Q p x y hxp hxs).symm
      · rw [if_neg hlt]
        have hltF : Frac.lt Crev C = false := by
          cases h : Frac.lt Crev C
          · rfl
          · exact absurd h hlt
        refine ⟨hG1wf, hnodesSub, hnodesCover, ?_, hedgesClG1⟩
        intro x y hxy
        rw [hG1ew]
        by_cases hxp : ((x, y) : ℕ × ℕ) = p
        · rw [show x = p.1 from congrArg Prod.fst hxp,
            show y = p.2 from congrArg Prod.snd hxp]
          show G.edgeWeight nb na = midSpec CI cutoff (Q ++ [p]) p.1 p.2
          have hnowin : ¬ pairWins CI cutoff p.1 p.2 := by
            rintro (h | h | ⟨h1, h2, h3⟩)
            · rw [hltF] at h
              cases h
            · rw [hrevQle.2] at h
              cases h
            · omega
          have hnone : midSpec CI cutoff (Q ++ [p]) p.1 p.2 = none := by
            unfold midSpec
            rw [if_neg]
            rintro ⟨_, _, himp⟩
            exact hnowin (himp (by
              rw [List.mem_append]
              exact Or.inl hrevQle.1))
          rw [hG_nb_na, hmid_p_none, hnone]
        · by_cases hxs : ((y, x) : ℕ × ℕ) = p
          · rw [show y = p.1 from congrArg Prod.fst hxs,
              show x = p.2 from congrArg Prod.snd hxs]
            show G.edgeWeight na nb = midSpec CI cutoff (Q ++ [p]) p.2 p.1
            have hwin : pairWins CI cutoff p.2 p.1 := by
              by_cases hcg : Frac.lt C Crev = true
              · exact Or.inl hcg
              · refine Or.inr (Or.inr ⟨?_, hltF, hp21⟩)
                cases h : Frac.lt C Crev
                · rfl
                · exact absurd h hcg
            rw [hG_na_nb, hmid_new_swap hwin]
          · rw [inv.edgesSpec x y hxy]
            exact (midSpec_stable CI cutoff Q p x y hxp hxs).symm
    · rw [if_neg hrev]
      have hnoedge : ¬((p.2, p.1) ∈ Q ∧ Frac.le cutoff Crev = true) := by
        intro hc
        apply hrev
        unfold DiGraph.hasEdge
        rw [hG1ew, hG_na_nb]
        unfold midSpec
        rw [if_pos ⟨hc.1, hc.2, fun hm => absurd hm hnotQ⟩]
        rfl
      have hiff := hnodes_add G1 C rfl
      refine ⟨hG1wf.addEdge nb na C,
        fun v hv => hnodesSub v ((hiff v).mp hv),
        fun q hq => ⟨(hiff _).mpr (hnodesCover q hq).1,
          (hiff _).mpr (hnodesCover q hq).2⟩, ?_,
        hedgesCl_add G1 C hedgesClG1⟩
      intro x y hxy
      by_cases hxp : ((x, y) : ℕ × ℕ) = p
      · rw [show x = p.1 from congrArg Prod.fst hxp,
          show y = p.2 from congrArg Prod.snd hxp]
        show (G1.addEdge nb na C).edgeWeight nb na =
          midSpec CI cutoff (Q ++ [p]) p.1 p.2
        rw [DiGraph.edgeWeight_addEdge_self,
          hmid_new_p hcut (fun hmem => Or.inr (Or.inl (by
            cases h : Frac.le cutoff Crev
            · rfl
            · exact absurd ⟨hmem, h⟩ hnoedge)))]
      · by_cases hxs : ((y, x) : ℕ × ℕ) = p
        · rw [show y = p.1 from congrArg Prod.fst hxs,
            show x = p.2 from congrArg Prod.snd hxs]
          show (G1.addEdge nb na C).edgeWeight na nb =
            midSpec CI cutoff (Q ++ [p]) p.2 p.1
          have hold : midSpec CI cutoff Q p.2 p.1 = none := by
            unfold midSpec
            rw [if_neg]
            rintro ⟨h1, h2, _⟩
            exact hnoedge ⟨h1, h2⟩
          have hnew : midSpec CI cutoff (Q ++ [p]) p.2 p.1 = none := by
            unfold midSpec
            rw [if_neg]
            rintro ⟨h1, h2, _⟩
            exact hnoedge ⟨hswap_memQ.mp h1, h2⟩
          rw [hnew,
            DiGraph.edgeWeight_addEdge_other G1 nb na C hnanb,
            hG1ew, hG_na_nb, hold]
        · have hne1 : ¬(clNode y = nb ∧ clNode x = na) := by
            rintro ⟨h1, h2⟩
            exact hxp ((hkey_p x y).mp (by rw [Prod.ext_iff]; exact ⟨h1, h2⟩))
          rw [DiGraph.edgeWeight_addEdge_other _ _ _ _ hne1, hG1ew,
            inv.edgesSpec x y hxy]
          exact (midSpec_stable CI cutoff Q p x y hxp hxs).symm
  · rw [if_neg hcut]
    have hcutF : Frac.le cutoff C = false := by
      cases h : Frac.le cutoff C
      · rfl
      · exact absurd h hcut
    refine ⟨hG1wf, hnodesSub, hnodesCover, ?_, hedgesClG1⟩
    intro x y hxy
    rw [hG1ew]
    by_cases hxp : ((x, y) : ℕ × ℕ) = p
    · rw [show x = p.1 from congrArg Prod.fst hxp,
        show y = p.2 from congrArg Prod.snd hxp]
      show G.edgeWeight nb na = midSpec CI cutoff (Q ++ [p]) p.1 p.2
      rw [hG_nb_na, hmid_p_none, hmid_new_p_none_cut hcutF]
    · by_cases hxs : ((y, x) : ℕ × ℕ) = p
      · rw [show y = p.1 from congrArg Prod.fst hxs,
          show x = p.2 from congrArg Prod.snd hxs]
        show G.edgeWeight na nb = midSpec CI cutoff (Q ++ [p]) p.2 p.1
        rw [hG_na_nb, hmid_new_swap (Or.inr (Or.inl hcutF))]
      · rw [inv.edgesSpec x y hxy]
        exact (midSpec_stable CI cutoff Q p x y hxp hxs).symm

theorem loopInv_fold (CI : List (List Frac)) (cutoff : Frac)
    (R : List (ℕ × ℕ)) :
    ∀ (Q : List (ℕ × ℕ)) (G : DiGraph),
    LoopInv CI cutoff Q G →
    (Q ++ R).Pairwise lexLT →
    (∀ q ∈ R, q.1 ≠ q.2) →
    LoopInv CI cutoff (Q ++ R) (R.foldl (edgeLoopStep CI cutoff) G) := by
  induction R with
  | nil =>
    intro Q G inv _ _
    simpa using inv
  | cons p R ih =>
    intro Q G inv hpw hne
    have hQp : ∀ a ∈ Q, lexLT a p := by
      intro a ha
      exact (List.pairwise_append.mp hpw).2.2 a ha p (List.mem_cons_self p R)
    have hnep : p.1 ≠ p.2 := hne p (List.mem_cons_self p R)
    have hnotQ : p ∉ Q := by
      intro hc
      have h := hQp p hc
      unfold lexLT at h
      rcases h with h | ⟨h1, h2⟩ <;> omega
    have hswap : (p.2, p.1) ∈ Q → p.2 < p.1 := by
      intro hc
      have h := hQp _ hc
      unfold lexLT at h
      dsimp only at h
      rcases h with h | ⟨h1, h2⟩
      · exact h
      · omega
    have inv' := loopInv_step CI cutoff Q G p inv hnep hnotQ hswap
    have hpw' : ((Q ++ [p]) ++ R).Pairwise lexLT := by
      rw [List.append_assoc]
      exact hpw
    have hrec := ih (Q ++ [p]) (edgeLoopStep CI cutoff G p) inv' hpw'
      (fun q hq => hne q (List.mem_cons_of_mem p hq))
    rw [List.append_assoc] at hrec
    exact hrec

theorem edgeLoop_spec (CI : List (List Frac)) (cutoff : Frac)
    (pairs : List (ℕ × ℕ)) (hpw : pairs.Pairwise lexLT)
    (hne : ∀ q ∈ pairs, q.1 ≠ q.2) (i j : ℕ) (hij : i ≠ j) :
    (edgeLoop CI cutoff pairs).edgeWeight (clNode j) (clNode i) =
      midSpec CI cutoff pairs i j := by
  have h := loopInv_fold CI cutoff pairs [] ⟨[], []⟩ (loopInv_init CI cutoff)
    (by simpa using hpw) hne
  simpa using h.edgesSpec i j hij

/-- Two identical one-terminal clusters: each fully contains the other, so
both containment indices are `1`. -/
def cexL3 : List (List Bool) := [[true], [true]]

/-- C3 counterexample: with two identical clusters (containment `1` in both
directions, cutoff `0.8`), `CI[1, 0] >= cutoff` holds and no competing edge
for the ordered pair `parent (0,0) -> child (1,0)` is ever present, yet the
edge loop of `_build` never adds that edge: processing `(1, 0)` finds the
antiparallel edge `(1,0) -> (0,0)` (added for the pair `(0, 1)`) with equal
weight and skips the pair, because the code checks the reverse edge, not an
edge for the same ordered pair. -/
theorem build_cutoff_edge_missing_counterexample :
    Frac.le ⟨8, 10⟩ (getCI (containment_indices_boolean cexL3 cexL3) 1 0) = true ∧
    (edgeLoop (containment_indices_boolean cexL3 cexL3) ⟨8, 10⟩
        (buildPairs 2 false [])).hasEdge (Node.cluster 0) (Node.cluster 1) = false := by
  decide

/-- C3 (amended): exact characterization of the edge loop of `_build`. For
clusters `i ≠ j`, the final graph carries the edge `parent (j,0) -> child (i,0)`
with weight `CI[i, j]` exactly when the pair `(i, j)` is enumerated, meets the
cutoff, and — when the reverse pair `(j, i)` is also enumerated — wins against
the antiparallel candidate: the reverse containment is below the cutoff, or
strictly smaller, or equal with `i < j` (row-major order processes `(i, j)`
first). Otherwise there is no such edge. -/
theorem build_edge_loop_characterization (CI : List (List Frac)) (cutoff : Frac)
    (nSets : ℕ) (assumeLevels : Bool) (levels : List ℤ) (i j : ℕ) (hij : i ≠ j) :
    (edgeLoop CI cutoff (buildPairs nSets assumeLevels levels)).edgeWeight
        (clNode j) (clNode i) =
      midSpec CI cutoff (buildPairs nSets assumeLevels levels) i j :=
  edgeLoop_spec CI cutoff (buildPairs nSets assumeLevels levels)
    (buildPairs_pairwise nSets assumeLevels levels)
    (buildPairs_ne nSets assumeLevels levels) i j hij

/-- Witness for the C3 characterization at a concrete input: on the two
identical clusters of `cexL3` the pair `(1, 0)` loses to its antiparallel
candidate, and both sides of the characterization evaluate to `none`. -/
theorem build_edge_loop_characterization_witness :
    (1 : ℕ) ≠ (0 : ℕ) ∧
    (edgeLoop (containment_indices_boolean cexL3 cexL3) ⟨8, 10⟩
        (buildPairs 2 false [])).edgeWeight (clNode 0) (clNode 1) =
      midSpec (containment_indices_boolean cexL3 cexL3) ⟨8, 10⟩
        (buildPairs 2 false []) 1 0 :=
  ⟨by decide, build_edge_loop_characterization
    (containment_indices_boolean cexL3 cexL3) ⟨8, 10⟩ 2 false [] 1 0 (by decide)⟩

/-! ## Shortest-path distance from the root, and correctness of
`update_depth` -/

/-- The set of nodes at shortest-path distance at most `d` from `root`. -/
def distLe (T : DiGraph) (root : Node) (d : ℕ) : Finset Node :=
  (T.reachStep)^[d] {root}

theorem mem_distLe_zero {T : DiGraph} {root v : Node} :
    v ∈ distLe T root 0 ↔ v = root := by
  unfold distLe
  simp

theorem mem_distLe_succ {T : DiGraph} {root v : Node} {d : ℕ} :
    v ∈ distLe T root (d + 1) ↔
      v ∈ distLe T root d ∨ ∃ u ∈ distLe T root d, T.EdgeRel u v := by
  unfold distLe
  rw [Function.iterate_succ_apply']
  exact DiGraph.mem_reachStep

/-- The relaxation of a single child inside `_update_topdown`: assigned
`parDepth + 1` and enqueued when unassigned or strictly deeper. -/
def relaxStep (parDepth : ℕ) (s : DepthState) (child : Node) : DepthState :=
  match s.depth child with
  | some chDepth =>
    if chDepth ≤ parDepth + 1 then s
    else ⟨fun v => if v = child then some (parDepth + 1) else s.depth v,
      s.queue ++ [child]⟩
  | none =>
    ⟨fun v => if v = child then some (parDepth + 1) else s.depth v,
      s.queue ++ [child]⟩

theorem relaxChildren_eq (T : DiGraph) (parent : Node) (parDepth : ℕ)
    (st : DepthState) :
    relaxChildren T parent parDepth st =
      (T.succs parent).foldl (relaxStep parDepth) st := rfl

theorem relaxStep_skip {parDepth : ℕ} {s : DepthState} {child : Node}
    {chDepth : ℕ} (hd : s.depth child = some chDepth)
    (hle : chDepth ≤ parDepth + 1) :
    relaxStep parDepth s child = s := by
  simp only [relaxStep, hd]
  exact if_pos hle

theorem relaxStep_assign_deep {parDepth : ℕ} {s : DepthState} {child : Node}
    {chDepth : ℕ} (hd : s.depth child = some chDepth)
    (hle : ¬ chDepth ≤ parDepth + 1) :
    relaxStep parDepth s child =
      ⟨fun v => if v = child then some (parDepth + 1) else s.depth v,
        s.queue ++ [child]⟩ := by
  simp only [relaxStep, hd]
  exact if_neg hle

theorem relaxStep_assign_none {parDepth : ℕ} {s : DepthState} {child : Node}
    (hd : s.depth child = none) :
    relaxStep parDepth s child =
      ⟨fun v => if v = child then some (parDepth + 1) else s.depth v,
        s.queue ++ [child]⟩ := by
  simp only [relaxStep, hd]

/-- Postcondition of the child-relaxation fold of `_update_topdown` on the
child list `l`, run from `st` with popped-parent depth `parDepth`: depths
change only to `parDepth + 1` on members of `l` (which are re-enqueued), the
queue only grows and new entries carry depth `parDepth + 1`, every member of
`l` ends with a depth at most `parDepth + 1`, and assigned depths never grow
and are never unassigned. -/
def RelaxOut (parDepth : ℕ) (l : List Node) (st res : DepthState) : Prop :=
  (∀ v, res.depth v = st.depth v ∨
      (res.depth v = some (parDepth + 1) ∧ v ∈ l ∧ v ∈ res.queue)) ∧
  (∀ v ∈ st.queue, v ∈ res.queue) ∧
  (∀ v ∈ res.queue, v ∈ st.queue ∨ res.depth v = some (parDepth + 1)) ∧
  (∀ c ∈ l, ∃ d', res.depth c = some d' ∧ d' ≤ parDepth + 1) ∧
  (∀ v d, st.depth v = some d → ∃ d', res.depth v = some d' ∧ d' ≤ d)

theorem relaxStep_cases (parDepth : ℕ) (s : DepthState) (child : Node) :
    relaxStep parDepth s child = s ∨
      relaxStep parDepth s child =
        ⟨fun v => if v = child then some (parDepth + 1) else s.depth v,
          s.queue ++ [child]⟩ := by
  cases hd : s.depth child with
  | some chDepth =>
    by_cases hle : chDepth ≤ parDepth + 1
    · exact Or.inl (relaxStep_skip hd hle)
    · exact Or.inr (relaxStep_assign_deep hd hle)
  | none => exact Or.inr (relaxStep_assign_none hd)

theorem relaxStep_mono (parDepth : ℕ) (s : DepthState) (child : Node)
    (v : Node) (d : ℕ) (hd : s.depth v = some d) :
    ∃ d', (relaxStep parDepth s child).depth v = some d' ∧ d' ≤ d := by
  cases hdc : s.depth child with
  | some chDepth =>
    by_cases hle : chDepth ≤ parDepth + 1
    · rw [relaxStep_skip hdc hle]
      exact ⟨d, hd, le_refl d⟩
    · rw [relaxStep_assign_deep hdc hle]
      by_cases hv : v = child
      · subst hv
        rw [hd] at hdc
        injection hdc with h
        exact ⟨parDepth + 1, by simp, by omega⟩
      · exact ⟨d, by simpa [hv] using hd, le_refl d⟩
  | none =>
    rw [relaxStep_assign_none hdc]
    by_cases hv : v = child
    · subst hv
      rw [hd] at hdc
      cases hdc
    · exact ⟨d, by simpa [hv] using hd, le_refl d⟩

theorem relaxStep_after (parDepth : ℕ) (s : DepthState) (child : Node) :
    ∃ d', (relaxStep parDepth s child).depth child = some d' ∧
      d' ≤ parDepth + 1 := by
  cases hdc : s.depth child with
  | some chDepth =>
    by_cases hle : chDepth ≤ parDepth + 1
    · rw [relaxStep_skip hdc hle]
      exact ⟨chDepth, hdc, hle⟩
    · rw [relaxStep_assign_deep hdc hle]
      exact ⟨parDepth + 1, by simp, le_refl _⟩
  | none =>
    rw [relaxStep_assign_none hdc]
    exact ⟨parDepth + 1, by simp, le_refl _⟩

theorem relaxFold_spec (parDepth : ℕ) (l : List Node) :
    ∀ st : DepthState,
    RelaxOut parDepth l st (l.foldl (relaxStep parDepth) st) := by
  induction l with
  | nil =>
    intro st
    exact ⟨fun v => Or.inl rfl, fun v hv => hv,
      fun v hv => Or.inl hv, fun c hc => absurd hc (List.not_mem_nil c),
      fun v d hd => ⟨d, hd, le_refl d⟩⟩
  | cons c l ih =>
    intro st
    rw [List.foldl_cons]
    have hs1 : ∀ v, (relaxStep parDepth st c).depth v = st.depth v ∨
        ((relaxStep parDepth st c).depth v = some (parDepth + 1) ∧ v = c ∧
          v ∈ (relaxStep parDepth st c).queue) := by
      intro v
      rcases relaxStep_cases parDepth st c with h | h <;> rw [h]
      · exact Or.inl rfl
      · by_cases hv : v = c
        · exact Or.inr ⟨by simp [hv], hv, by simp [hv]⟩
        · exact Or.inl (by simp [hv])
    have hs2 : ∀ v ∈ st.queue, v ∈ (relaxStep parDepth st c).queue := by
      intro v hv
      rcases relaxStep_cases parDepth st c with h | h <;> rw [h]
      · exact hv
      · exact List.mem_append_left _ hv
    have hs3 : ∀ v ∈ (relaxStep parDepth st c).queue, v ∈ st.queue ∨
        (relaxStep parDepth st c).depth v = some (parDepth + 1) := by
      intro v hv
      rcases relaxStep_cases parDepth st c with h | h <;> rw [h] at hv ⊢
      · exact Or.inl hv
      · rcases List.mem_append.mp hv with h' | h'
        · exact Or.inl h'
        · have hvc : v = c := by simpa using h'
          exact Or.inr (by simp [hvc])
    obtain ⟨p1, p2, p3, p4, p5⟩ := ih (relaxStep parDepth st c)
    refine ⟨?_, ?_, ?_, ?_, ?_⟩
    · intro v
      rcases p1 v with h | ⟨h, hl, hq⟩
      · rcases hs1 v with h' | ⟨h', hvc, hq'⟩
        · exact Or.inl (h.trans h')
        · exact Or.inr ⟨h.trans h', by rw [hvc]; exact List.mem_cons_self c l,
            p2 v hq'⟩
      · exact Or.inr ⟨h, List.mem_cons_of_mem c hl, hq⟩
    · intro v hv
      exact p2 v (hs2 v hv)
    · intro v hv
      rcases p3 v hv with h | h
      · rcases hs3 v h with h' | h'
        · exact Or.inl h'
        · rcases p1 v with hh | ⟨hh, _, _⟩
          · exact Or.inr (hh.trans h')
          · exact Or.inr hh
      · exact Or.inr h
    · intro a ha
      rcases List.mem_cons.mp ha with rfl | ha'
      · rcases relaxStep_after parDepth st a with ⟨d', hd', hle⟩
        rcases p5 a _ hd' with ⟨d'', hd'', hle'⟩
        exact ⟨d'', hd'', le_trans hle' hle⟩
      · exact p4 a ha'
    · intro v d hd
      rcases relaxStep_mono parDepth st c v d hd with ⟨d', hd', hle⟩
      rcases p5 v _ hd' with ⟨d'', hd'', hle'⟩
      exact ⟨d'', hd'', le_trans hle' hle⟩

theorem relaxChildren_spec (T : DiGraph) (parent : Node) (parDepth : ℕ)
    (st : DepthState) :
    RelaxOut parDepth (T.succs parent) st
      (relaxChildren T parent parDepth st) := by
  rw [relaxChildren_eq]
  exact relaxFold_spec parDepth (T.succs parent) st

/-- Invariant of the `while Q` loop of `_update_topdown`: every queued node
has an assigned depth, every assigned depth is an upper bound on the
shortest-path distance from the root, every edge out of an assigned node is
either pending (source still queued) or relaxed, and the root keeps depth 0. -/
structure DepthInv (T : DiGraph) (root : Node) (st : DepthState) : Prop where
  qa : ∀ v ∈ st.queue, ∃ d, st.depth v = some d
  sound : ∀ v d, st.depth v = some d → v ∈ distLe T root d
  relaxed : ∀ u v, T.hasEdge u v = true → ∀ d, st.depth u = some d →
    u ∈ st.queue ∨ ∃ d', st.depth v = some d' ∧ d' ≤ d + 1
  rootz : st.depth root = some 0

theorem depthInv_init (T : DiGraph) (root : Node) :
    DepthInv T root ⟨fun v => if v = root then some 0 else none, [root]⟩ := by
  refine ⟨?_, ?_, ?_, ?_⟩
  · intro v hv
    have hv' : v = root := by simpa using hv
    exact ⟨0, by simp [hv']⟩
  · intro v d hd
    dsimp only at hd
    by_cases hv : v = root
    · rw [if_pos hv] at hd
      injection hd with h
      subst hv
      rw [← h]
      exact mem_distLe_zero.mpr rfl
    · rw [if_neg hv] at hd
      cases hd
  · intro u v _ d hd
    dsimp only at hd
    by_cases hu : u = root
    · exact Or.inl (by simp [hu])
    · rw [if_neg hu] at hd
      cases hd
  · simp

theorem depthInv_step (T : DiGraph) (root : Node) (st : DepthState)
    (parent : Node) (Q : List Node) (hq : st.queue = parent :: Q)
    (inv : DepthInv T root st) :
    DepthInv T root
      (relaxChildren T parent ((st.depth parent).getD 0) ⟨st.depth, Q⟩) := by
  obtain ⟨dp, hdp⟩ := inv.qa parent (by rw [hq]; exact List.mem_cons_self _ _)
  have hpd : (st.depth parent).getD 0 = dp := by rw [hdp]; rfl
  obtain ⟨p1, p2, p3, p4, p5⟩ :=
    relaxChildren_spec T parent ((st.depth parent).getD 0) ⟨st.depth, Q⟩
  refine ⟨?_, ?_, ?_, ?_⟩
  · intro v hv
    rcases p3 v hv with h | h
    · obtain ⟨d, hd⟩ := inv.qa v (by rw [hq]; exact List.mem_cons_of_mem _ h)
      obtain ⟨d', hd', _⟩ := p5 v d hd
      exact ⟨d', hd'⟩
    · exact ⟨_, h⟩
  · intro v d hd
    rcases p1 v with h | ⟨h, hl, _⟩
    · exact inv.sound v d (h ▸ hd : st.depth v = some d)
    · rw [hd] at h
      injection h with h
      rw [h, hpd]
      exact mem_distLe_succ.mpr (Or.inr ⟨parent, inv.sound parent dp hdp,
        DiGraph.mem_succs_iff_hasEdge.mp hl⟩)
  · intro u v he d hd
    rcases p1 u with h | ⟨_, _, hqmem⟩
    · have hdu : st.depth u = some d := h ▸ hd
      rcases inv.relaxed u v he d hdu with hmem | ⟨d', hv', hle⟩
      · rw [hq] at hmem
        rcases List.mem_cons.mp hmem with rfl | hmem'
        · have hddp : d = dp := by
            rw [hdp] at hdu
            exact (Option.some.inj hdu).symm
          obtain ⟨d', hd', hle⟩ := p4 v (DiGraph.mem_succs_iff_hasEdge.mpr he)
          exact Or.inr ⟨d', hd', by omega⟩
        · exact Or.inl (p2 u hmem')
      · obtain ⟨d'', hd'', hle'⟩ := p5 v d' hv'
        exact Or.inr ⟨d'', hd'', by omega⟩
    · exact Or.inl hqmem
  · obtain ⟨d', hd', hle⟩ := p5 root 0 inv.rootz
    have h0 : d' = 0 := Nat.le_zero.mp hle
    exact h0 ▸ hd'

theorem depthInv_loop (T : DiGraph) (root : Node) :
    ∀ (fuel : ℕ) (st : DepthState), DepthInv T root st →
    DepthInv T root (updateTopdown fuel T st) := by
  intro fuel
  induction fuel with
  | zero => exact fun st inv => inv
  | succ n ih =>
    intro st inv
    cases hq : st.queue with
    | nil =>
      have h1 : updateTopdown (n + 1) T st = st := by
        simp only [updateTopdown]
        rw [hq]
      rw [h1]
      exact inv
    | cons parent Q =>
      have h1 : updateTopdown (n + 1) T st = updateTopdown n T
          (relaxChildren T parent ((st.depth parent).getD 0) ⟨st.depth, Q⟩) := by
        simp only [updateTopdown]
        rw [hq]
      rw [h1]

      exact ih _ (depthInv_step T root st parent Q hq inv)

theorem depth_complete (T : DiGraph) (root : Node) (st : DepthState)
    (inv : DepthInv T root st) (hq : st.queue = []) :
    ∀ d v, v ∈ distLe T root d → ∃ d', d' ≤ d ∧ st.depth v = some d' := by
  intro d
  induction d with
  | zero =>
    intro v hv
    have hvr : v = root := mem_distLe_zero.mp hv
    exact ⟨0, le_refl 0, hvr ▸ inv.rootz⟩
  | succ n ih =>
    intro v hv
    rcases mem_distLe_succ.mp hv with h | ⟨u, hu, hedge⟩
    · rcases ih v h with ⟨d', hle, hd⟩
      exact ⟨d', Nat.le_succ_of_le hle, hd⟩
    · rcases ih u hu with ⟨du, hdu, hdu2⟩
      rcases inv.relaxed u v hedge du hdu2 with h | ⟨dv, hdv, hlev⟩
      · rw [hq] at h
        cases h
      · exact ⟨dv, by omega, hdv⟩

/-- C5: depth annotation correctness. When `update_depth` runs on a
hierarchy with root `root` and the relaxation queue empties (the loop of
`_update_topdown` terminates), the resulting assignment gives the root
depth 0; across every edge `(u, v)` the depth of `v` exceeds the depth of
`u` by at most one; and a node is assigned depth `d` exactly when its
shortest-path distance from the root is `d` (nodes unreachable from the
root stay unassigned). -/
theorem update_depth_correct (T : DiGraph) (fuel : ℕ) (root : Node)
    (st : DepthState)
    (hroot : getRoot T = some root)
    (hrun : update_depth fuel T = some st)
    (hdone : st.queue = []) :
    st.depth root = some 0 ∧
    (∀ u v, T.hasEdge u v = true → ∀ d, st.depth u = some d →
      ∃ d', st.depth v = some d' ∧ d' ≤ d + 1) ∧
    (∀ v d, st.depth v = some d ↔
      (v ∈ distLe T root d ∧ ∀ m < d, v ∉ distLe T root m)) := by
  unfold update_depth at hrun
  rw [hroot] at hrun
  have hst : st = updateTopdown fuel T
      ⟨fun v => if v = root then some 0 else none, [root]⟩ :=
    (Option.some.inj hrun).symm
  subst hst
  have inv := depthInv_loop T root fuel _ (depthInv_init T root)
  refine ⟨inv.rootz, ?_, ?_⟩
  · intro u v he d hd
    rcases inv.relaxed u v he d hd with h | h
    · rw [hdone] at h
      cases h
    · exact h
  · intro v d
    constructor
    · intro hd
      refine ⟨inv.sound v d hd, fun m hm hvm => ?_⟩
      rcases depth_complete T root _ inv hdone m v hvm with ⟨d', hle, hd'⟩
      rw [hd] at hd'
      have := Option.some.inj hd'
      omega
    · rintro ⟨hvd, hmin⟩
      rcases depth_complete T root _ inv hdone d v hvd with ⟨d', hle, hd'⟩
      rcases Nat.lt_or_ge d' d with h | h
      · exact absurd (inv.sound v d' hd') (hmin d' h)
      · have hdd : d' = d := by omega
        rw [← hdd]
        exact hd'

/-- A small hierarchy for exercising `update_depth`: root cluster 0 over
cluster 1 over terminal 0. -/
def wG5 : DiGraph :=
  ⟨[Node.cluster 0, Node.cluster 1, Node.terminal 0],
   [((Node.cluster 0, Node.cluster 1), Frac.one),
    ((Node.cluster 1, Node.terminal 0), Frac.one)]⟩

/-- Witness for C5: on `wG5` (fuel 10) the queue empties, the root is
cluster 0, and its computed depth is 0. -/
theorem update_depth_correct_witness :
    ((update_depth 10 wG5).getD ⟨fun _ => none, []⟩).depth (Node.cluster 0) =
      some 0 :=
  (update_depth_correct wG5 10 (Node.cluster 0)
    ((update_depth 10 wG5).getD ⟨fun _ => none, []⟩)
    (by decide) rfl rfl).1

/-! ## Minimality of terminal attachment (`_build`, attachment phase) -/

/-- The edge relation of `G` restricted to cluster targets. In a graph
whose terminal nodes have no outgoing edges, reachability of a cluster is
reachability along such edges alone, and the attachment phase never changes
them. -/
def ClusterRel (G : DiGraph) (a b : Node) : Prop :=
  G.EdgeRel a b ∧ ∃ c : ℤ, b = Node.cluster c

theorem reaches_iff_clusterRel {G : DiGraph}
    (hterm : ∀ t v, G.hasEdge (Node.terminal t) v = false)
    {p : Node} {c : ℤ} :
    G.Reaches p (Node.cluster c) ↔
      Relation.ReflTransGen (ClusterRel G) p (Node.cluster c) := by
  constructor
  · intro h
    induction h using Relation.ReflTransGen.head_induction_on with
    | refl => exact Relation.ReflTransGen.refl
    | head hab hbq ih =>
      rename_i a b
      refine Relation.ReflTransGen.head ⟨hab, ?_⟩ ih
      cases b with
      | cluster c' => exact ⟨c', rfl⟩
      | terminal s =>
        rcases Relation.ReflTransGen.cases_head hbq with heq | ⟨u, hbu, _⟩
        · cases heq
        · have hbu' : G.hasEdge (Node.terminal s) u = true := hbu
          rw [hterm s u] at hbu'
          cases hbu'
  · intro h
    exact Relation.ReflTransGen.mono (fun a b hab => hab.1) h

theorem clusterRel_addEdge_term (G : DiGraph) (u : Node) (t : ℕ) (w : Frac)
    (a b : Node) :
    ClusterRel (G.addEdge u (Node.terminal t) w) a b ↔ ClusterRel G a b := by
  unfold ClusterRel DiGraph.EdgeRel
  constructor
  · rintro ⟨h1, c, rfl⟩
    rw [DiGraph.hasEdge_addEdge_iff] at h1
    rcases h1 with ⟨_, h⟩ | h1
    · cases h
    · exact ⟨h1, c, rfl⟩
  · rintro ⟨h1, c, rfl⟩
    exact ⟨(DiGraph.hasEdge_addEdge_iff G u (Node.terminal t) w a
      (Node.cluster c)).mpr (Or.inr h1), c, rfl⟩

theorem clusterRel_removeEdge_term (G : DiGraph) (u : Node) (t : ℕ)
    (a b : Node) :
    ClusterRel (G.removeEdge u (Node.terminal t)) a b ↔ ClusterRel G a b := by
  unfold ClusterRel DiGraph.EdgeRel
  constructor
  · rintro ⟨h1, c, rfl⟩
    rw [DiGraph.hasEdge_removeEdge_iff] at h1
    exact ⟨h1.1, c, rfl⟩
  · rintro ⟨h1, c, rfl⟩
    refine ⟨(DiGraph.hasEdge_removeEdge_iff G u (Node.terminal t) a
      (Node.cluster c)).mpr ⟨h1, ?_⟩, c, rfl⟩
    rintro ⟨_, h⟩
    cases h

theorem noTermSrc_addEdge {G : DiGraph} {u : Node} {t : ℕ} {w : Frac}
    (hterm : ∀ s v, G.hasEdge (Node.terminal s) v = false)
    (hu : ∃ c : ℤ, u = Node.cluster c) :
    ∀ s v, (G.addEdge u (Node.terminal t) w).hasEdge (Node.terminal s) v
      = false := by
  intro s v
  rcases hu with ⟨c, rfl⟩
  cases h : (G.addEdge (Node.cluster c) (Node.terminal t) w).hasEdge
      (Node.terminal s) v
  · rfl
  · rw [DiGraph.hasEdge_addEdge_iff] at h
    rcases h with ⟨h1, _⟩ | h1
    · cases h1
    · rw [hterm s v] at h1
      cases h1

theorem noTermSrc_removeEdge {G : DiGraph} {u v : Node}
    (hterm : ∀ s x, G.hasEdge (Node.terminal s) x = false) :
    ∀ s x, (G.removeEdge u v).hasEdge (Node.terminal s) x = false := by
  intro s x
  cases h : (G.removeEdge u v).hasEdge (Node.terminal s) x
  · rfl
  · rw [DiGraph.hasEdge_removeEdge_iff] at h
    rw [hterm s x] at h
    rcases h with ⟨h1, _⟩
    cases h1

theorem scanAttached_cons_skip {G : DiGraph} {node other : Node}
    {rest : List Node} (h : G.hasPath node other = true) :
    scanAttached G node (other :: rest) = (other :: rest, [], true) := by
  simp [scanAttached, h]

theorem scanAttached_cons_remove {G : DiGraph} {node other : Node}
    {rest : List Node} (h1 : G.hasPath node other = false)
    (h2 : G.hasPath other node = true) :
    scanAttached G node (other :: rest) =
      ((scanAttached G node rest).1,
        other :: (scanAttached G node rest).2.1,
        (scanAttached G node rest).2.2) := by
  rcases hsc : scanAttached G node rest with ⟨s, r, sk⟩
  simp [scanAttached, h1, h2, hsc]

theorem scanAttached_cons_keep {G : DiGraph} {node other : Node}
    {rest : List Node} (h1 : G.hasPath node other = false)
    (h2 : G.hasPath other node = false) :
    scanAttached G node (other :: rest) =
      (other :: (scanAttached G node rest).1,
        (scanAttached G node rest).2.1,
        (scanAttached G node rest).2.2) := by
  rcases hsc : scanAttached G node rest with ⟨s, r, sk⟩
  simp [scanAttached, h1, h2, hsc]

/-- Postcondition of the attached-record scan of the attachment loop:
survivors plus removals are a permutation of the scanned list; when no skip
occurred every survivor is reachability-incomparable with the candidate
node; every removal reaches the candidate node (and is not reached by it). -/
def ScanOut (G : DiGraph) (node : Node) (lst survRev removed : List Node)
    (sk : Bool) : Prop :=
  (survRev ++ removed).Perm lst ∧
  (sk = false → ∀ x ∈ survRev,
    G.hasPath node x = false ∧ G.hasPath x node = false) ∧
  (∀ x ∈ removed, G.hasPath x node = true ∧ G.hasPath node x = false)

theorem scanAttached_spec (G : DiGraph) (node : Node) (lst : List Node) :
    ScanOut G node lst (scanAttached G node lst).1
      (scanAttached G node lst).2.1 (scanAttached G node lst).2.2 := by
  induction lst with
  | nil =>
    exact ⟨List.Perm.refl _, fun _ x hx => absurd hx (List.not_mem_nil x),
      fun x hx => absurd hx (List.not_mem_nil x)⟩
  | cons other rest ih =>
    obtain ⟨q1, q2, q3⟩ := ih
    cases h1 : G.hasPath node other with
    | true =>
      rw [scanAttached_cons_skip h1]
      exact ⟨by simp, fun h => Bool.noConfusion h,
        fun x hx => absurd hx (List.not_mem_nil x)⟩
    | false =>
      cases h2 : G.hasPath other node with
      | true =>
        rw [scanAttached_cons_remove h1 h2]
        refine ⟨List.perm_middle.trans (q1.cons other), q2, ?_⟩
        intro x hx
        rcases List.mem_cons.mp hx with rfl | hx'
        · exact ⟨h2, h1⟩
        · exact q3 x hx'
      | false =>
        rw [scanAttached_cons_keep h1 h2]
        refine ⟨q1.cons other, ?_, q3⟩
        intro hsk x hx
        rcases List.mem_cons.mp hx with rfl | hx'
        · exact ⟨h1, h2⟩
        · exact q2 hsk x hx'

theorem removeFold_hasEdge (ter : Node) (removed : List Node) :
    ∀ (G : DiGraph) (a b : Node),
    (removed.foldl (fun g other => g.removeEdge other ter) G).hasEdge a b
        = true ↔
      G.hasEdge a b = true ∧ ∀ x ∈ removed, ¬(a = x ∧ b = ter) := by
  induction removed with
  | nil =>
    intro G a b
    simp
  | cons y rest ih =>
    intro G a b
    rw [List.foldl_cons, ih, DiGraph.hasEdge_removeEdge_iff]
    constructor
    · rintro ⟨⟨h1, h2⟩, h3⟩
      refine ⟨h1, ?_⟩
      intro x hx
      rcases List.mem_cons.mp hx with rfl | hx'
      · exact h2
      · exact h3 x hx'
    · rintro ⟨h1, h2⟩
      exact ⟨⟨h1, h2 y (List.mem_cons_self y rest)⟩,
        fun x hx => h2 x (List.mem_cons_of_mem y hx)⟩

theorem removeFold_clusterRel (t : ℕ) (removed : List Node) :
    ∀ (G : DiGraph) (a b : Node),
    ClusterRel (removed.foldl
        (fun g other => g.removeEdge other (Node.terminal t)) G) a b ↔
      ClusterRel G a b := by
  induction removed with
  | nil => intro G a b; exact Iff.rfl
  | cons y rest ih =>
    intro G a b
    rw [List.foldl_cons, ih, clusterRel_removeEdge_term]

theorem removeFold_noTermSrc (ter : Node) (removed : List Node) :
    ∀ (G : DiGraph),
    (∀ s x, G.hasEdge (Node.terminal s) x = false) →
    ∀ s x, (removed.foldl (fun g other => g.removeEdge other ter) G).hasEdge
      (Node.terminal s) x = false := by
  induction removed with
  | nil => exact fun G h => h
  | cons y rest ih =>
    intro G h
    rw [List.foldl_cons]
    exact ih _ (noTermSrc_removeEdge h)

theorem attachOne_skip (G : DiGraph) (node : Node) (t : ℕ)
    (attached : List Node)
    (h : (scanAttached G node attached.reverse).2.2 = true) :
    attachOne G node t attached =
      ((scanAttached G node attached.reverse).2.1.foldl
          (fun g other => g.removeEdge other (Node.terminal t)) G,
       (scanAttached G node attached.reverse).1.reverse) := by
  rcases hs : scanAttached G node attached.reverse with ⟨s, r, sk⟩
  rw [hs] at h
  simp only at h
  simp [attachOne, hs, h]

theorem attachOne_attach (G : DiGraph) (node : Node) (t : ℕ)
    (attached : List Node)
    (h : (scanAttached G node attached.reverse).2.2 = false) :
    attachOne G node t attached =
      (((scanAttached G node attached.reverse).2.1.foldl
          (fun g other => g.removeEdge other (Node.terminal t)) G).addEdge
            node (Node.terminal t) Frac.one,
       (scanAttached G node attached.reverse).1.reverse ++ [node]) := by
  rcases hs : scanAttached G node attached.reverse with ⟨s, r, sk⟩
  rw [hs] at h
  simp only at h
  simp [attachOne, hs, h]

/-- Invariant of the terminal-attachment phase: terminals never have
outgoing edges, cluster-target edges are exactly those of the input graph,
the per-terminal record mirrors the terminal's in-edges, records hold
distinct cluster nodes, and each record is an antichain of the (static)
cluster reachability relation. -/
structure AttachInv (G0 : DiGraph) (st : AttachState) : Prop where
  noTermSrc : ∀ s v, st.G.hasEdge (Node.terminal s) v = false
  crel : ∀ a b, ClusterRel st.G a b ↔ ClusterRel G0 a b
  sync : ∀ s p, st.G.hasEdge p (Node.terminal s) = true ↔ p ∈ st.record s
  recCl : ∀ s p, p ∈ st.record s → ∃ c : ℤ, p = Node.cluster c
  recNodup : ∀ s, (st.record s).Nodup
  antichain : ∀ s p q, p ∈ st.record s → q ∈ st.record s → p ≠ q →
    ¬ Relation.ReflTransGen (ClusterRel G0) p q

theorem attachStep_inv (G0 : DiGraph) (node : Node)
    (hnode : ∃ c : ℤ, node = Node.cluster c)
    (t : ℕ) (st : AttachState) (inv : AttachInv G0 st) :
    AttachInv G0 ⟨(attachOne st.G node t (st.record t)).1,
      fun u => if u = t then (attachOne st.G node t (st.record t)).2
        else st.record u⟩ := by
  obtain ⟨sp1, sp2, sp3⟩ := scanAttached_spec st.G node (st.record t).reverse
  have hmemSR : ∀ x, x ∈ st.record t ↔
      x ∈ (scanAttached st.G node (st.record t).reverse).1 ∨
      x ∈ (scanAttached st.G node (st.record t).reverse).2.1 := by
    intro x
    rw [← List.mem_reverse, ← sp1.mem_iff, List.mem_append]
  have hnd : ((scanAttached st.G node (st.record t).reverse).1 ++
      (scanAttached st.G node (st.record t).reverse).2.1).Nodup :=
    sp1.nodup_iff.mpr (List.nodup_reverse.mpr (inv.recNodup t))
  obtain ⟨hndS, hndR, hdisjSR⟩ := List.nodup_append.mp hnd
  have hreachfalse : ∀ a b : Node, st.G.hasPath a b = false →
      ¬ Relation.ReflTransGen (ClusterRel G0) a b := by
    intro a b hf hr
    have h1 : Relation.ReflTransGen (ClusterRel st.G) a b :=
      Relation.ReflTransGen.mono (fun x y hxy => (inv.crel x y).mpr hxy) hr
    have h2 : st.G.Reaches a b :=
      Relation.ReflTransGen.mono (fun x y hxy => hxy.1) h1
    rw [(DiGraph.hasPath_iff st.G a b).mpr h2] at hf
    cases hf
  have hGsync : ∀ s p,
      ((scanAttached st.G node (st.record t).reverse).2.1.foldl
        (fun g other => g.removeEdge other (Node.terminal t)) st.G).hasEdge
          p (Node.terminal s) = true ↔
      (p ∈ st.record s ∧ (s = t → p ∉
        (scanAttached st.G node (st.record t).reverse).2.1)) := by
    intro s p
    rw [removeFold_hasEdge, inv.sync]
    constructor
    · rintro ⟨h1, h2⟩
      refine ⟨h1, fun hst hp => ?_⟩
      exact h2 p hp ⟨rfl, by rw [hst]⟩
    · rintro ⟨h1, h2⟩
      refine ⟨h1, fun x hx hc => ?_⟩
      rcases hc with ⟨rfl, hc2⟩
      have hst : s = t := by
        injection hc2
      exact h2 hst hx
  cases hsk : (scanAttached st.G node (st.record t).reverse).2.2 with
  | true =>
    rw [attachOne_skip st.G node t (st.record t) hsk]
    refine ⟨?_, ?_, ?_, ?_, ?_, ?_⟩
    · exact removeFold_noTermSrc (Node.terminal t) _ st.G inv.noTermSrc
    · exact fun a b => (removeFold_clusterRel t _ st.G a b).trans (inv.crel a b)
    · intro s p
      show _ = true ↔ p ∈ (if s = t then
          (scanAttached st.G node (st.record t).reverse).1.reverse
        else st.record s)
      rw [hGsync s p]
      by_cases hst : s = t
      · rw [if_pos hst, List.mem_reverse, hst]
        constructor
        · rintro ⟨h1, h2⟩
          rcases (hmemSR p).mp h1 with h | h
          · exact h
          · exact absurd h (h2 rfl)
        · intro h
          exact ⟨(hmemSR p).mpr (Or.inl h), fun _ => hdisjSR h⟩
      · rw [if_neg hst]
        constructor
        · rintro ⟨h1, _⟩
          exact h1
        · intro h
          exact ⟨h, fun hc => absurd hc hst⟩
    · intro s p hp
      have hp' : p ∈ (if s = t then
          (scanAttached st.G node (st.record t).reverse).1.reverse
        else st.record s) := hp
      by_cases hst : s = t
      · rw [if_pos hst, List.mem_reverse] at hp'
        exact inv.recCl t p ((hmemSR p).mpr (Or.inl hp'))
      · rw [if_neg hst] at hp'
        exact inv.recCl s p hp'
    · intro s
      show (if s = t then
          (scanAttached st.G node (st.record t).reverse).1.reverse
        else st.record s).Nodup
      by_cases hst : s = t
      · rw [if_pos hst]
        exact List.nodup_reverse.mpr hndS
      · rw [if_neg hst]
        exact inv.recNodup s
    · intro s p q hp hq hpq
      have hp' : p ∈ (if s = t then
          (scanAttached st.G node (st.record t).reverse).1.reverse
        else st.record s) := hp
      have hq' : q ∈ (if s = t then
          (scanAttached st.G node (st.record t).reverse).1.reverse
        else st.record s) := hq
      by_cases hst : s = t
      · rw [if_pos hst, List.mem_reverse] at hp' hq'
        exact inv.antichain t p q ((hmemSR p).mpr (Or.inl hp'))
          ((hmemSR q).mpr (Or.inl hq')) hpq
      · rw [if_neg hst] at hp' hq'
        exact inv.antichain s p q hp' hq' hpq
  | false =>
    rw [attachOne_attach st.G node t (st.record t) hsk]
    have hnodeS : node ∉ (scanAttached st.G node (st.record t).reverse).1 := by
      intro hmem
      have hpp := (sp2 hsk node hmem).1
      rw [(DiGraph.hasPath_iff st.G node node).mpr Relation.ReflTransGen.refl]
        at hpp
      cases hpp
    refine ⟨?_, ?_, ?_, ?_, ?_, ?_⟩
    · exact noTermSrc_addEdge
        (removeFold_noTermSrc (Node.terminal t) _ st.G inv.noTermSrc) hnode
    · exact fun a b => (clusterRel_addEdge_term _ node t Frac.one a b).trans
        ((removeFold_clusterRel t _ st.G a b).trans (inv.crel a b))
    · intro s p
      show _ = true ↔ p ∈ (if s = t then
          (scanAttached st.G node (st.record t).reverse).1.reverse ++ [node]
        else st.record s)
      rw [DiGraph.hasEdge_addEdge_iff, hGsync s p]
      by_cases hst : s = t
      · rw [if_pos hst, List.mem_append, List.mem_reverse, hst]
        constructor
        · rintro (⟨rfl, _⟩ | ⟨h1, h2⟩)
          · exact Or.inr (by simp)
          · rcases (hmemSR p).mp h1 with h | h
            · exact Or.inl h
            · exact absurd h (h2 rfl)
        · rintro (h | h)
          · exact Or.inr ⟨(hmemSR p).mpr (Or.inl h), fun _ => hdisjSR h⟩
          · have hpn : p = node := by simpa using h
            exact Or.inl ⟨hpn, rfl⟩
      · rw [if_neg hst]
        constructor
        · rintro (⟨_, hc⟩ | ⟨h1, _⟩)
          · cases hc
            exact absurd rfl hst
          · exact h1
        · intro h
          exact Or.inr ⟨h, fun hc => absurd hc hst⟩
    · intro s p hp
      have hp' : p ∈ (if s = t then
          (scanAttached st.G node (st.record t).reverse).1.reverse ++ [node]
        else st.record s) := hp
      by_cases hst : s = t
      · rw [if_pos hst, List.mem_append, List.mem_reverse] at hp'
        rcases hp' with h | h
        · exact inv.recCl t p ((hmemSR p).mpr (Or.inl h))
        · have hpn : p = node := by simpa using h
          exact hpn ▸ hnode
      · rw [if_neg hst] at hp'
        exact inv.recCl s p hp'
    · intro s
      show (if s = t then
          (scanAttached st.G node (st.record t).reverse).1.reverse ++ [node]
        else st.record s).Nodup
      by_cases hst : s = t
      · rw [if_pos hst]
        refine List.Nodup.append (List.nodup_reverse.mpr hndS)
          (List.nodup_singleton node) ?_
        intro x hx hx'
        have hxn : x = node := by simpa using hx'
        rw [List.mem_reverse] at hx
        exact hnodeS (hxn ▸ hx)
      · rw [if_neg hst]
        exact inv.recNodup s
    · intro s p q hp hq hpq
      have hp' : p ∈ (if s = t then
          (scanAttached st.G node (st.record t).reverse).1.reverse ++ [node]
        else st.record s) := hp
      have hq' : q ∈ (if s = t then
          (scanAttached st.G node (st.record t).reverse).1.reverse ++ [node]
        else st.record s) := hq
      by_cases hst : s = t
      · rw [if_pos hst, List.mem_append, List.mem_reverse] at hp' hq'
        rcases hp' with hp' | hp'
        · rcases hq' with hq' | hq'
          · exact inv.antichain t p q ((hmemSR p).mpr (Or.inl hp'))
              ((hmemSR q).mpr (Or.inl hq')) hpq
          · have hqn : q = node := by simpa using hq'
            subst hqn
            exact hreachfalse p q (sp2 hsk p hp').2
        · rcases hq' with hq' | hq'
          · have hpn : p = node := by simpa using hp'
            subst hpn
            exact hreachfalse p q (sp2 hsk q hq').1
          · have hpn : p = node := by simpa using hp'
            have hqn : q = node := by simpa using hq'
            exact absurd (hpn.trans hqn.symm) hpq
      · rw [if_neg hst] at hp' hq'
        exact inv.antichain s p q hp' hq' hpq

theorem attachNodeTerminals_inv (G0 : DiGraph) (node : Node)
    (hnode : ∃ c : ℤ, node = Node.cluster c) (x : List ℕ) :
    ∀ st : AttachState, AttachInv G0 st →
    AttachInv G0 (attachNodeTerminals node x st) := by
  induction x with
  | nil => exact fun st inv => inv
  | cons t rest ih =>
    intro st inv
    unfold attachNodeTerminals
    rw [List.foldl_cons]
    have h := ih _ (attachStep_inv G0 node hnode t st inv)
    unfold attachNodeTerminals at h
    exact h

theorem attachFold_inv (L : List (List Bool)) (G0 : DiGraph)
    (nodes : List Node) :
    ∀ st : AttachState, AttachInv G0 st →
    AttachInv G0 (nodes.foldl (fun (st : AttachState) (node : Node) =>
      match node with
      | .terminal _ => st
      | .cluster n =>
        if n = -1 then st
        else
          let row := L.getD n.toNat []
          let x := (List.range row.length).filter fun t => row.getD t false
          attachNodeTerminals (.cluster n) x st) st) := by
  induction nodes with
  | nil => exact fun st inv => inv
  | cons nd rest ih =>
    intro st inv
    rw [List.foldl_cons]
    refine ih _ ?_
    cases nd with
    | terminal s => exact inv
    | cluster n =>
      show AttachInv G0 (if n = -1 then st else _)
      by_cases hn : n = -1
      · rw [if_pos hn]
        exact inv
      · rw [if_neg hn]
        exact attachNodeTerminals_inv G0 (.cluster n) ⟨n, rfl⟩ _ st inv

theorem attachInv_init (G0 : DiGraph)
    (hsrc : ∀ s v, G0.hasEdge (Node.terminal s) v = false)
    (htgt : ∀ p s, G0.hasEdge p (Node.terminal s) = false) :
    AttachInv G0 ⟨G0, fun _ => []⟩ :=
  ⟨hsrc, fun a b => Iff.rfl,
   fun s p => by simp [htgt p s],
   fun s p hp => absurd hp (List.not_mem_nil p),
   fun s => List.nodup_nil,
   fun s p q hp _ _ => absurd hp (List.not_mem_nil p)⟩

/-- C7: minimality of terminal attachment. If the graph entering the
attachment phase of `_build` has no edges incident to terminal nodes (as
after the redundancy phase, whose graph has only cluster nodes), then in
the attached graph any two distinct parents of the same terminal are
reachability-incomparable: neither reaches the other. Each terminal is thus
attached exactly to its minimal covering clusters. -/
theorem attach_minimal_covering (L : List (List Bool)) (G0 : DiGraph)
    (hsrc : ∀ s v, G0.hasEdge (Node.terminal s) v = false)
    (htgt : ∀ p s, G0.hasEdge p (Node.terminal s) = false)
    (t : ℕ) (p q : Node)
    (hp : (attachPhase L G0).hasEdge p (Node.terminal t) = true)
    (hq : (attachPhase L G0).hasEdge q (Node.terminal t) = true)
    (hpq : p ≠ q) :
    ¬ (attachPhase L G0).Reaches p q := by
  have inv := attachFold_inv L G0 G0.nodes ⟨G0, fun _ => []⟩
    (attachInv_init G0 hsrc htgt)
  have hpm := (inv.sync t p).mp hp
  have hqm := (inv.sync t q).mp hq
  have hanti := inv.antichain t p q hpm hqm hpq
  intro hr
  obtain ⟨c, hc⟩ := inv.recCl t q hqm
  subst hc
  have hbr := (reaches_iff_clusterRel inv.noTermSrc).mp hr
  exact hanti (Relation.ReflTransGen.mono
    (fun a b h => (inv.crel a b).mp h) hbr)

/-- Two incomparable clusters both containing terminal 0. -/
def wG7 : DiGraph := ⟨[Node.cluster 0, Node.cluster 1], []⟩

/-- Witness for C7: both clusters of `wG7` attach to terminal 0, and the
theorem yields that neither reaches the other in the attached graph. -/
theorem attach_minimal_covering_witness :
    ¬ (attachPhase [[true], [true]] wG7).Reaches (Node.cluster 0)
        (Node.cluster 1) :=
  attach_minimal_covering [[true], [true]] wG7 (fun s v => rfl)
    (fun p s => rfl) 0 (Node.cluster 0) (Node.cluster 1)
    (by decide) (by decide) (by decide)

/-! ## Single-parent property of `pick(0, 0)` -/

/-- `v` has at most one distinct parent, stated through the edge relation. -/
def PredUnique (T : DiGraph) (v : Node) : Prop :=
  ∀ p q, T.hasEdge p v = true → T.hasEdge q v = true → p = q

theorem inDeg_le_one_iff_predUnique {T : DiGraph}
    (hkeys : (T.edges.map Prod.fst).Nodup) (v : Node) :
    T.inDeg v ≤ 1 ↔ PredUnique T v := by
  have hnd := DiGraph.preds_nodup hkeys v
  unfold DiGraph.inDeg PredUnique
  constructor
  · intro hlen p q hp hq
    rw [← DiGraph.mem_preds_iff_hasEdge] at hp hq
    rcases hl : T.preds v with _ | ⟨a, rest⟩
    · rw [hl] at hp
      cases hp
    · rw [hl] at hp hq
      rw [hl] at hlen
      have hrest : rest = [] := by
        have : rest.length = 0 := by
          simpa using hlen
        exact List.eq_nil_of_length_eq_zero this
      subst hrest
      have hpa : p = a := by simpa using hp
      have hqa : q = a := by simpa using hq
      rw [hpa, hqa]
  · intro hu
    rcases hl : T.preds v with _ | ⟨a, rest⟩
    · simp
    · rcases rest with _ | ⟨b, rest2⟩
      · simp
      · exfalso
        rw [hl] at hnd
        have hab : a ≠ b := by
          have := List.pairwise_cons.mp hnd
          exact this.1 b (List.mem_cons_self b rest2)
        apply hab
        refine hu a b ?_ ?_
        · rw [← DiGraph.mem_preds_iff_hasEdge, hl]
          exact List.mem_cons_self _ _
        · rw [← DiGraph.mem_preds_iff_hasEdge, hl]
          exact List.mem_cons_of_mem _ (List.mem_cons_self _ _)

theorem hasEdge_mono_of_sublist {G H : DiGraph}
    (hsub : H.edges.Sublist G.edges) {a b : Node}
    (h : H.hasEdge a b = true) : G.hasEdge a b = true := by
  rw [DiGraph.hasEdge_true_iff] at h ⊢
  rcases h with ⟨w, hw⟩
  exact ⟨w, hsub.mem hw⟩

theorem predUnique_of_hasEdge_mono {G H : DiGraph}
    (hsub : ∀ a b : Node, H.hasEdge a b = true → G.hasEdge a b = true)
    {v : Node} (h : PredUnique G v) : PredUnique H v :=
  fun p q hp hq => h p q (hsub p v hp) (hsub q v hq)

theorem hasEdge_removeNode_iff (G : DiGraph) (u a b : Node) :
    (G.removeNode u).hasEdge a b = true ↔
      G.hasEdge a b = true ∧ a ≠ u ∧ b ≠ u := by
  rw [DiGraph.hasEdge_true_iff, DiGraph.hasEdge_true_iff]
  constructor
  · rintro ⟨w, hw⟩
    have hm := List.mem_filter.mp hw
    have hcond := hm.2
    simp only [Bool.and_eq_true, Bool.not_eq_true', decide_eq_false_iff_not]
      at hcond
    exact ⟨⟨w, hm.1⟩, hcond⟩
  · rintro ⟨⟨w, hw⟩, h1, h2⟩
    exact ⟨w, List.mem_filter.mpr ⟨hw, by simp [h1, h2]⟩⟩

theorem foldAdd_hasEdge (parent : Node) (wf : DiGraph → Node → Frac) :
    ∀ (children : List Node) (T : DiGraph) (a b : Node),
    (children.foldl (fun t child => t.addEdge parent child (wf t child))
        T).hasEdge a b = true ↔
      (T.hasEdge a b = true ∨ (a = parent ∧ b ∈ children)) := by
  intro children
  induction children with
  | nil =>
    intro T a b
    simp
  | cons c cs ih =>
    intro T a b
    rw [List.foldl_cons, ih, DiGraph.hasEdge_addEdge_iff]
    constructor
    · rintro ((⟨rfl, rfl⟩ | h) | ⟨rfl, hb⟩)
      · exact Or.inr ⟨rfl, List.mem_cons_self _ _⟩
      · exact Or.inl h
      · exact Or.inr ⟨rfl, List.mem_cons_of_mem c hb⟩
    · rintro (h | ⟨rfl, hb⟩)
      · exact Or.inl (Or.inr h)
      · rcases List.mem_cons.mp hb with rfl | hb'
        · exact Or.inl (Or.inl ⟨rfl, rfl⟩)
        · exact Or.inr ⟨rfl, hb'⟩

theorem collapseNode_predUnique (T : DiGraph) (node : Node)
    (h : ∀ v, PredUnique T v) : ∀ v, PredUnique (collapseNode T node) v := by
  cases hpreds : T.preds node with
  | nil =>
    have hid : collapseNode T node = T := by
      unfold collapseNode
      rw [hpreds]
    rw [hid]
    exact h
  | cons parent rest =>
    have hcn : collapseNode T node = ((T.succs node).foldl
        (fun t child => t.addEdge parent child
          (Frac.add ((T.edgeWeight parent node).getD Frac.zero)
            ((t.edgeWeight node child).getD Frac.zero))) T).removeNode node := by
      unfold collapseNode
      rw [hpreds]
    rw [hcn]
    intro v p q hp hq
    rw [hasEdge_removeNode_iff] at hp hq
    obtain ⟨hp1, hpa, _⟩ := hp
    obtain ⟨hq1, hqa, _⟩ := hq
    rw [foldAdd_hasEdge] at hp1 hq1
    rcases hp1 with hp1 | ⟨rfl, hps⟩
    · rcases hq1 with hq1 | ⟨rfl, hqs⟩
      · exact h v p q hp1 hq1
      · exact absurd (h v p node hp1
          (DiGraph.mem_succs_iff_hasEdge.mp hqs)) hpa
    · rcases hq1 with hq1 | ⟨rfl, _⟩
      · exact absurd (h v q node hq1
          (DiGraph.mem_succs_iff_hasEdge.mp hps)) hqa
      · rfl

theorem collapsePhase_predUnique (strict : Bool) (order : List Node) :
    ∀ T : DiGraph, (∀ v, PredUnique T v) →
    ∀ v, PredUnique (collapsePhase strict T order) v := by
  induction order with
  | nil => exact fun T h => h
  | cons nd rest ih =>
    intro T h
    unfold collapsePhase
    rw [List.foldl_cons]
    have hstep : ∀ v, PredUnique
        (if singleBranch strict T nd then collapseNode T nd else T) v := by
      by_cases hsb : singleBranch strict T nd = true
      · rw [if_pos hsb]
        exact collapseNode_predUnique T nd h
      · rw [if_neg hsb]
        exact h
    have hres := ih _ hstep
    unfold collapsePhase at hres
    exact hres

theorem deadLoopF_edges_sub (fuel : ℕ) :
    ∀ tl : DiGraph × List Node,
      (deadLoopF fuel tl).1.edges.Sublist tl.1.edges := by
  induction fuel with
  | zero => exact fun tl => List.Sublist.refl _
  | succ n ih =>
    intro tl
    unfold deadLoopF
    by_cases h : ((tl.2.map tl.1.outDeg).contains 0) = true
    · rw [if_pos h]
      exact (ih (deadPass tl)).trans (foldl_deadStep_edges_sub tl.2.reverse tl)
    · rw [if_neg h]

theorem foldAdd_WF (parent : Node) (wf : DiGraph → Node → Frac) :
    ∀ (children : List Node) (T : DiGraph), T.WF →
    (children.foldl (fun t child => t.addEdge parent child (wf t child))
      T).WF := by
  intro children
  induction children with
  | nil => exact fun T h => h
  | cons c cs ih =>
    intro T h
    rw [List.foldl_cons]
    exact ih _ (h.addEdge parent c _)

theorem collapseNode_WF (T : DiGraph) (node : Node) (h : T.WF) :
    (collapseNode T node).WF := by
  cases hpreds : T.preds node with
  | nil =>
    have hid : collapseNode T node = T := by
      unfold collapseNode
      rw [hpreds]
    rw [hid]
    exact h
  | cons parent rest =>
    have hcn : collapseNode T node = ((T.succs node).foldl
        (fun t child => t.addEdge parent child
          (Frac.add ((T.edgeWeight parent node).getD Frac.zero)
            ((t.edgeWeight node child).getD Frac.zero))) T).removeNode node := by
      unfold collapseNode
      rw [hpreds]
    rw [hcn]
    exact (foldAdd_WF parent _ (T.succs node) T h).removeNode node

theorem collapsePhase_WF (strict : Bool) (order : List Node) :
    ∀ T : DiGraph, T.WF → (collapsePhase strict T order).WF := by
  induction order with
  | nil => exact fun T h => h
  | cons nd rest ih =>
    intro T h
    unfold collapsePhase
    rw [List.foldl_cons]
    have hstep : (if singleBranch strict T nd then collapseNode T nd else T).WF := by
      by_cases hsb : singleBranch strict T nd = true
      · rw [if_pos hsb]
        exact collapseNode_WF T nd h
      · rw [if_neg hsb]
        exact h
    have hres := ih _ hstep
    unfold collapsePhase at hres
    exact hres

theorem deadStep_WF (acc : DiGraph × List Node) (node : Node)
    (h : acc.1.WF) : (deadStep acc node).1.WF := by
  unfold deadStep
  by_cases hc : (istuple node && decide (acc.1.outDeg node = 0)) = true
  · rw [if_pos hc]
    exact h.removeNode node
  · rw [if_neg hc]
    exact h

theorem foldl_deadStep_WF (l : List Node) :
    ∀ acc : DiGraph × List Node, acc.1.WF → (l.foldl deadStep acc).1.WF := by
  induction l with
  | nil => exact fun acc h => h
  | cons b l ih =>
    intro acc h
    rw [List.foldl_cons]
    exact ih _ (deadStep_WF acc b h)

theorem deadLoopF_WF (fuel : ℕ) :
    ∀ tl : DiGraph × List Node, tl.1.WF → (deadLoopF fuel tl).1.WF := by
  induction fuel with
  | zero => exact fun tl h => h
  | succ n ih =>
    intro tl h
    unfold deadLoopF
    by_cases hc : ((tl.2.map tl.1.outDeg).contains 0) = true
    · rw [if_pos hc]
      exact ih (deadPass tl) (foldl_deadStep_WF tl.2.reverse tl h)
    · rw [if_neg hc]
      exact h

theorem prune_WF (strict : Bool) (T : DiGraph) (h : T.WF) :
    (prune strict T).WF :=
  collapsePhase_WF strict _ _
    (deadLoopF_WF ((T.nodes.filter istuple).length + 1)
      (T, T.nodes.filter istuple) h)

theorem zip_self_map {α β : Type} (f : α → β) :
    ∀ l : List α, l.zip (l.map f) = l.map fun a => (a, f a) := by
  intro l
  induction l with
  | nil => rfl
  | cons a l ih => simp [ih]

theorem mem_findSecondary_fst (L : List (List Bool)) (G : DiGraph)
    (root v : Node) (hv : v ∈ G.nodes) (hlen : 1 < (G.preds v).length)
    (ht : istuple v = true) {e : (Node × Node) × Frac}
    (he : e ∈ (rankedParentEdges L G v).drop 1) :
    e ∈ (findSecondary L G root).1 := by
  show e ∈ _
  unfold findSecondary
  rw [(List.perm_insertionSort edgePrefGe _).mem_iff, List.mem_flatten]
  refine ⟨(rankedParentEdges L G v).drop 1, ?_, he⟩
  rw [List.map_map, List.mem_map]
  refine ⟨v, hv, ?_⟩
  simp [hlen, ht]

theorem mem_findSecondary_snd (L : List (List Bool)) (G : DiGraph)
    (root v : Node) (hv : v ∈ G.nodes) (hlen : 1 < (G.preds v).length)
    (ht : istuple v = false) {e : (Node × Node) × ℕ}
    (he : e ∈ (rankedTerminalEdges G root v).drop 1) :
    e ∈ (findSecondary L G root).2 := by
  show e ∈ _
  unfold findSecondary
  rw [(List.perm_insertionSort stepsGe _).mem_iff, List.mem_flatten]
  refine ⟨(rankedTerminalEdges G root v).drop 1, ?_, he⟩
  rw [List.map_map, List.mem_map]
  refine ⟨v, hv, ?_⟩
  simp [hlen, ht]

theorem trimmed_predUnique (L : List (List Bool)) (G : DiGraph) (root : Node)
    (hwf : G.WF) (v : Node) :
    PredUnique
      ((G.removeEdgesFrom
          ((findSecondary L G root).1.map fun e => e.1)).removeEdgesFrom
        ((findSecondary L G root).2.map fun e => e.1)) v := by
  intro p q hp hq
  rw [DiGraph.hasEdge_removeEdgesFrom_iff] at hp hq
  obtain ⟨hp1, hpSect⟩ := hp
  obtain ⟨hq1, hqSect⟩ := hq
  rw [DiGraph.hasEdge_removeEdgesFrom_iff] at hp1 hq1
  obtain ⟨hpE, hpSec⟩ := hp1
  obtain ⟨hqE, hqSec⟩ := hq1
  have hpm : p ∈ G.preds v := DiGraph.mem_preds_iff_hasEdge.mpr hpE
  have hqm : q ∈ G.preds v := DiGraph.mem_preds_iff_hasEdge.mpr hqE
  by_cases hlen : 1 < (G.preds v).length
  · have hv : v ∈ G.nodes := by
      rcases DiGraph.hasEdge_true_iff.mp hpE with ⟨w, hw⟩
      exact (hwf.2.2 _ hw).2
    cases ht : istuple v with
    | true =>
      have key : ∀ r : Node, r ∈ G.preds v →
          (r, v) ∉ ((findSecondary L G root).1.map fun e => e.1) →
          ∀ (y0 : Node × Frac) (ys : List (Node × Frac)),
          ((G.preds v).zip ((G.preds v).map fun s =>
              parentPref L G v s)).insertionSort prefGe = y0 :: ys →
          r = y0.1 := by
        intro r hrm hrnot y0 ys hsrt
        have hzip : (r, parentPref L G v r) ∈
            (G.preds v).zip ((G.preds v).map fun s => parentPref L G v s) := by
          rw [zip_self_map]
          exact List.mem_map.mpr ⟨r, hrm, rfl⟩
        have hsrtm : (r, parentPref L G v r) ∈ y0 :: ys := by
          rw [← hsrt]
          exact ((List.perm_insertionSort prefGe _).mem_iff).mpr hzip
        rcases List.mem_cons.mp hsrtm with heq | htl
        · exact congrArg Prod.fst heq
        · exfalso
          apply hrnot
          have hrk : ((r, v), parentPref L G v r) ∈
              (rankedParentEdges L G v).drop 1 := by
            have hre : rankedParentEdges L G v =
                (((G.preds v).zip ((G.preds v).map fun s =>
                  parentPref L G v s)).insertionSort prefGe).map
                  fun x => ((x.1, v), x.2) := rfl
            rw [hre, hsrt]
            rw [List.map_cons, List.drop_succ_cons, List.drop_zero]
            exact List.mem_map.mpr ⟨(r, parentPref L G v r), htl, rfl⟩
          exact List.mem_map.mpr
            ⟨_, mem_findSecondary_fst L G root v hv hlen ht hrk, rfl⟩
      rcases hsrt : ((G.preds v).zip ((G.preds v).map fun s =>
          parentPref L G v s)).insertionSort prefGe with _ | ⟨y0, ys⟩
      · exfalso
        have hl := (List.perm_insertionSort prefGe
          ((G.preds v).zip ((G.preds v).map fun s => parentPref L G v s))).length_eq
        rw [hsrt, zip_self_map] at hl
        simp at hl
        omega
      · rw [key p hpm hpSec y0 ys hsrt, key q hqm hqSec y0 ys hsrt]
    | false =>
      have key : ∀ r : Node, r ∈ G.preds v →
          (r, v) ∉ ((findSecondary L G root).2.map fun e => e.1) →
          ∀ (z0 : (Node × Node) × ℕ) (zs : List ((Node × Node) × ℕ)),
          ((G.preds v).map fun s =>
              ((s, v), distFromRoot G root s)).insertionSort stepsGe
            = z0 :: zs →
          r = z0.1.1 := by
        intro r hrm hrnot z0 zs hsrt
        have hsc : ((r, v), distFromRoot G root r) ∈
            (G.preds v).map fun s => ((s, v), distFromRoot G root s) :=
          List.mem_map.mpr ⟨r, hrm, rfl⟩
        have hsrtm : ((r, v), distFromRoot G root r) ∈ z0 :: zs := by
          rw [← hsrt]
          exact ((List.perm_insertionSort stepsGe _).mem_iff).mpr hsc
        rcases List.mem_cons.mp hsrtm with heq | htl
        · exact congrArg (fun e => e.1.1) heq
        · exfalso
          apply hrnot
          have hrk : ((r, v), distFromRoot G root r) ∈
              (rankedTerminalEdges G root v).drop 1 := by
            have hre : rankedTerminalEdges G root v =
                ((G.preds v).map fun s =>
                  ((s, v), distFromRoot G root s)).insertionSort stepsGe := rfl
            rw [hre, hsrt]
            rw [List.drop_succ_cons, List.drop_zero]
            exact htl
          exact List.mem_map.mpr
            ⟨_, mem_findSecondary_snd L G root v hv hlen ht hrk, rfl⟩
      rcases hsrt : ((G.preds v).map fun s =>
          ((s, v), distFromRoot G root s)).insertionSort stepsGe
        with _ | ⟨z0, zs⟩
      · exfalso
        have hl := (List.perm_insertionSort stepsGe
          ((G.preds v).map fun s => ((s, v), distFromRoot G root s))).length_eq
        rw [hsrt] at hl
        simp at hl
        omega
      · rw [key p hpm hpSect z0 zs hsrt, key q hqm hqSect z0 zs hsrt]
  · push_neg at hlen
    rcases hl : G.preds v with _ | ⟨a, rest⟩
    · rw [hl] at hpm
      cases hpm
    · rw [hl] at hpm hqm
      rw [hl] at hlen
      have hrest : rest = [] := by
        have : rest.length = 0 := by simpa using hlen
        exact List.eq_nil_of_length_eq_zero this
      subst hrest
      have h1 : p = a := by simpa using hpm
      have h2 : q = a := by simpa using hqm
      rw [h1, h2]

theorem trimSecondary_zero (T : DiGraph) (pool : List (Node × Node)) :
    trimSecondary T pool Frac.zero = T.removeEdgesFrom pool := by
  unfold trimSecondary
  rw [if_pos]
  rfl

/-- C4: strict single-parent selection. For a built weaver whose cached
secondary pools are the ranker's output on the cached candidate graph,
`pick(0, percentage_terminal_edges=0)` with no additional edges succeeds,
and in the resulting hierarchy every node has in-degree at most one (the
root having in-degree zero): trimming both pools leaves each node at most
its top-ranked parent, and pruning (dead-end removal and single-branch
collapse, either policy) never gives a node a second parent. -/
theorem pick_zero_single_parent (L : List (List Bool)) (ws : WeaverState)
    (hwf : ws.build.full.WF)
    (hsec : ws.build.secondary = (findSecondary L ws.build.full ws.build.root).1)
    (hsect : ws.build.secter = (findSecondary L ws.build.full ws.build.root).2)
    (replace strict : Bool) :
    ∃ h : DiGraph,
      pick ws Frac.zero Frac.zero none replace strict =
        ({ ws with hier := some h }, .ok h) ∧
      ∀ v, h.inDeg v ≤ 1 := by
  have hcore : pickCore ws.build Frac.zero Frac.zero none replace =
      .ok ((ws.build.full.removeEdgesFrom
          (ws.build.secondary.map fun e => e.1)).removeEdgesFrom
        (ws.build.secter.map fun e => e.1)) := by
    show Except.ok _ = _
    rw [trimSecondary_zero, trimSecondary_zero]
  refine ⟨prune strict ((ws.build.full.removeEdgesFrom
      (ws.build.secondary.map fun e => e.1)).removeEdgesFrom
    (ws.build.secter.map fun e => e.1)), ?_, ?_⟩
  · show (match pickCore ws.build Frac.zero Frac.zero none replace with
      | Except.error e => (ws, Except.error e)
      | Except.ok T => ({ ws with hier := some (prune strict T) },
          Except.ok (prune strict T))) = _
    rw [hcore]
  · intro v
    have hPU : ∀ u, PredUnique ((ws.build.full.removeEdgesFrom
        (ws.build.secondary.map fun e => e.1)).removeEdgesFrom
      (ws.build.secter.map fun e => e.1)) u := by
      rw [hsec, hsect]
      exact trimmed_predUnique L ws.build.full ws.build.root hwf
    have hPUp : ∀ u, PredUnique (prune strict
        ((ws.build.full.removeEdgesFrom
          (ws.build.secondary.map fun e => e.1)).removeEdgesFrom
        (ws.build.secter.map fun e => e.1))) u := by
      intro u
      unfold prune
      refine collapsePhase_predUnique strict _ _ (fun w => ?_) u
      exact predUnique_of_hasEdge_mono
        (fun a b h => hasEdge_mono_of_sublist (deadLoopF_edges_sub _ _) h)
        (hPU w)
    have hwfp : (prune strict ((ws.build.full.removeEdgesFrom
        (ws.build.secondary.map fun e => e.1)).removeEdgesFrom
      (ws.build.secter.map fun e => e.1))).WF :=
      prune_WF strict _ ((hwf.removeEdgesFrom _).removeEdgesFrom _)
    exact (inDeg_le_one_iff_predUnique hwfp.2.1 v).mpr (hPUp v)

/-- Witness for C4: on the weaver built from `exL`, `pick(0, 0)` yields a
hierarchy where every node has at most one parent. -/
theorem pick_zero_single_parent_witness :
    ∃ h : DiGraph,
      pick ⟨exBuild, none⟩ Frac.zero Frac.zero none false false =
        ({ build := exBuild, hier := some h }, .ok h) ∧
      ∀ v, h.inDeg v ≤ 1 :=
  pick_zero_single_parent exL ⟨exBuild, none⟩
    ⟨by decide, by decide, by decide⟩ (by decide) (by decide) false false

/-! ## Acyclicity and unique root of the woven hierarchy -/

theorem getCI_num_den (L : List (List Bool)) (i j : ℕ)
    (hi : i < L.length) (hj : j < L.length) :
    getCI (containment_indices_boolean L L) i j =
      ⟨(countNonzero (List.zipWith and (L.getD i []) (L.getD j [])) : ℤ) * 1,
        1 * (countNonzero (L.getD i []) : ℤ)⟩ := by
  rw [getCI_containment L L i j hi hj, dotF_bool_eq_countAnd]
  rfl

theorem countAnd_comm (xs ys : List Bool) :
    countNonzero (List.zipWith and xs ys) = countNonzero (List.zipWith and ys xs) := by
  rw [List.zipWith_comm_of_comm]
  exact Bool.and_comm

/-- The antiparallel resolution of the edge loop orders the clusters: a
surviving edge candidate `(i, j)` has a strictly smaller child, or an equal
size with the smaller row index. -/
theorem edge_size_order (L : List (List Bool)) (cutoff : Frac)
    (hcnum : 0 < cutoff.num) (hcden : 0 < cutoff.den)
    (i j : ℕ) (hi : i < L.length) (hj : j < L.length)
    (hrow : 0 < countNonzero (L.getD i []))
    (hcut : Frac.le cutoff (getCI (containment_indices_boolean L L) i j) = true)
    (hwin : pairWins (containment_indices_boolean L L) cutoff i j) :
    countNonzero (L.getD i []) < countNonzero (L.getD j []) ∨
      (countNonzero (L.getD i []) = countNonzero (L.getD j []) ∧ i < j) := by
  have hci := getCI_num_den L i j hi hj
  have hcj : getCI (containment_indices_boolean L L) j i =
      ⟨(countNonzero (List.zipWith and (L.getD i []) (L.getD j [])) : ℤ) * 1,
        1 * (countNonzero (L.getD j []) : ℤ)⟩ := by
    rw [getCI_num_den L j i hj hi, countAnd_comm]
  set x := (countNonzero (List.zipWith and (L.getD i []) (L.getD j [])) : ℤ)
    with hxdef
  set ni := (countNonzero (L.getD i []) : ℤ) with hnidef
  set nj := (countNonzero (L.getD j []) : ℤ) with hnjdef
  have hni : 0 < ni := by
    rw [hnidef]
    exact_mod_cast hrow
  have hnj : 0 ≤ nj := by
    rw [hnjdef]
    positivity
  have hx0 : 0 ≤ x := by
    rw [hxdef]
    positivity
  rw [hci] at hcut
  unfold Frac.le at hcut
  rw [decide_eq_true_eq] at hcut
  dsimp only at hcut
  -- hcut : cutoff.num * (1 * ni) ≤ x * 1 * cutoff.den
  have hx : 0 < x := by nlinarith
  have hgoal : ni < nj ∨ (ni = nj ∧ i < j) := by
    rcases hwin with h | h | ⟨h1, h2, h3⟩
    · rw [hci, hcj] at h
      unfold Frac.lt at h
      rw [decide_eq_true_eq] at h
      dsimp only at h
      -- h : x * 1 * (1 * ni) < x * 1 * (1 * nj)
      left
      nlinarith
    · rw [hcj] at h
      unfold Frac.le at h
      rw [decide_eq_false_iff_not, not_le] at h
      dsimp only at h
      -- h : x * 1 * cutoff.den < cutoff.num * (1 * nj)
      left
      nlinarith
    · rw [hci, hcj] at h1 h2
      unfold Frac.lt at h1 h2
      rw [decide_eq_false_iff_not, not_lt] at h1 h2
      dsimp only at h1 h2
      right
      constructor
      · nlinarith
      · exact h3
  rcases hgoal with h | ⟨h, hij⟩
  · left
    rw [hnidef, hnjdef] at h
    exact_mod_cast h
  · right
    refine ⟨?_, hij⟩
    rw [hnidef, hnjdef] at h
    exact_mod_cast h

/-- Size-lexicographic cluster measure (no-levels configuration): terminals
lowest, clusters ordered by (row count, index), the virtual root above all. -/
def clMeasure (L : List (List Bool)) : Node → ℕ
  | .terminal _ => 0
  | .cluster c =>
    if c < 0 then
      ((L.foldr (fun r acc => max r.length acc) 0) + 1) * L.length + L.length + 1
    else countNonzero (L.getD c.toNat []) * L.length + c.toNat + 1

/-- The largest absolute value of a level entry. -/
def lvBound (levels : List ℤ) : ℕ :=
  levels.foldr (fun l acc => max l.natAbs acc) 0

/-- Level-based cluster measure (assume-levels configuration): terminals
lowest, clusters ordered by decreasing level, the virtual root above all. -/
def lvMeasure (levels : List ℤ) : Node → ℕ
  | .terminal _ => 0
  | .cluster c =>
    if c < 0 then 2 * lvBound levels + 3
    else ((lvBound levels : ℤ) + 1 - levels.getD c.toNat 0).toNat + 1

/-- The edge-decreasing measure used for the hierarchy, per configuration. -/
def buildMeasure (L : List (List Bool)) (levels : List ℤ)
    (assumeLevels : Bool) : Node → ℕ :=
  if assumeLevels then lvMeasure levels else clMeasure L

theorem clMeasure_pos (L : List (List Bool)) (c : ℤ) :
    0 < clMeasure L (Node.cluster c) := by
  simp only [clMeasure]
  by_cases h : c < 0 <;> simp [h]

theorem lvMeasure_pos (levels : List ℤ) (c : ℤ) :
    0 < lvMeasure levels (Node.cluster c) := by
  simp only [lvMeasure]
  by_cases h : c < 0 <;> simp [h]

theorem length_le_foldr_max (L : List (List Bool)) :
    ∀ r ∈ L, r.length ≤ L.foldr (fun r acc => max r.length acc) 0 := by
  induction L with
  | nil => intro r hr; cases hr
  | cons a L ih =>
    intro r hr
    rcases List.mem_cons.mp hr with rfl | hr'
    · exact le_max_left _ _
    · exact le_trans (ih r hr') (le_max_right _ _)

theorem natAbs_le_foldr_max (levels : List ℤ) :
    ∀ l ∈ levels, l.natAbs ≤ lvBound levels := by
  unfold lvBound
  induction levels with
  | nil => intro l hl; cases hl
  | cons a levels ih =>
    intro l hl
    rcases List.mem_cons.mp hl with rfl | hl'
    · exact le_max_left _ _
    · exact le_trans (ih l hl') (le_max_right _ _)

theorem getD_abs_le (levels : List ℤ) (k : ℕ) :
    (levels.getD k 0).natAbs ≤ lvBound levels := by
  by_cases hk : k < levels.length
  · refine natAbs_le_foldr_max levels _ ?_
    rw [List.getD_eq_getElem levels 0 hk]
    exact List.getElem_mem hk
  · rw [List.getD_eq_default levels 0 (le_of_not_lt hk)]
    simp

theorem mem_buildPairs_true (nSets : ℕ) (levels : List ℤ) (i j : ℕ) :
    (i, j) ∈ buildPairs nSets true levels ↔
      i < nSets ∧ j < nSets ∧ levels.getD j 0 < levels.getD i 0 := by
  unfold buildPairs
  simp only [if_true, List.mem_filter, List.mem_flatMap, List.mem_map,
    List.mem_range, decide_eq_true_eq, gt_iff_lt]
  constructor
  · rintro ⟨⟨a, ha, b, hb, hab⟩, hlt⟩
    cases hab
    exact ⟨ha, hb, hlt⟩
  · rintro ⟨hi, hj, hlt⟩
    exact ⟨⟨i, hi, j, hj, rfl⟩, hlt⟩

theorem hasEdge_addNode (G : DiGraph) (u a b : Node) :
    (G.addNode u).hasEdge a b = G.hasEdge a b := by
  unfold DiGraph.hasEdge DiGraph.edgeWeight
  rw [DiGraph.edges_addNode]

theorem edgeLoopStep_no_self (CI : List (List Frac)) (cutoff : Frac)
    (G : DiGraph) (p : ℕ × ℕ) (hne : p.1 ≠ p.2)
    (h : ∀ v, G.hasEdge v v = false) :
    ∀ v, (edgeLoopStep CI cutoff G p).hasEdge v v = false := by
  intro u
  have hpne : Node.cluster (p.2 : ℤ) ≠ Node.cluster (p.1 : ℤ) := by
    intro hc
    have := Node.cluster.inj hc
    exact hne (by exact_mod_cast this.symm)
  have hGA : ∀ a b, ((G.addNode (Node.cluster (p.1 : ℤ))).addNode
      (Node.cluster (p.2 : ℤ))).hasEdge a b = G.hasEdge a b := by
    intro a b
    rw [hasEdge_addNode, hasEdge_addNode]
  unfold edgeLoopStep
  by_cases hcut : Frac.le cutoff (getCI CI p.1 p.2) = true
  · rw [if_pos hcut]
    by_cases hrev : (((G.addNode (Node.cluster (p.1 : ℤ))).addNode
        (Node.cluster (p.2 : ℤ))).hasEdge (Node.cluster (p.1 : ℤ))
        (Node.cluster (p.2 : ℤ))) = true
    · rw [if_pos hrev]
      by_cases hlt : Frac.lt ((((G.addNode (Node.cluster (p.1 : ℤ))).addNode
          (Node.cluster (p.2 : ℤ))).edgeWeight (Node.cluster (p.1 : ℤ))
          (Node.cluster (p.2 : ℤ))).getD Frac.zero)
          (getCI CI p.1 p.2) = true
      · rw [if_pos hlt]
        cases hh : (((((G.addNode (Node.cluster (p.1 : ℤ))).addNode
            (Node.cluster (p.2 : ℤ))).removeEdge (Node.cluster (p.1 : ℤ))
            (Node.cluster (p.2 : ℤ))).addEdge (Node.cluster (p.2 : ℤ))
            (Node.cluster (p.1 : ℤ)) (getCI CI p.1 p.2)).hasEdge u u)
        · rfl
        · exfalso
          rw [DiGraph.hasEdge_addEdge_iff] at hh
          rcases hh with ⟨h1, h2⟩ | hh
          · exact hpne (h1.symm.trans h2)
          · rw [DiGraph.hasEdge_removeEdge_iff, hGA] at hh
            rw [h u] at hh
            exact Bool.noConfusion hh.1
      · rw [if_neg hlt]
        rw [hGA]
        exact h u
    · rw [if_neg hrev]
      cases hh : ((((G.addNode (Node.cluster (p.1 : ℤ))).addNode
          (Node.cluster (p.2 : ℤ))).addEdge (Node.cluster (p.2 : ℤ))
          (Node.cluster (p.1 : ℤ)) (getCI CI p.1 p.2)).hasEdge u u)
      · rfl
      · exfalso
        rw [DiGraph.hasEdge_addEdge_iff, hGA] at hh
        rcases hh with ⟨h1, h2⟩ | hh
        · exact hpne (h1.symm.trans h2)
        · rw [h u] at hh
          exact Bool.noConfusion hh
  · rw [if_neg hcut]
    rw [hGA]
    exact h u

theorem edgeLoop_no_self (CI : List (List Frac)) (cutoff : Frac) :
    ∀ (pairs : List (ℕ × ℕ)), (∀ p ∈ pairs, p.1 ≠ p.2) →
    ∀ v, (edgeLoop CI cutoff pairs).hasEdge v v = false := by
  have main : ∀ (pairs : List (ℕ × ℕ)), (∀ p ∈ pairs, p.1 ≠ p.2) →
      ∀ (G : DiGraph), (∀ v, G.hasEdge v v = false) →
      ∀ v, (pairs.foldl (edgeLoopStep CI cutoff) G).hasEdge v v = false := by
    intro pairs
    induction pairs with
    | nil => exact fun _ G h => h
    | cons p rest ih =>
      intro hne G h v
      rw [List.foldl_cons]
      exact ih (fun q hq => hne q (List.mem_cons_of_mem p hq)) _
        (edgeLoopStep_no_self CI cutoff G p (hne p (List.mem_cons_self p rest)) h) v
  intro pairs hne v
  exact main pairs hne ⟨[], []⟩ (fun u => rfl) v

theorem buildPairs_lt (nSets : ℕ) (al : Bool) (levels : List ℤ) :
    ∀ p ∈ buildPairs nSets al levels, p.1 < nSets ∧ p.2 < nSets := by
  intro p hp
  unfold buildPairs at hp
  have hall : p ∈ (List.range nSets).flatMap fun i =>
      (List.range nSets).map fun j => (i, j) := by
    by_cases h : al = true
    · rw [if_pos h] at hp
      exact (List.mem_filter.mp hp).1
    · rw [if_neg h] at hp
      exact (List.mem_filter.mp hp).1
  rcases List.mem_flatMap.mp hall with ⟨a, ha, hb⟩
  rcases List.mem_map.mp hb with ⟨b, hbm, heq⟩
  rw [← heq]
  exact ⟨List.mem_range.mp ha, List.mem_range.mp hbm⟩

theorem edgeLoop_loopInv (CI : List (List Frac)) (cutoff : Frac)
    (nSets : ℕ) (al : Bool) (levels : List ℤ) :
    LoopInv CI cutoff (buildPairs nSets al levels)
      (edgeLoop CI cutoff (buildPairs nSets al levels)) := by
  have h := loopInv_fold CI cutoff (buildPairs nSets al levels) [] ⟨[], []⟩
    (loopInv_init CI cutoff)
    (by simpa using buildPairs_pairwise nSets al levels)
    (buildPairs_ne nSets al levels)
  simpa using h

theorem edgeLoop_nodes_shape (CI : List (List Frac)) (cutoff : Frac)
    (nSets : ℕ) (al : Bool) (levels : List ℤ) :
    ∀ v ∈ (edgeLoop CI cutoff (buildPairs nSets al levels)).nodes,
      ∃ k : ℕ, k < nSets ∧ v = clNode k := by
  intro v hv
  rcases (edgeLoop_loopInv CI cutoff nSets al levels).nodesSub v hv
    with ⟨p, hp, hvp⟩
  rcases buildPairs_lt nSets al levels p hp with ⟨h1, h2⟩
  rcases hvp with h | h
  · exact ⟨p.1, h1, h⟩
  · exact ⟨p.2, h2, h⟩

theorem clMeasure_clNode (L : List (List Bool)) (k : ℕ) :
    clMeasure L (clNode k) =
      countNonzero (L.getD k []) * L.length + k + 1 := by
  unfold clNode
  simp only [clMeasure]
  rw [if_neg (by omega)]
  simp

theorem lvMeasure_clNode (levels : List ℤ) (k : ℕ) :
    lvMeasure levels (clNode k) =
      ((lvBound levels : ℤ) + 1 - levels.getD k 0).toNat + 1 := by
  unfold clNode
  simp only [lvMeasure]
  rw [if_neg (by omega)]
  simp

theorem edgeLoop_decMeasure (L : List (List Bool)) (levels : List ℤ)
    (al : Bool) (cutoff : Frac)
    (hcnum : 0 < cutoff.num) (hcden : 0 < cutoff.den)
    (hrows : ∀ row ∈ L, 0 < countNonzero row) :
    ∀ a b, (edgeLoop (containment_indices_boolean L L) cutoff
        (buildPairs L.length al levels)).hasEdge a b = true →
      buildMeasure L levels al b < buildMeasure L levels al a := by
  intro a b hab
  have inv := edgeLoop_loopInv (containment_indices_boolean L L) cutoff
    L.length al levels
  rcases DiGraph.hasEdge_true_iff.mp hab with ⟨w, hw⟩
  rcases inv.edgesCl _ hw with ⟨⟨j0, hj⟩, ⟨i0, hi⟩⟩
  simp only at hj hi
  subst hj
  subst hi
  by_cases hij : i0 = j0
  · exfalso
    subst hij
    rw [edgeLoop_no_self (containment_indices_boolean L L) cutoff _
      (buildPairs_ne L.length al levels) (clNode i0)] at hab
    cases hab
  · have hspec := inv.edgesSpec i0 j0 hij
    have hhe : (edgeLoop (containment_indices_boolean L L) cutoff
        (buildPairs L.length al levels)).hasEdge (clNode j0) (clNode i0)
          = true := hab
    unfold DiGraph.hasEdge at hhe
    rw [hspec] at hhe
    unfold midSpec at hhe
    by_cases hcond : (i0, j0) ∈ buildPairs L.length al levels ∧
        Frac.le cutoff (getCI (containment_indices_boolean L L) i0 j0) = true ∧
        ((j0, i0) ∈ buildPairs L.length al levels →
          pairWins (containment_indices_boolean L L) cutoff i0 j0)
    · obtain ⟨hmem, hcut, himp⟩ := hcond
      obtain ⟨hi0, hj0⟩ := buildPairs_lt L.length al levels _ hmem
      simp only at hi0 hj0
      unfold buildMeasure
      cases al with
      | false =>
        rw [if_neg (by simp)]
        have hrev : (j0, i0) ∈ buildPairs L.length false levels :=
          (mem_buildPairs_false L.length levels j0 i0).mpr
            ⟨hj0, hi0, fun hc => hij hc.symm⟩
        have hrowi : 0 < countNonzero (L.getD i0 []) := by
          refine hrows _ ?_
          rw [List.getD_eq_getElem L [] hi0]
          exact List.getElem_mem hi0
        have hord := edge_size_order L cutoff hcnum hcden i0 j0 hi0 hj0
          hrowi hcut (himp hrev)
        rw [clMeasure_clNode, clMeasure_clNode]
        rcases hord with h | ⟨h, hlt⟩
        · have h1 : countNonzero (L.getD i0 []) * L.length + i0 + 1 ≤
              countNonzero (L.getD i0 []) * L.length + L.length := by
            omega
          have h2 : countNonzero (L.getD i0 []) * L.length + L.length ≤
              countNonzero (L.getD j0 []) * L.length := by
            have hm := Nat.mul_le_mul_right L.length
              (show countNonzero (L.getD i0 []) + 1 ≤
                countNonzero (L.getD j0 []) by omega)
            calc countNonzero (L.getD i0 []) * L.length + L.length
                = (countNonzero (L.getD i0 []) + 1) * L.length := by ring
              _ ≤ countNonzero (L.getD j0 []) * L.length := hm
          omega
        · rw [h]
          omega
      | true =>
        rw [if_pos rfl]
        have hlev := (mem_buildPairs_true L.length levels i0 j0).mp hmem
        rw [lvMeasure_clNode, lvMeasure_clNode]
        have hBi := getD_abs_le levels i0
        have hBj := getD_abs_le levels j0
        have hia := Int.le_natAbs (a := levels.getD i0 0)
        have hja := Int.le_natAbs (a := levels.getD j0 0)
        have hposj : (0 : ℤ) < (lvBound levels : ℤ) + 1 - levels.getD j0 0 := by
          have : levels.getD j0 0 ≤ (lvBound levels : ℤ) :=
            le_trans hja (by exact_mod_cast hBj)
          omega
        have hlt2 : ((lvBound levels : ℤ) + 1 - levels.getD i0 0).toNat <
            ((lvBound levels : ℤ) + 1 - levels.getD j0 0).toNat := by
          rw [Int.toNat_lt_toNat hposj]
          have := hlev.2.2
          omega
        omega
    · rw [if_neg hcond] at hhe
      cases hhe

theorem indeg_pos_iff (G : DiGraph) (v : Node) :
    0 < G.inDeg v ↔ ∃ p, G.hasEdge p v = true := by
  unfold DiGraph.inDeg
  rw [List.length_pos_iff_exists_mem]
  constructor
  · rintro ⟨p, hp⟩
    exact ⟨p, DiGraph.mem_preds_iff_hasEdge.mp hp⟩
  · rintro ⟨p, hp⟩
    exact ⟨p, DiGraph.mem_preds_iff_hasEdge.mpr hp⟩

theorem foldAdd_nodes_sub (parent : Node) (wf : DiGraph → Node → Frac) :
    ∀ (children : List Node) (T : DiGraph) (v : Node),
    v ∈ (children.foldl (fun t child => t.addEdge parent child (wf t child))
        T).nodes →
      v ∈ T.nodes ∨ v = parent ∨ v ∈ children := by
  intro children
  induction children with
  | nil =>
    intro T v h
    exact Or.inl h
  | cons c cs ih =>
    intro T v h
    rcases ih _ v h with h' | h' | h'
    · rcases (DiGraph.nodes_addEdge T parent c (wf T c) v).mp h' with h2 | h2 | h2
      · exact Or.inl h2
      · exact Or.inr (Or.inl h2)
      · exact Or.inr (Or.inr (by rw [h2]; exact List.mem_cons_self c cs))
    · exact Or.inr (Or.inl h')
    · exact Or.inr (Or.inr (List.mem_cons_of_mem c h'))

theorem foldAdd_nodes_mono (parent : Node) (wf : DiGraph → Node → Frac) :
    ∀ (children : List Node) (T : DiGraph) (v : Node),
    v ∈ T.nodes →
    v ∈ (children.foldl (fun t child => t.addEdge parent child (wf t child))
      T).nodes := by
  intro children
  induction children with
  | nil => exact fun T v h => h
  | cons c cs ih =>
    intro T v h
    exact ih _ v ((DiGraph.nodes_addEdge T parent c (wf T c) v).mpr (Or.inl h))

theorem mem_rootsOf {G : DiGraph} {v : Node} :
    v ∈ rootsOf G ↔ v ∈ G.nodes ∧ G.inDeg v = 0 := by
  unfold rootsOf
  rw [List.mem_filter]
  simp

theorem addRootPhase_cases {G1 G2 : DiGraph} {root : Node}
    (h : addRootPhase G1 = some (G2, root)) :
    (1 < (rootsOf G1).length ∧ root = Node.cluster (-1) ∧
      G2 = (rootsOf G1).foldl (fun g node => g.addEdge (Node.cluster (-1))
        node Frac.one) (G1.addNode (Node.cluster (-1)))) ∨
    (rootsOf G1 = [root] ∧ G2 = G1) := by
  unfold addRootPhase at h
  by_cases hlen : (rootsOf G1).length > 1
  · rw [if_pos hlen] at h
    left
    injection h with h
    refine ⟨hlen, (congrArg Prod.snd h).symm, ?_⟩
    have := (congrArg Prod.fst h).symm
    simpa using this
  · rw [if_neg hlen] at h
    right
    cases hroots : rootsOf G1 with
    | nil =>
      rw [hroots] at h
      cases h
    | cons r rest =>
      rw [hroots] at h
      injection h with h
      have h1 : G1 = G2 := congrArg Prod.fst h
      have h2 : r = root := congrArg Prod.snd h
      have hrest : rest = [] := by
        rw [hroots] at hlen
        simp only [List.length_cons, gt_iff_lt, not_lt] at hlen
        exact List.eq_nil_of_length_eq_zero (by omega)
      subst hrest
      subst h2
      exact ⟨rfl, h1.symm⟩

theorem addRootPhase_spec {G1 G2 : DiGraph} {root : Node} (N : ℕ)
    (f : Node → ℕ)
    (hwf1 : G1.WF)
    (hshape : ∀ v ∈ G1.nodes, ∃ k : ℕ, k < N ∧ v = clNode k)
    (hdec1 : ∀ a b, G1.hasEdge a b = true → f b < f a)
    (htop : ∀ k : ℕ, k < N → f (clNode k) < f (Node.cluster (-1)))
    (h : addRootPhase G1 = some (G2, root)) :
    G2.WF ∧
    (∀ a b, G2.hasEdge a b = true → f b < f a) ∧
    (∀ p, G2.hasEdge p root = false) ∧
    (∀ v ∈ G2.nodes, v ≠ root → 0 < G2.inDeg v) ∧
    (∀ v ∈ G2.nodes, (∃ k : ℕ, k < N ∧ v = clNode k) ∨ v = root) ∧
    (∀ v ∈ G1.nodes, v ∈ G2.nodes) := by
  rcases addRootPhase_cases h with ⟨hlen, hroot, hG2⟩ | ⟨hroots, hG2⟩
  · subst hroot
    have hiff : ∀ a b, G2.hasEdge a b = true ↔
        ((G1.addNode (Node.cluster (-1))).hasEdge a b = true ∨
          (a = Node.cluster (-1) ∧ b ∈ rootsOf G1)) := by
      intro a b
      rw [hG2]
      exact foldAdd_hasEdge (Node.cluster (-1)) (fun _ _ => Frac.one)
        (rootsOf G1) (G1.addNode (Node.cluster (-1))) a b
    have hrootnotin : Node.cluster (-1) ∉ G1.nodes := by
      intro hc
      rcases hshape _ hc with ⟨k, _, hk⟩
      have := Node.cluster.inj hk
      omega
    refine ⟨?_, ?_, ?_, ?_, ?_, ?_⟩
    · rw [hG2]
      exact foldAdd_WF (Node.cluster (-1)) _ (rootsOf G1)
        (G1.addNode (Node.cluster (-1))) (hwf1.addNode _)
    · intro a b hab
      rcases (hiff a b).mp hab with h' | ⟨rfl, hb⟩
      · rw [hasEdge_addNode] at h'
        exact hdec1 a b h'
      · rcases hshape b (mem_rootsOf.mp hb).1 with ⟨k, hk, rfl⟩
        exact htop k hk
    · intro p
      cases hpe : G2.hasEdge p (Node.cluster (-1))
      · rfl
      · exfalso
        rcases (hiff p (Node.cluster (-1))).mp hpe with h' | ⟨_, hb⟩
        · rw [hasEdge_addNode] at h'
          rcases DiGraph.hasEdge_true_iff.mp h' with ⟨w, hw⟩
          exact hrootnotin (hwf1.2.2 _ hw).2
        · exact hrootnotin (mem_rootsOf.mp hb).1
    · intro v hv hvr
      have hv1 : v ∈ G1.nodes := by
        rw [hG2] at hv
        rcases foldAdd_nodes_sub _ _ _ _ _ hv with h' | h' | h'
        · rcases (DiGraph.nodes_addNode G1 (Node.cluster (-1)) v).mp h'
            with h2 | h2
          · exact h2
          · exact absurd h2 hvr
        · exact absurd h' hvr
        · exact (mem_rootsOf.mp h').1
      rw [indeg_pos_iff]
      by_cases hz : G1.inDeg v = 0
      · exact ⟨Node.cluster (-1),
          (hiff _ v).mpr (Or.inr ⟨rfl, mem_rootsOf.mpr ⟨hv1, hz⟩⟩)⟩
      · rcases (indeg_pos_iff G1 v).mp (Nat.pos_of_ne_zero hz) with ⟨p, hp⟩
        exact ⟨p, (hiff p v).mpr (Or.inl (by rw [hasEdge_addNode]; exact hp))⟩
    · intro v hv
      rw [hG2] at hv
      rcases foldAdd_nodes_sub _ _ _ _ _ hv with h' | h' | h'
      · rcases (DiGraph.nodes_addNode G1 (Node.cluster (-1)) v).mp h'
          with h2 | h2
        · exact Or.inl (hshape v h2)
        · exact Or.inr h2
      · exact Or.inr h'
      · exact Or.inl (hshape v (mem_rootsOf.mp h').1)
    · intro v hv
      rw [hG2]
      exact foldAdd_nodes_mono _ _ _ _ v
        ((DiGraph.nodes_addNode G1 (Node.cluster (-1)) v).mpr (Or.inl hv))
  · subst hG2
    have hrz : G2.inDeg root = 0 := by
      have : root ∈ rootsOf G2 := by
        rw [hroots]
        exact List.mem_cons_self _ _
      exact (mem_rootsOf.mp this).2
    refine ⟨hwf1, hdec1, ?_, ?_, ?_, fun v hv => hv⟩
    · intro p
      cases hpe : G2.hasEdge p root
      · rfl
      · exfalso
        have := (indeg_pos_iff G2 root).mpr ⟨p, hpe⟩
        omega
    · intro v hv hvr
      by_cases hz : G2.inDeg v = 0
      · exfalso
        have : v ∈ rootsOf G2 := mem_rootsOf.mpr ⟨hv, hz⟩
        rw [hroots] at this
        exact hvr (by simpa using this)
      · exact Nat.pos_of_ne_zero hz
    · intro v hv
      exact Or.inl (hshape v hv)

theorem measure_le_of_reaches {G : DiGraph} {f : Node → ℕ}
    (hdec : ∀ a b, G.hasEdge a b = true → f b < f a) {u v : Node}
    (h : G.Reaches u v) : f v ≤ f u := by
  induction h with
  | refl => exact le_refl _
  | tail _ hrel ih => exact le_trans (le_of_lt (hdec _ _ hrel)) ih

theorem exists_min_image_list (f : Node → ℕ) :
    ∀ (l : List Node), l ≠ [] → ∃ p ∈ l, ∀ q ∈ l, f p ≤ f q := by
  intro l
  induction l with
  | nil => intro h; exact absurd rfl h
  | cons a rest ih =>
    intro _
    cases hrest : rest with
    | nil =>
      refine ⟨a, List.mem_cons_self _ _, ?_⟩
      intro q hq
      have : q = a := by simpa using hq
      rw [this]
    | cons b rest2 =>
      subst hrest
      rcases ih (List.cons_ne_nil b rest2) with ⟨p, hp, hmin⟩
      by_cases hfa : f a ≤ f p
      · refine ⟨a, List.mem_cons_self _ _, ?_⟩
        intro q hq
        rcases List.mem_cons.mp hq with rfl | hq'
        · exact le_refl _
        · exact le_trans hfa (hmin q hq')
      · refine ⟨p, List.mem_cons_of_mem a hp, ?_⟩
        intro q hq
        rcases List.mem_cons.mp hq with rfl | hq'
        · exact le_of_lt (lt_of_not_le hfa)
        · exact hmin q hq'

theorem exists_max_image_list (f : Node → ℕ) :
    ∀ (l : List Node), l ≠ [] → ∃ p ∈ l, ∀ q ∈ l, f q ≤ f p := by
  intro l
  induction l with
  | nil => intro h; exact absurd rfl h
  | cons a rest ih =>
    intro _
    cases hrest : rest with
    | nil =>
      refine ⟨a, List.mem_cons_self _ _, ?_⟩
      intro q hq
      have : q = a := by simpa using hq
      rw [this]
    | cons b rest2 =>
      subst hrest
      rcases ih (List.cons_ne_nil b rest2) with ⟨p, hp, hmax⟩
      by_cases hfa : f p ≤ f a
      · refine ⟨a, List.mem_cons_self _ _, ?_⟩
        intro q hq
        rcases List.mem_cons.mp hq with rfl | hq'
        · exact le_refl _
        · exact le_trans (hmax q hq') hfa
      · refine ⟨p, List.mem_cons_of_mem a hp, ?_⟩
        intro q hq
        rcases List.mem_cons.mp hq with rfl | hq'
        · exact le_of_lt (lt_of_not_le hfa)
        · exact hmax q hq'

theorem mem_redundantEdges {G : DiGraph} {p v : Node}
    (h : (p, v) ∈ redundantEdges G) :
    ∃ b ∈ G.nodes, b ≠ v ∧ G.hasPath b v = true ∧ G.hasEdge p b = true := by
  unfold redundantEdges at h
  rcases List.mem_flatMap.mp h with ⟨node, _, hmm⟩
  rcases List.mem_map.mp hmm with ⟨a, ha, heq⟩
  have hav : a = p ∧ node = v :=
    ⟨congrArg Prod.fst heq, congrArg Prod.snd heq⟩
  obtain ⟨rfl, rfl⟩ := hav
  have hgp := (List.mem_filter.mp ha).2
  unfold isGrandparent at hgp
  rcases List.mem_filter.mp ha with ⟨_, _⟩
  rcases List.any_eq_true.mp hgp with ⟨b, hb, hcond⟩
  simp only [Bool.and_eq_true, decide_eq_true_eq] at hcond
  exact ⟨b, hb, hcond.1.1, hcond.1.2, hcond.2⟩

/-- The minimal-measure parent of a node is never a redundant edge: a node
that has a parent before redundancy removal keeps one after it. -/
theorem redundancy_keeps_parent (G : DiGraph) (f : Node → ℕ)
    (hdec : ∀ a b, G.hasEdge a b = true → f b < f a)
    (v : Node) (hv : 0 < G.inDeg v) :
    0 < (redundancyPhase G).inDeg v := by
  have hne : G.preds v ≠ [] := by
    intro hc
    unfold DiGraph.inDeg at hv
    rw [hc] at hv
    simp at hv
  rcases exists_min_image_list f (G.preds v) hne with ⟨p, hp, hmin⟩
  rw [indeg_pos_iff]
  refine ⟨p, ?_⟩
  unfold redundancyPhase
  rw [DiGraph.hasEdge_removeEdgesFrom_iff]
  refine ⟨DiGraph.mem_preds_iff_hasEdge.mp hp, ?_⟩
  intro hmem
  rcases mem_redundantEdges hmem with ⟨b, _, hbv, hpath, hedge⟩
  have hreach : G.Reaches b v := (DiGraph.hasPath_iff G b v).mp hpath
  rcases Relation.ReflTransGen.cases_tail hreach with rfl | ⟨c, hbc, hcv⟩
  · exact hbv rfl
  · have hc : c ∈ G.preds v := DiGraph.mem_preds_iff_hasEdge.mpr hcv
    have h1 : f c ≤ f b := measure_le_of_reaches hdec hbc
    have h2 : f b < f p := hdec p b hedge
    have h3 : f p ≤ f c := hmin c hc
    omega

theorem nodes_removeEdgesFrom (G : DiGraph) (l : List (Node × Node)) :
    (G.removeEdgesFrom l).nodes = G.nodes := by
  unfold DiGraph.removeEdgesFrom
  induction l generalizing G with
  | nil => rfl
  | cons e rest ih =>
    rw [List.foldl_cons]
    rw [ih (G.removeEdge e.1 e.2)]
    rfl

theorem scanAttached_skip_nonempty (G : DiGraph) (node : Node) :
    ∀ lst, (scanAttached G node lst).2.2 = true →
      (scanAttached G node lst).1 ≠ [] := by
  intro lst
  induction lst with
  | nil => intro h; cases h
  | cons other rest ih =>
    intro h
    cases h1 : G.hasPath node other with
    | true =>
      rw [scanAttached_cons_skip h1]
      exact List.cons_ne_nil other rest
    | false =>
      cases h2 : G.hasPath other node with
      | true =>
        rw [scanAttached_cons_remove h1 h2] at h ⊢
        exact ih h
      | false =>
        rw [scanAttached_cons_keep h1 h2]
        exact List.cons_ne_nil other _

theorem removeFold_nodes (ter : Node) (removed : List Node) :
    ∀ G : DiGraph,
    (removed.foldl (fun g other => g.removeEdge other ter) G).nodes =
      G.nodes := by
  induction removed with
  | nil => exact fun G => rfl
  | cons y rest ih =>
    intro G
    rw [List.foldl_cons, ih]
    rfl

theorem removeFold_WF (ter : Node) (removed : List Node) :
    ∀ G : DiGraph, G.WF →
    (removed.foldl (fun g other => g.removeEdge other ter) G).WF := by
  induction removed with
  | nil => exact fun G h => h
  | cons y rest ih =>
    intro G h
    rw [List.foldl_cons]
    exact ih _ (h.removeEdge y ter)

/-- Extended attachment invariant: well-formedness, node provenance, and
non-emptiness of the record of every attached terminal. -/
structure AttachInvB (G0 : DiGraph) (st : AttachState) : Prop where
  base : AttachInv G0 st
  wf : st.G.WF
  nodesIn : ∀ v ∈ st.G.nodes, v ∈ G0.nodes ∨ ∃ t, v = Node.terminal t
  termRec : ∀ t, Node.terminal t ∈ st.G.nodes → st.record t ≠ []

theorem attachStepB_inv (G0 : DiGraph) (node : Node)
    (hnode : ∃ c : ℤ, node = Node.cluster c) (hmem : node ∈ G0.nodes)
    (t : ℕ) (st : AttachState) (inv : AttachInvB G0 st) :
    AttachInvB G0 ⟨(attachOne st.G node t (st.record t)).1,
      fun u => if u = t then (attachOne st.G node t (st.record t)).2
        else st.record u⟩ := by
  refine ⟨attachStep_inv G0 node hnode t st inv.base, ?_, ?_, ?_⟩
  · cases hsk : (scanAttached st.G node (st.record t).reverse).2.2 with
    | true =>
      rw [attachOne_skip st.G node t (st.record t) hsk]
      exact removeFold_WF (Node.terminal t) _ st.G inv.wf
    | false =>
      rw [attachOne_attach st.G node t (st.record t) hsk]
      exact (removeFold_WF (Node.terminal t) _ st.G inv.wf).addEdge _ _ _
  · intro v hv
    cases hsk : (scanAttached st.G node (st.record t).reverse).2.2 with
    | true =>
      rw [attachOne_skip st.G node t (st.record t) hsk] at hv
      rw [removeFold_nodes] at hv
      exact inv.nodesIn v hv
    | false =>
      rw [attachOne_attach st.G node t (st.record t) hsk] at hv
      have hv' := (DiGraph.nodes_addEdge _ node (Node.terminal t) Frac.one
        v).mp hv
      rw [removeFold_nodes] at hv'
      rcases hv' with h | h | h
      · exact inv.nodesIn v h
      · exact Or.inl (h ▸ hmem)
      · exact Or.inr ⟨t, h⟩
  · intro s hs
    show (if s = t then _ else st.record s) ≠ []
    by_cases hst : s = t
    · rw [if_pos hst]
      cases hsk : (scanAttached st.G node (st.record t).reverse).2.2 with
      | true =>
        rw [attachOne_skip st.G node t (st.record t) hsk]
        intro hc
        exact scanAttached_skip_nonempty st.G node _ hsk
          (by simpa using congrArg List.reverse hc)
      | false =>
        rw [attachOne_attach st.G node t (st.record t) hsk]
        simp
    · rw [if_neg hst]
      refine inv.termRec s ?_
      cases hsk : (scanAttached st.G node (st.record t).reverse).2.2 with
      | true =>
        rw [attachOne_skip st.G node t (st.record t) hsk] at hs
        rw [removeFold_nodes] at hs
        exact hs
      | false =>
        rw [attachOne_attach st.G node t (st.record t) hsk] at hs
        have hs' := (DiGraph.nodes_addEdge _ node (Node.terminal t) Frac.one
          (Node.terminal s)).mp hs
        rw [removeFold_nodes] at hs'
        rcases hs' with h | h | h
        · exact h
        · rcases hnode with ⟨c, rfl⟩
          cases h
        · exact absurd (Node.terminal.inj h) hst

theorem attachNodeTerminalsB_inv (G0 : DiGraph) (node : Node)
    (hnode : ∃ c : ℤ, node = Node.cluster c) (hmem : node ∈ G0.nodes)
    (x : List ℕ) :
    ∀ st : AttachState, AttachInvB G0 st →
    AttachInvB G0 (attachNodeTerminals node x st) := by
  induction x with
  | nil => exact fun st inv => inv
  | cons t rest ih =>
    intro st inv
    unfold attachNodeTerminals
    rw [List.foldl_cons]
    have h := ih _ (attachStepB_inv G0 node hnode hmem t st inv)
    unfold attachNodeTerminals at h
    exact h

theorem attachFoldB_inv (L : List (List Bool)) (G0 : DiGraph)
    (nodes : List Node) (hns : ∀ v ∈ nodes, v ∈ G0.nodes) :
    ∀ st : AttachState, AttachInvB G0 st →
    AttachInvB G0 (nodes.foldl (fun (st : AttachState) (node : Node) =>
      match node with
      | .terminal _ => st
      | .cluster n =>
        if n = -1 then st
        else
          let row := L.getD n.toNat []
          let x := (List.range row.length).filter fun t => row.getD t false
          attachNodeTerminals (.cluster n) x st) st) := by
  induction nodes with
  | nil => exact fun st inv => inv
  | cons nd rest ih =>
    intro st inv
    rw [List.foldl_cons]
    refine ih (fun v hv => hns v (List.mem_cons_of_mem nd hv)) _ ?_
    cases nd with
    | terminal s => exact inv
    | cluster n =>
      show AttachInvB G0 (if n = -1 then st else _)
      by_cases hn : n = -1
      · rw [if_pos hn]
        exact inv
      · rw [if_neg hn]
        exact attachNodeTerminalsB_inv G0 (.cluster n) ⟨n, rfl⟩
          (hns _ (List.mem_cons_self _ _)) _ st inv

theorem attachInvB_init (G0 : DiGraph) (hwf : G0.WF)
    (hsrc : ∀ s v, G0.hasEdge (Node.terminal s) v = false)
    (htgt : ∀ p s, G0.hasEdge p (Node.terminal s) = false)
    (hnoter : ∀ t, Node.terminal t ∉ G0.nodes) :
    AttachInvB G0 ⟨G0, fun _ => []⟩ :=
  ⟨attachInv_init G0 hsrc htgt, hwf,
   fun v hv => Or.inl hv,
   fun t ht => absurd ht (hnoter t)⟩

/-- The attachment-phase output invariant, at the phase's final graph. -/
theorem attachPhase_invB (L : List (List Bool)) (G0 : DiGraph) (hwf : G0.WF)
    (hsrc : ∀ s v, G0.hasEdge (Node.terminal s) v = false)
    (htgt : ∀ p s, G0.hasEdge p (Node.terminal s) = false)
    (hnoter : ∀ t, Node.terminal t ∉ G0.nodes) :
    ∃ st : AttachState, attachPhase L G0 = st.G ∧ AttachInvB G0 st := by
  refine ⟨_, rfl, ?_⟩
  exact attachFoldB_inv L G0 G0.nodes (fun v hv => hv) ⟨G0, fun _ => []⟩
    (attachInvB_init G0 hwf hsrc htgt hnoter)

theorem attachOne_nodes_mono (G : DiGraph) (node : Node) (t : ℕ)
    (attached : List Node) (v : Node) (hv : v ∈ G.nodes) :
    v ∈ (attachOne G node t attached).1.nodes := by
  cases hsk : (scanAttached G node attached.reverse).2.2 with
  | true =>
    rw [attachOne_skip G node t attached hsk]
    show v ∈ (List.foldl _ G _).nodes
    rw [removeFold_nodes]
    exact hv
  | false =>
    rw [attachOne_attach G node t attached hsk]
    refine (DiGraph.nodes_addEdge _ node (Node.terminal t) Frac.one v).mpr
      (Or.inl ?_)
    rw [removeFold_nodes]
    exact hv

theorem attachNodeTerminals_nodes_mono (node : Node) (x : List ℕ) :
    ∀ (st : AttachState) (v : Node), v ∈ st.G.nodes →
    v ∈ (attachNodeTerminals node x st).G.nodes := by
  induction x with
  | nil => exact fun st v hv => hv
  | cons t rest ih =>
    intro st v hv
    unfold attachNodeTerminals
    rw [List.foldl_cons]
    have h := ih ⟨(attachOne st.G node t (st.record t)).1,
      fun u => if u = t then (attachOne st.G node t (st.record t)).2
        else st.record u⟩ v (attachOne_nodes_mono st.G node t (st.record t) v hv)
    unfold attachNodeTerminals at h
    exact h

theorem attachFold_nodes_mono (L : List (List Bool)) (nodes : List Node) :
    ∀ (st : AttachState) (v : Node), v ∈ st.G.nodes →
    v ∈ (nodes.foldl (fun (st : AttachState) (node : Node) =>
      match node with
      | .terminal _ => st
      | .cluster n =>
        if n = -1 then st
        else
          let row := L.getD n.toNat []
          let x := (List.range row.length).filter fun t => row.getD t false
          attachNodeTerminals (.cluster n) x st) st).G.nodes := by
  induction nodes with
  | nil => exact fun st v hv => hv
  | cons nd rest ih =>
    intro st v hv
    rw [List.foldl_cons]
    refine ih _ v ?_
    cases nd with
    | terminal s => exact hv
    | cluster n =>
      show v ∈ (if n = -1 then st else _).G.nodes
      by_cases hn : n = -1
      · rw [if_pos hn]
        exact hv
      · rw [if_neg hn]
        exact attachNodeTerminals_nodes_mono _ _ st v hv

theorem countNonzero_pos_index (row : List Bool) (h : 0 < countNonzero row) :
    ∃ i, i < row.length ∧ row.getD i false = true := by
  induction row with
  | nil =>
    unfold countNonzero at h
    simp at h
  | cons b bs ih =>
    cases b with
    | true => exact ⟨0, by simp, rfl⟩
    | false =>
      have h' : 0 < countNonzero bs := by
        unfold countNonzero at h ⊢
        simpa using h
      rcases ih h' with ⟨i, hi, hval⟩
      exact ⟨i + 1, by simpa using hi, by simpa using hval⟩

theorem attachStepFn_cluster (L : List (List Bool)) (st : AttachState) (n : ℤ)
    (hn : ¬ n = -1) :
    (fun (st : AttachState) (node : Node) =>
      match node with
      | .terminal _ => st
      | .cluster n =>
        if n = -1 then st
        else
          let row := L.getD n.toNat []
          let x := (List.range row.length).filter fun t => row.getD t false
          attachNodeTerminals (.cluster n) x st) st (.cluster n) =
      attachNodeTerminals (.cluster n)
        ((List.range (L.getD n.toNat []).length).filter
          fun t => (L.getD n.toNat []).getD t false) st := by
  show (if n = -1 then st else _) = _
  rw [if_neg hn]

theorem attachPhase_has_terminal (L : List (List Bool)) (G0 : DiGraph)
    (hwf : G0.WF)
    (hsrc : ∀ s v, G0.hasEdge (Node.terminal s) v = false)
    (htgt : ∀ p s, G0.hasEdge p (Node.terminal s) = false)
    (hnoter : ∀ t, Node.terminal t ∉ G0.nodes)
    (k : ℕ) (hk : k < L.length) (hmem : Node.cluster (k : ℤ) ∈ G0.nodes)
    (hrow : 0 < countNonzero (L.getD k [])) :
    ∃ t, Node.terminal t ∈ (attachPhase L G0).nodes := by
  rcases List.append_of_mem hmem with ⟨l1, l2, hsplit⟩
  unfold attachPhase
  rw [hsplit, List.foldl_append, List.foldl_cons]
  have hinv : AttachInvB G0 (l1.foldl (fun (st : AttachState) (node : Node) =>
      match node with
      | .terminal _ => st
      | .cluster n =>
        if n = -1 then st
        else
          let row := L.getD n.toNat []
          let x := (List.range row.length).filter fun t => row.getD t false
          attachNodeTerminals (.cluster n) x st) ⟨G0, fun _ => []⟩) := by
    refine attachFoldB_inv L G0 l1 ?_ _ (attachInvB_init G0 hwf hsrc htgt hnoter)
    intro v hv
    rw [hsplit]
    exact List.mem_append_left _ hv
  set st1 := l1.foldl (fun (st : AttachState) (node : Node) =>
      match node with
      | .terminal _ => st
      | .cluster n =>
        if n = -1 then st
        else
          let row := L.getD n.toNat []
          let x := (List.range row.length).filter fun t => row.getD t false
          attachNodeTerminals (.cluster n) x st) ⟨G0, fun _ => []⟩ with hst1
  show ∃ t, Node.terminal t ∈ (List.foldl _ (if (k : ℤ) = -1 then st1
    else attachNodeTerminals (Node.cluster (k : ℤ))
      ((List.range (L.getD ((k : ℤ)).toNat []).length).filter
        fun t => (L.getD ((k : ℤ)).toNat []).getD t false) st1) l2).G.nodes
  rw [if_neg (show ¬ ((k : ℤ) = -1) by omega)]
  have hkk : ((k : ℤ)).toNat = k := rfl
  rw [hkk]
  rcases countNonzero_pos_index (L.getD k []) hrow with ⟨i, hi, hval⟩
  have hix : i ∈ (List.range (L.getD k []).length).filter
      fun t => (L.getD k []).getD t false :=
    List.mem_filter.mpr ⟨List.mem_range.mpr hi, hval⟩
  rcases hx : (List.range (L.getD k []).length).filter
      fun t => (L.getD k []).getD t false with _ | ⟨t0, xs⟩
  · rw [hx] at hix
    cases hix
  · have hterm0 : Node.terminal t0 ∈
        (attachNodeTerminals (Node.cluster (k : ℤ)) (t0 :: xs) st1).G.nodes := by
      have hstep : attachNodeTerminals (Node.cluster (k : ℤ)) (t0 :: xs) st1 =
          attachNodeTerminals (Node.cluster (k : ℤ)) xs
            ⟨(attachOne st1.G (Node.cluster (k : ℤ)) t0 (st1.record t0)).1,
             fun u => if u = t0 then
               (attachOne st1.G (Node.cluster (k : ℤ)) t0 (st1.record t0)).2
               else st1.record u⟩ := by
        unfold attachNodeTerminals
        rw [List.foldl_cons]
      rw [hstep]
      refine attachNodeTerminals_nodes_mono _ xs _ _ ?_
      by_cases hrec : st1.record t0 = []
      · have hsk : (scanAttached st1.G (Node.cluster (k : ℤ))
            (st1.record t0).reverse).2.2 = false := by
          rw [hrec]
          rfl
        show Node.terminal t0 ∈
          (attachOne st1.G (Node.cluster (k : ℤ)) t0 (st1.record t0)).1.nodes
        rw [attachOne_attach _ _ _ _ hsk]
        exact (DiGraph.nodes_addEdge _ _ _ _ _).mpr (Or.inr (Or.inr rfl))
      · rcases List.exists_mem_of_ne_nil _ hrec with ⟨p, hp⟩
        have hedge : st1.G.hasEdge p (Node.terminal t0) = true :=
          (hinv.base.sync t0 p).mpr hp
        rcases DiGraph.hasEdge_true_iff.mp hedge with ⟨w, hw⟩
        have hmem0 : Node.terminal t0 ∈ st1.G.nodes := (hinv.wf.2.2 _ hw).2
        exact attachOne_nodes_mono st1.G _ t0 (st1.record t0) _ hmem0
    exact ⟨t0, attachFold_nodes_mono L l2 _ _ hterm0⟩

theorem mem_findSecondary_fst_inv (L : List (List Bool)) (G : DiGraph)
    (root : Node) {e : (Node × Node) × Frac}
    (he : e ∈ (findSecondary L G root).1) :
    ∃ w ∈ G.nodes, 1 < (G.preds w).length ∧ istuple w = true ∧
      e ∈ (rankedParentEdges L G w).drop 1 := by
  have he' : e ∈ ((G.nodes.map fun node =>
      if (G.preds node).length > 1 then
        if istuple node then ((rankedParentEdges L G node).drop 1,
          ([] : List ((Node × Node) × ℕ)))
        else (([] : List ((Node × Node) × Frac)),
          (rankedTerminalEdges G root node).drop 1)
      else ([], [])).map Prod.fst).flatten :=
    ((List.perm_insertionSort edgePrefGe _).mem_iff).mp he
  rcases List.mem_flatten.mp he' with ⟨l, hl, hel⟩
  rw [List.map_map] at hl
  rcases List.mem_map.mp hl with ⟨w, hw, heq⟩
  refine ⟨w, hw, ?_⟩
  by_cases h1 : (G.preds w).length > 1
  · by_cases h2 : istuple w = true
    · rw [show (Prod.fst ∘ fun node =>
          if (G.preds node).length > 1 then
            if istuple node then ((rankedParentEdges L G node).drop 1,
              ([] : List ((Node × Node) × ℕ)))
            else (([] : List ((Node × Node) × Frac)),
              (rankedTerminalEdges G root node).drop 1)
          else ([], [])) w = (rankedParentEdges L G w).drop 1 by
            simp [h1, h2]] at heq
      exact ⟨h1, h2, heq ▸ hel⟩
    · rw [show (Prod.fst ∘ fun node =>
          if (G.preds node).length > 1 then
            if istuple node then ((rankedParentEdges L G node).drop 1,
              ([] : List ((Node × Node) × ℕ)))
            else (([] : List ((Node × Node) × Frac)),
              (rankedTerminalEdges G root node).drop 1)
          else ([], [])) w = [] by simp [h1, h2]] at heq
      rw [← heq] at hel
      cases hel
  · rw [show (Prod.fst ∘ fun node =>
        if (G.preds node).length > 1 then
          if istuple node then ((rankedParentEdges L G node).drop 1,
            ([] : List ((Node × Node) × ℕ)))
          else (([] : List ((Node × Node) × Frac)),
            (rankedTerminalEdges G root node).drop 1)
        else ([], [])) w = [] by simp [h1]] at heq
    rw [← heq] at hel
    cases hel

theorem mem_findSecondary_snd_inv (L : List (List Bool)) (G : DiGraph)
    (root : Node) {e : (Node × Node) × ℕ}
    (he : e ∈ (findSecondary L G root).2) :
    ∃ w ∈ G.nodes, 1 < (G.preds w).length ∧ istuple w = false ∧
      e ∈ (rankedTerminalEdges G root w).drop 1 := by
  have he' : e ∈ ((G.nodes.map fun node =>
      if (G.preds node).length > 1 then
        if istuple node then ((rankedParentEdges L G node).drop 1,
          ([] : List ((Node × Node) × ℕ)))
        else (([] : List ((Node × Node) × Frac)),
          (rankedTerminalEdges G root node).drop 1)
      else ([], [])).map Prod.snd).flatten :=
    ((List.perm_insertionSort stepsGe _).mem_iff).mp he
  rcases List.mem_flatten.mp he' with ⟨l, hl, hel⟩
  rw [List.map_map] at hl
  rcases List.mem_map.mp hl with ⟨w, hw, heq⟩
  refine ⟨w, hw, ?_⟩
  by_cases h1 : (G.preds w).length > 1
  · by_cases h2 : istuple w = true
    · rw [show (Prod.snd ∘ fun node =>
          if (G.preds node).length > 1 then
            if istuple node then ((rankedParentEdges L G node).drop 1,
              ([] : List ((Node × Node) × ℕ)))
            else (([] : List ((Node × Node) × Frac)),
              (rankedTerminalEdges G root node).drop 1)
          else ([], [])) w = [] by simp [h1, h2]] at heq
      rw [← heq] at hel
      cases hel
    · rw [show (Prod.snd ∘ fun node =>
          if (G.preds node).length > 1 then
            if istuple node then ((rankedParentEdges L G node).drop 1,
              ([] : List ((Node × Node) × ℕ)))
            else (([] : List ((Node × Node) × Frac)),
              (rankedTerminalEdges G root node).drop 1)
          else ([], [])) w = (rankedTerminalEdges G root w).drop 1 by
            simp [h1, h2]] at heq
      exact ⟨h1, by simpa using h2, heq ▸ hel⟩
  · rw [show (Prod.snd ∘ fun node =>
        if (G.preds node).length > 1 then
          if istuple node then ((rankedParentEdges L G node).drop 1,
            ([] : List ((Node × Node) × ℕ)))
          else (([] : List ((Node × Node) × Frac)),
            (rankedTerminalEdges G root node).drop 1)
        else ([], [])) w = [] by simp [h1]] at heq
    rw [← heq] at hel
    cases hel

theorem rankedParentEdges_key {L : List (List Bool)} {G : DiGraph} {w : Node}
    {e : (Node × Node) × Frac} (he : e ∈ rankedParentEdges L G w) :
    e.1.2 = w := by
  have hre : rankedParentEdges L G w =
      (((G.preds w).zip ((G.preds w).map fun s =>
        parentPref L G w s)).insertionSort prefGe).map
        fun x => ((x.1, w), x.2) := rfl
  rw [hre] at he
  rcases List.mem_map.mp he with ⟨x, _, heq⟩
  rw [← heq]

theorem rankedTerminalEdges_key {G : DiGraph} {root w : Node}
    {e : (Node × Node) × ℕ} (he : e ∈ rankedTerminalEdges G root w) :
    e.1.2 = w := by
  have hre : rankedTerminalEdges G root w =
      ((G.preds w).map fun s =>
        ((s, w), distFromRoot G root s)).insertionSort stepsGe := rfl
  rw [hre] at he
  have he2 := ((List.perm_insertionSort stepsGe _).mem_iff).mp he
  rcases List.mem_map.mp he2 with ⟨x, _, heq⟩
  rw [← heq]

/-- The top-ranked parent edge of any node with a parent is in neither
secondary pool, so every node keeps at least one parent through the
percentile trimming of `pick`. -/
theorem head_parent_survives (L : List (List Bool)) (G : DiGraph)
    (root : Node) (hwf : G.WF) (v : Node) (hv : 0 < G.inDeg v) :
    ∃ p, G.hasEdge p v = true ∧
      (p, v) ∉ ((findSecondary L G root).1.map fun e => e.1) ∧
      (p, v) ∉ ((findSecondary L G root).2.map fun e => e.1) := by
  have hne : G.preds v ≠ [] := by
    intro hc
    unfold DiGraph.inDeg at hv
    rw [hc] at hv
    simp at hv
  have hnd : (G.preds v).Nodup := DiGraph.preds_nodup hwf.2.1 v
  by_cases hlen : 1 < (G.preds v).length
  · cases ht : istuple v with
    | true =>
      rcases hsrt : ((G.preds v).zip ((G.preds v).map fun s =>
          parentPref L G v s)).insertionSort prefGe with _ | ⟨y0, ys⟩
      · exfalso
        have hl := (List.perm_insertionSort prefGe
          ((G.preds v).zip ((G.preds v).map fun s =>
            parentPref L G v s))).length_eq
        rw [hsrt, zip_self_map] at hl
        simp at hl
        omega
      · have hzipmap : (((G.preds v).map fun a =>
            ((a, parentPref L G v a) : Node × Frac)).map Prod.fst) =
              G.preds v := by
          rw [List.map_map]
          exact List.map_id' _
        have hsortednd : ((y0 :: ys).map Prod.fst).Nodup := by
          rw [← hsrt]
          refine ((List.perm_insertionSort prefGe _).map
            Prod.fst).nodup_iff.mpr ?_
          rw [zip_self_map, hzipmap]
          exact hnd
        have hy0 : y0 ∈ (G.preds v).zip ((G.preds v).map fun s =>
            parentPref L G v s) := by
          rw [← ((List.perm_insertionSort prefGe _).mem_iff), hsrt]
          exact List.mem_cons_self _ _
        rw [zip_self_map] at hy0
        rcases List.mem_map.mp hy0 with ⟨s, hs, heq⟩
        have hy01 : y0.1 = s := by
          rw [← heq]
        refine ⟨y0.1, ?_, ?_, ?_⟩
        · rw [hy01]
          exact DiGraph.mem_preds_iff_hasEdge.mp hs
        · intro hmem
          rcases List.mem_map.mp hmem with ⟨e, hein, hkey⟩
          rcases mem_findSecondary_fst_inv L G root hein
            with ⟨w, _, hwlen, _, hedrop⟩
          have hw : w = v := by
            have := rankedParentEdges_key (List.drop_subset 1 _ hedrop)
            rw [hkey] at this
            exact this.symm
          subst hw
          have hre : rankedParentEdges L G w =
              (((G.preds w).zip ((G.preds w).map fun s =>
                parentPref L G w s)).insertionSort prefGe).map
                fun x => ((x.1, w), x.2) := rfl
          rw [hre, hsrt, List.map_cons, List.drop_succ_cons,
            List.drop_zero] at hedrop
          rcases List.mem_map.mp hedrop with ⟨x, hx, hxe⟩
          have hx1 : x.1 = y0.1 := by
            have h1 : e.1.1 = x.1 := by
              rw [← hxe]
            rw [hkey] at h1
            exact h1.symm
          have : y0.1 ∈ ys.map Prod.fst :=
            List.mem_map.mpr ⟨x, hx, hx1⟩
          rw [List.map_cons] at hsortednd
          exact (List.pairwise_cons.mp hsortednd).1 _ this rfl
        · intro hmem
          rcases List.mem_map.mp hmem with ⟨e, hein, hkey⟩
          rcases mem_findSecondary_snd_inv L G root hein
            with ⟨w, _, _, hwt, hedrop⟩
          have hw : w = v := by
            have := rankedTerminalEdges_key (List.drop_subset 1 _ hedrop)
            rw [hkey] at this
            exact this.symm
          subst hw
          rw [ht] at hwt
          cases hwt
    | false =>
      rcases hsrt : ((G.preds v).map fun s =>
          ((s, v), distFromRoot G root s)).insertionSort stepsGe
        with _ | ⟨z0, zs⟩
      · exfalso
        have hl := (List.perm_insertionSort stepsGe
          ((G.preds v).map fun s => ((s, v), distFromRoot G root s))).length_eq
        rw [hsrt] at hl
        simp at hl
        omega
      · have hkeysnd : ((z0 :: zs).map fun e => e.1).Nodup := by
          rw [← hsrt]
          refine ((List.perm_insertionSort stepsGe _).map
            fun e => e.1).nodup_iff.mpr ?_
          rw [List.map_map]
          have hcomp : ((fun (e : (Node × Node) × ℕ) => e.1) ∘ fun s =>
              ((s, v), distFromRoot G root s)) = fun s => (s, v) := rfl
          rw [hcomp]
          exact hnd.map (fun a b h => congrArg Prod.fst h)
        have hz0 : z0 ∈ (G.preds v).map fun s =>
            ((s, v), distFromRoot G root s) := by
          rw [← ((List.perm_insertionSort stepsGe _).mem_iff), hsrt]
          exact List.mem_cons_self _ _
        rcases List.mem_map.mp hz0 with ⟨s, hs, heq⟩
        have hz01 : z0.1 = (s, v) := by
          rw [← heq]
        refine ⟨z0.1.1, ?_, ?_, ?_⟩
        · rw [hz01]
          exact DiGraph.mem_preds_iff_hasEdge.mp hs
        · intro hmem
          rcases List.mem_map.mp hmem with ⟨e, hein, hkey⟩
          rcases mem_findSecondary_fst_inv L G root hein
            with ⟨w, _, _, hwt, hedrop⟩
          have hw : w = v := by
            have := rankedParentEdges_key (List.drop_subset 1 _ hedrop)
            rw [hkey] at this
            exact this.symm
          subst hw
          rw [ht] at hwt
          cases hwt
        · intro hmem
          rcases List.mem_map.mp hmem with ⟨e, hein, hkey⟩
          rcases mem_findSecondary_snd_inv L G root hein
            with ⟨w, _, _, _, hedrop⟩
          have hw : w = v := by
            have := rankedTerminalEdges_key (List.drop_subset 1 _ hedrop)
            rw [hkey] at this
            exact this.symm
          subst hw
          have hre : rankedTerminalEdges G root w =
              ((G.preds w).map fun s =>
                ((s, w), distFromRoot G root s)).insertionSort stepsGe := rfl
          rw [hre, hsrt, List.drop_succ_cons, List.drop_zero] at hedrop
          have hez : e.1 = z0.1 := by
            rw [hkey, hz01]
          have : z0.1 ∈ zs.map fun e => e.1 :=
            List.mem_map.mpr ⟨e, hedrop, hez⟩
          rw [List.map_cons] at hkeysnd
          exact (List.pairwise_cons.mp hkeysnd).1 _ this rfl
  · rcases hl : G.preds v with _ | ⟨a, rest⟩
    · exact absurd hl hne
    · refine ⟨a, DiGraph.mem_preds_iff_hasEdge.mp
        (by rw [hl]; exact List.mem_cons_self _ _), ?_, ?_⟩
      · intro hmem
        rcases List.mem_map.mp hmem with ⟨e, hein, hkey⟩
        rcases mem_findSecondary_fst_inv L G root hein
          with ⟨w, _, hwlen, _, hedrop⟩
        have hw : w = v := by
          have := rankedParentEdges_key (List.drop_subset 1 _ hedrop)
          rw [hkey] at this
          exact this.symm
        subst hw
        exact hlen hwlen
      · intro hmem
        rcases List.mem_map.mp hmem with ⟨e, hein, hkey⟩
        rcases mem_findSecondary_snd_inv L G root hein
          with ⟨w, _, hwlen, _, hedrop⟩
        have hw : w = v := by
          have := rankedTerminalEdges_key (List.drop_subset 1 _ hedrop)
          rw [hkey] at this
          exact this.symm
        subst hw
        exact hlen hwlen

theorem trimSecondary_nodes (T : DiGraph) (pool : List (Node × Node))
    (pe : Frac) : (trimSecondary T pool pe).nodes = T.nodes := by
  unfold trimSecondary
  by_cases h1 : pe.isZero = true
  · rw [if_pos h1, nodes_removeEdgesFrom]
  · rw [if_neg h1]
    by_cases h2 : Frac.lt pe ⟨100, 1⟩ = true
    · rw [if_pos h2, nodes_removeEdgesFrom]
    · rw [if_neg h2]

theorem trimSecondary_WF (T : DiGraph) (pool : List (Node × Node))
    (pe : Frac) (h : T.WF) : (trimSecondary T pool pe).WF := by
  unfold trimSecondary
  by_cases h1 : pe.isZero = true
  · rw [if_pos h1]
    exact h.removeEdgesFrom pool
  · rw [if_neg h1]
    by_cases h2 : Frac.lt pe ⟨100, 1⟩ = true
    · rw [if_pos h2]
      exact h.removeEdgesFrom _
    · rw [if_neg h2]
      exact h

theorem trimSecondary_hasEdge_mono (T : DiGraph) (pool : List (Node × Node))
    (pe : Frac) (a b : Node)
    (h : (trimSecondary T pool pe).hasEdge a b = true) :
    T.hasEdge a b = true := by
  unfold trimSecondary at h
  by_cases h1 : pe.isZero = true
  · rw [if_pos h1, DiGraph.hasEdge_removeEdgesFrom_iff] at h
    exact h.1
  · rw [if_neg h1] at h
    by_cases h2 : Frac.lt pe ⟨100, 1⟩ = true
    · rw [if_pos h2, DiGraph.hasEdge_removeEdgesFrom_iff] at h
      exact h.1
    · rw [if_neg h2] at h
      exact h

theorem trimSecondary_hasEdge_keep (T : DiGraph) (pool : List (Node × Node))
    (pe : Frac) (a b : Node) (hT : T.hasEdge a b = true)
    (hnot : (a, b) ∉ pool) :
    (trimSecondary T pool pe).hasEdge a b = true := by
  unfold trimSecondary
  by_cases h1 : pe.isZero = true
  · rw [if_pos h1, DiGraph.hasEdge_removeEdgesFrom_iff]
    exact ⟨hT, hnot⟩
  · rw [if_neg h1]
    by_cases h2 : Frac.lt pe ⟨100, 1⟩ = true
    · rw [if_pos h2, DiGraph.hasEdge_removeEdgesFrom_iff]
      exact ⟨hT, fun hc => hnot (List.drop_subset _ _ hc)⟩
    · rw [if_neg h2]
      exact hT

/-- Invariant carried through edge trimming and pruning: well-formedness, a
strictly edge-decreasing measure, at most the root without a parent,
terminals never sources, and a designated terminal node kept alive. -/
structure PruneInv (f : Node → ℕ) (root : Node) (τ : ℕ) (T : DiGraph) :
    Prop where
  wf : T.WF
  dec : ∀ a b, T.hasEdge a b = true → f b < f a
  nonroot : ∀ v ∈ T.nodes, v ≠ root → 0 < T.inDeg v
  noTermSrc : ∀ s x, T.hasEdge (Node.terminal s) x = false
  termMem : Node.terminal τ ∈ T.nodes

theorem succs_nil_of_noTermSrc {T : DiGraph} {s : ℕ}
    (h : ∀ x, T.hasEdge (Node.terminal s) x = false) :
    T.succs (Node.terminal s) = [] := by
  cases hs : T.succs (Node.terminal s) with
  | nil => rfl
  | cons b rest =>
    exfalso
    have : b ∈ T.succs (Node.terminal s) := by
      rw [hs]
      exact List.mem_cons_self _ _
    have := DiGraph.mem_succs_iff_hasEdge.mp this
    rw [h b] at this
    cases this

theorem singleBranch_terminal_false (strict : Bool) (T : DiGraph) (s : ℕ)
    (h : ∀ x, T.hasEdge (Node.terminal s) x = false) :
    singleBranch strict T (Node.terminal s) = false := by
  have hsucc := succs_nil_of_noTermSrc h
  have hout : T.outDeg (Node.terminal s) = 0 := by
    unfold DiGraph.outDeg
    rw [hsucc]
    rfl
  unfold singleBranch
  by_cases hin : T.inDeg (Node.terminal s) ≠ 1
  · rw [if_pos hin]
  · rw [if_neg hin]
    cases strict with
    | true =>
      simp only [if_true, hout, hsucc]
      rfl
    | false =>
      simp only [Bool.false_eq_true, if_false, hsucc, hout]
      rfl

theorem deadStep_pruneInv (f : Node → ℕ) (root : Node) (τ : ℕ)
    (acc : DiGraph × List Node) (node : Node)
    (inv : PruneInv f root τ acc.1) : PruneInv f root τ (deadStep acc node).1 := by
  unfold deadStep
  by_cases hc : (istuple node && decide (acc.1.outDeg node = 0)) = true
  · rw [if_pos hc]
    simp only [Bool.and_eq_true, decide_eq_true_eq] at hc
    obtain ⟨htup, hout⟩ := hc
    refine ⟨inv.wf.removeNode node, ?_, ?_, ?_, ?_⟩
    · intro a b hab
      rw [hasEdge_removeNode_iff] at hab
      exact inv.dec a b hab.1
    · intro v hv hvr
      have hv' := List.mem_filter.mp hv
      have hvm : v ∈ acc.1.nodes := hv'.1
      have hvn : v ≠ node := by simpa using hv'.2
      rcases (indeg_pos_iff acc.1 v).mp (inv.nonroot v hvm hvr) with ⟨p, hp⟩
      rw [indeg_pos_iff]
      refine ⟨p, (hasEdge_removeNode_iff acc.1 node p v).mpr ⟨hp, ?_, hvn⟩⟩
      intro hpn
      subst hpn
      have hmem : v ∈ acc.1.succs p := DiGraph.mem_succs_iff_hasEdge.mpr hp
      unfold DiGraph.outDeg at hout
      rw [List.length_eq_zero] at hout
      rw [hout] at hmem
      cases hmem
    · intro s x
      cases hh : (acc.1.removeNode node).hasEdge (Node.terminal s) x
      · rfl
      · rw [hasEdge_removeNode_iff] at hh
        rw [inv.noTermSrc s x] at hh
        exact absurd hh.1 (by simp)
    · refine List.mem_filter.mpr ⟨inv.termMem, ?_⟩
      simp only [Bool.not_eq_true', decide_eq_false_iff_not]
      intro hc2
      rw [← hc2] at htup
      simp [istuple] at htup
  · rw [if_neg hc]
    exact inv

theorem foldl_deadStep_pruneInv (f : Node → ℕ) (root : Node) (τ : ℕ)
    (l : List Node) :
    ∀ acc : DiGraph × List Node, PruneInv f root τ acc.1 →
      PruneInv f root τ (l.foldl deadStep acc).1 := by
  induction l with
  | nil => exact fun acc h => h
  | cons b l ih =>
    intro acc h
    rw [List.foldl_cons]
    exact ih _ (deadStep_pruneInv f root τ acc b h)

theorem deadLoopF_pruneInv (f : Node → ℕ) (root : Node) (τ : ℕ) (fuel : ℕ) :
    ∀ tl : DiGraph × List Node, PruneInv f root τ tl.1 →
      PruneInv f root τ (deadLoopF fuel tl).1 := by
  induction fuel with
  | zero => exact fun tl h => h
  | succ n ih =>
    intro tl h
    unfold deadLoopF
    by_cases hc : ((tl.2.map tl.1.outDeg).contains 0) = true
    · rw [if_pos hc]
      exact ih (deadPass tl) (foldl_deadStep_pruneInv f root τ tl.2.reverse tl h)
    · rw [if_neg hc]
      exact h

theorem collapseNode_pruneInv (f : Node → ℕ) (root : Node) (τ : ℕ)
    (T : DiGraph) (node : Node) (inv : PruneInv f root τ T)
    (hnt : ∀ s : ℕ, node ≠ Node.terminal s) :
    PruneInv f root τ (collapseNode T node) := by
  cases hpreds : T.preds node with
  | nil =>
    have hid : collapseNode T node = T := by
      unfold collapseNode
      rw [hpreds]
    rw [hid]
    exact inv
  | cons parent rest =>
    have hcn : collapseNode T node = ((T.succs node).foldl
        (fun t child => t.addEdge parent child
          (Frac.add ((T.edgeWeight parent node).getD Frac.zero)
            ((t.edgeWeight node child).getD Frac.zero))) T).removeNode node := by
      unfold collapseNode
      rw [hpreds]
    rw [hcn]
    have hpe : T.hasEdge parent node = true := by
      refine DiGraph.mem_preds_iff_hasEdge.mp ?_
      rw [hpreds]
      exact List.mem_cons_self _ _
    have hparent_ne : parent ≠ node := by
      intro hc
      have := inv.dec parent node hpe
      rw [hc] at this
      omega
    refine ⟨(foldAdd_WF parent _ (T.succs node) T inv.wf).removeNode node,
      ?_, ?_, ?_, ?_⟩
    · intro a b hab
      rw [hasEdge_removeNode_iff] at hab
      obtain ⟨h1, _, _⟩ := hab
      rw [foldAdd_hasEdge] at h1
      rcases h1 with h1 | ⟨rfl, hb⟩
      · exact inv.dec a b h1
      · have h2 := inv.dec node b (DiGraph.mem_succs_iff_hasEdge.mp hb)
        have h3 := inv.dec a node hpe
        omega
    · intro v hv hvr
      have hv1 := List.mem_filter.mp hv
      have hvfold := hv1.1
      have hvne : v ≠ node := by simpa using hv1.2
      have hvT : v ∈ T.nodes := by
        rcases foldAdd_nodes_sub _ _ _ _ _ hvfold with h | h | h
        · exact h
        · subst h
          rcases DiGraph.hasEdge_true_iff.mp hpe with ⟨w, hw⟩
          exact (inv.wf.2.2 _ hw).1
        · have hE := DiGraph.mem_succs_iff_hasEdge.mp h
          rcases DiGraph.hasEdge_true_iff.mp hE with ⟨w, hw⟩
          exact (inv.wf.2.2 _ hw).2
      rw [indeg_pos_iff]
      by_cases hvchild : v ∈ T.succs node
      · refine ⟨parent, (hasEdge_removeNode_iff _ node parent v).mpr
          ⟨?_, hparent_ne, hvne⟩⟩
        rw [foldAdd_hasEdge]
        exact Or.inr ⟨rfl, hvchild⟩
      · rcases (indeg_pos_iff T v).mp (inv.nonroot v hvT hvr) with ⟨p, hp⟩
        have hpne : p ≠ node := by
          intro hc
          subst hc
          exact hvchild (DiGraph.mem_succs_iff_hasEdge.mpr hp)
        refine ⟨p, (hasEdge_removeNode_iff _ node p v).mpr ⟨?_, hpne, hvne⟩⟩
        rw [foldAdd_hasEdge]
        exact Or.inl hp
    · intro s x
      cases hh : ((((T.succs node).foldl _ T).removeNode node).hasEdge
          (Node.terminal s) x)
      · rfl
      · exfalso
        rw [hasEdge_removeNode_iff] at hh
        obtain ⟨h1, _, _⟩ := hh
        rw [foldAdd_hasEdge] at h1
        rcases h1 with h1 | ⟨hpar, _⟩
        · rw [inv.noTermSrc s x] at h1
          cases h1
        · rw [← hpar] at hpe
          rw [inv.noTermSrc s node] at hpe
          cases hpe
    · refine List.mem_filter.mpr
        ⟨foldAdd_nodes_mono parent _ (T.succs node) T _ inv.termMem, ?_⟩
      simp only [Bool.not_eq_true', decide_eq_false_iff_not]
      intro hc
      exact hnt τ hc.symm

theorem collapsePhase_pruneInv (f : Node → ℕ) (root : Node) (τ : ℕ)
    (strict : Bool) (order : List Node) :
    ∀ T : DiGraph, PruneInv f root τ T →
      PruneInv f root τ (collapsePhase strict T order) := by
  induction order with
  | nil => exact fun T h => h
  | cons nd rest ih =>
    intro T h
    unfold collapsePhase
    rw [List.foldl_cons]
    have hstep : PruneInv f root τ
        (if singleBranch strict T nd then collapseNode T nd else T) := by
      by_cases hsb : singleBranch strict T nd = true
      · rw [if_pos hsb]
        refine collapseNode_pruneInv f root τ T nd h ?_
        intro s hc
        rw [hc, singleBranch_terminal_false strict T s (h.noTermSrc s)] at hsb
        cases hsb
      · rw [if_neg hsb]
        exact h
    have hres := ih _ hstep
    unfold collapsePhase at hres
    exact hres

theorem prune_pruneInv (strict : Bool) (f : Node → ℕ) (root : Node) (τ : ℕ)
    (T : DiGraph) (inv : PruneInv f root τ T) :
    PruneInv f root τ (prune strict T) :=
  collapsePhase_pruneInv f root τ strict _ _
    (deadLoopF_pruneInv f root τ ((T.nodes.filter istuple).length + 1)
      (T, T.nodes.filter istuple) inv)

theorem pruneInv_conclusions (f : Node → ℕ) (root : Node) (τ : ℕ)
    (T : DiGraph) (inv : PruneInv f root τ T) :
    T.Acyclic ∧ ∃! r, r ∈ T.nodes ∧ T.inDeg r = 0 := by
  refine ⟨DiGraph.acyclic_of_measure T f (fun u v h => inv.dec u v h), ?_⟩
  have hne : T.nodes ≠ [] := by
    intro hc
    have := inv.termMem
    rw [hc] at this
    exact absurd this (List.not_mem_nil _)
  rcases exists_max_image_list f T.nodes hne with ⟨m, hm, hmax⟩
  have hm0 : T.inDeg m = 0 := by
    by_contra hc
    rcases (indeg_pos_iff T m).mp (Nat.pos_of_ne_zero hc) with ⟨p, hp⟩
    rcases DiGraph.hasEdge_true_iff.mp hp with ⟨w, hw⟩
    have hpm : p ∈ T.nodes := (inv.wf.2.2 _ hw).1
    have h1 := inv.dec p m hp
    have h2 := hmax p hpm
    omega
  have hmr : m = root := by
    by_contra hc
    have := inv.nonroot m hm hc
    omega
  refine ⟨m, ⟨hm, hm0⟩, ?_⟩
  intro y ⟨hy, hy0⟩
  have hyr : y = root := by
    by_contra hc
    have := inv.nonroot y hy hc
    omega
  rw [hyr, hmr]

theorem buildMeasure_terminal (L : List (List Bool)) (levels : List ℤ)
    (al : Bool) (t : ℕ) :
    buildMeasure L levels al (Node.terminal t) = 0 := by
  unfold buildMeasure
  cases al with
  | false =>
    rw [if_neg (by simp)]
    rfl
  | true =>
    rw [if_pos rfl]
    rfl

theorem buildMeasure_cluster_pos (L : List (List Bool)) (levels : List ℤ)
    (al : Bool) (c : ℤ) :
    0 < buildMeasure L levels al (Node.cluster c) := by
  unfold buildMeasure
  cases al with
  | false =>
    rw [if_neg (by simp)]
    exact clMeasure_pos L c
  | true =>
    rw [if_pos rfl]
    exact lvMeasure_pos levels c

theorem clMeasure_lt_root (L : List (List Bool)) (k : ℕ) (hk : k < L.length) :
    clMeasure L (clNode k) < clMeasure L (Node.cluster (-1)) := by
  rw [clMeasure_clNode]
  have hroot : clMeasure L (Node.cluster (-1)) =
      ((L.foldr (fun r acc => max r.length acc) 0) + 1) * L.length +
        L.length + 1 := by
    simp only [clMeasure]
    rw [if_pos (by omega)]
  rw [hroot]
  have hle : countNonzero (L.getD k []) ≤
      L.foldr (fun r acc => max r.length acc) 0 := by
    refine le_trans (List.length_filter_le _ _) ?_
    refine length_le_foldr_max L _ ?_
    rw [List.getD_eq_getElem L [] hk]
    exact List.getElem_mem hk
  have hmul : countNonzero (L.getD k []) * L.length ≤
      (L.foldr (fun r acc => max r.length acc) 0) * L.length :=
    Nat.mul_le_mul_right L.length hle
  have hdist : ((L.foldr (fun r acc => max r.length acc) 0) + 1) * L.length =
      (L.foldr (fun r acc => max r.length acc) 0) * L.length + L.length := by
    ring
  omega

theorem lvMeasure_lt_root (levels : List ℤ) (k : ℕ) :
    lvMeasure levels (clNode k) < lvMeasure levels (Node.cluster (-1)) := by
  rw [lvMeasure_clNode]
  have hroot : lvMeasure levels (Node.cluster (-1)) =
      2 * lvBound levels + 3 := by
    simp only [lvMeasure]
    rw [if_pos (by omega)]
  rw [hroot]
  have habs := getD_abs_le levels k
  have hlow : -(lvBound levels : ℤ) ≤ levels.getD k 0 := by
    have h1 : -((levels.getD k 0).natAbs : ℤ) ≤ levels.getD k 0 := by
      rcases Int.natAbs_eq (levels.getD k 0) with h | h <;> omega
    have h2 : ((levels.getD k 0).natAbs : ℤ) ≤ (lvBound levels : ℤ) := by
      exact_mod_cast habs
    omega
  have hup : ((lvBound levels : ℤ) + 1 - levels.getD k 0).toNat ≤
      2 * lvBound levels + 1 := by
    rw [Int.toNat_le]
    push_cast
    omega
  omega

theorem buildMeasure_lt_root (L : List (List Bool)) (levels : List ℤ)
    (al : Bool) (k : ℕ) (hk : k < L.length) :
    buildMeasure L levels al (clNode k) <
      buildMeasure L levels al (Node.cluster (-1)) := by
  unfold buildMeasure
  cases al with
  | false =>
    rw [if_neg (by simp)]
    exact clMeasure_lt_root L k hk
  | true =>
    rw [if_pos rfl]
    exact lvMeasure_lt_root levels k

/-- C2: the hierarchy produced by `weave` (that is, by `_build` followed by
`pick` without additional edges) is acyclic and has exactly one node of
in-degree 0, for every input whose partition rows are non-empty and every
valid configuration (any positive cutoff, any `assume_levels` flag and
levels, any edge percentages, either pruning policy). Acyclicity comes from
a measure that strictly decreases along every edge of every phase; the
unique-root property holds because every non-root node keeps at least one
parent through root synthesis, redundancy removal, terminal attachment,
secondary-edge trimming, and pruning, while a maximal-measure node always
has in-degree 0. -/
theorem weave_hierarchy_acyclic_unique_root
    (L : List (List Bool)) (levels : List ℤ) (assumeLevels : Bool)
    (cutoff : Frac) (hrows : ∀ row ∈ L, 0 < countNonzero row)
    (hcnum : 0 < cutoff.num) (hcden : 0 < cutoff.den)
    (br : BuildResult) (hb : build L levels assumeLevels cutoff = some br)
    (pe pt : Frac) (replace strict : Bool) (ws' : WeaverState) (h : DiGraph)
    (hp : pick ⟨br, none⟩ pe pt none replace strict = (ws', Except.ok h)) :
    h.Acyclic ∧ ∃! r, r ∈ h.nodes ∧ h.inDeg r = 0 := by
  simp only [build] at hb
  rcases haddr : addRootPhase (edgeLoop (containment_indices_boolean L L)
      cutoff (buildPairs L.length assumeLevels levels)) with _ | ⟨G2, root⟩
  · rw [haddr] at hb
    cases hb
  · rw [haddr] at hb
    injection hb with hb
    subst hb
    set CI := containment_indices_boolean L L with hCI
    set pairs := buildPairs L.length assumeLevels levels with hpairs
    set G1 := edgeLoop CI cutoff pairs with hG1
    set G3 := redundancyPhase G2 with hG3
    set G4 := attachPhase L G3 with hG4
    set f := buildMeasure L levels assumeLevels with hf
    have wf1 : G1.WF :=
      (edgeLoop_loopInv CI cutoff L.length assumeLevels levels).wf
    have shape1 : ∀ v ∈ G1.nodes, ∃ k : ℕ, k < L.length ∧ v = clNode k :=
      edgeLoop_nodes_shape CI cutoff L.length assumeLevels levels
    have dec1 : ∀ a b, G1.hasEdge a b = true → f b < f a :=
      edgeLoop_decMeasure L levels assumeLevels cutoff hcnum hcden hrows
    have htop : ∀ k : ℕ, k < L.length →
        f (clNode k) < f (Node.cluster (-1)) :=
      fun k hk => buildMeasure_lt_root L levels assumeLevels k hk
    obtain ⟨wf2, dec2, noin2, nonroot2, shape2, sub12⟩ :=
      addRootPhase_spec L.length f wf1 shape1 dec1 htop haddr
    have hrootcl : ∃ c : ℤ, root = Node.cluster c := by
      rcases addRootPhase_cases haddr with ⟨_, hr, _⟩ | ⟨hroots, _⟩
      · exact ⟨-1, hr⟩
      · have hmem : root ∈ rootsOf G1 := by
          rw [hroots]
          exact List.mem_cons_self _ _
        rcases shape1 root (mem_rootsOf.mp hmem).1 with ⟨k, _, hk⟩
        exact ⟨(k : ℤ), hk⟩
    have hn32 : G3.nodes = G2.nodes := nodes_removeEdgesFrom G2 _
    have wf3 : G3.WF := wf2.removeEdgesFrom _
    have dec3 : ∀ a b, G3.hasEdge a b = true → f b < f a := fun a b hab =>
      dec2 a b ((DiGraph.hasEdge_removeEdgesFrom_iff G2 _ a b).mp hab).1
    have noin3 : ∀ p, G3.hasEdge p root = false := by
      intro p
      cases hh : G3.hasEdge p root
      · rfl
      · exfalso
        have := ((DiGraph.hasEdge_removeEdgesFrom_iff G2 _ p root).mp hh).1
        rw [noin2 p] at this
        cases this
    have nonroot3 : ∀ v ∈ G3.nodes, v ≠ root → 0 < G3.inDeg v :=
      fun v hv hvr =>
        redundancy_keeps_parent G2 f dec2 v (nonroot2 v (hn32 ▸ hv) hvr)
    have shape3 : ∀ v ∈ G3.nodes, ∃ c : ℤ, v = Node.cluster c := by
      intro v hv
      rcases shape2 v (hn32 ▸ hv) with ⟨k, _, hk⟩ | hr
      · exact ⟨(k : ℤ), hk⟩
      · rcases hrootcl with ⟨c, hc⟩
        exact ⟨c, hr.trans hc⟩
    have hnoter3 : ∀ t, Node.terminal t ∉ G3.nodes := by
      intro t ht
      rcases shape3 _ ht with ⟨c, hc⟩
      cases hc
    have hsrc3 : ∀ s v, G3.hasEdge (Node.terminal s) v = false := by
      intro s v
      cases hh : G3.hasEdge (Node.terminal s) v
      · rfl
      · exfalso
        rcases DiGraph.hasEdge_true_iff.mp hh with ⟨w, hw⟩
        exact hnoter3 s (wf3.2.2 _ hw).1
    have htgt3 : ∀ p s, G3.hasEdge p (Node.terminal s) = false := by
      intro p s
      cases hh : G3.hasEdge p (Node.terminal s)
      · rfl
      · exfalso
        rcases DiGraph.hasEdge_true_iff.mp hh with ⟨w, hw⟩
        exact hnoter3 s (wf3.2.2 _ hw).2
    obtain ⟨st, hstG, invB⟩ := attachPhase_invB L G3 wf3 hsrc3 htgt3 hnoter3
    have hG4st : G4 = st.G := hstG
    have wf4 : G4.WF := by
      rw [hG4st]
      exact invB.wf
    have noTermSrc4 : ∀ s x, G4.hasEdge (Node.terminal s) x = false := by
      intro s x
      rw [hG4st]
      exact invB.base.noTermSrc s x
    have dec4 : ∀ a b, G4.hasEdge a b = true → f b < f a := by
      intro a b hab
      rw [hG4st] at hab
      cases b with
      | terminal t =>
        cases a with
        | terminal s =>
          rw [invB.base.noTermSrc s _] at hab
          cases hab
        | cluster c =>
          show f (Node.terminal t) < f (Node.cluster c)
          rw [hf, buildMeasure_terminal]
          exact buildMeasure_cluster_pos L levels assumeLevels c
      | cluster c =>
        have hcl : ClusterRel st.G a (Node.cluster c) := ⟨hab, c, rfl⟩
        exact dec3 a _ ((invB.base.crel a _).mp hcl).1
    have noin4 : ∀ p, G4.hasEdge p root = false := by
      intro p
      cases hh : G4.hasEdge p root
      · rfl
      · exfalso
        rcases hrootcl with ⟨c, hc⟩
        rw [hG4st] at hh
        have hcl : ClusterRel st.G p root := ⟨hh, c, hc⟩
        have h2 : G3.hasEdge p root = true := ((invB.base.crel p root).mp hcl).1
        rw [noin3 p] at h2
        cases h2
    have nonroot4 : ∀ v ∈ G4.nodes, v ≠ root → 0 < G4.inDeg v := by
      intro v hv hvr
      rw [hG4st] at hv ⊢
      rcases invB.nodesIn v hv with hv3 | ⟨t, rfl⟩
      · rcases shape3 v hv3 with ⟨c, rfl⟩
        rcases (indeg_pos_iff G3 _).mp (nonroot3 _ hv3 hvr) with ⟨p, hp⟩
        have hcl : ClusterRel G3 p (Node.cluster c) := ⟨hp, c, rfl⟩
        rw [indeg_pos_iff]
        exact ⟨p, ((invB.base.crel p _).mpr hcl).1⟩
      · have hrec := invB.termRec t hv
        rcases List.exists_mem_of_ne_nil _ hrec with ⟨p, hpm⟩
        rw [indeg_pos_iff]
        exact ⟨p, (invB.base.sync t p).mpr hpm⟩
    have hkex : ∃ k : ℕ, k < L.length ∧ Node.cluster (k : ℤ) ∈ G3.nodes := by
      have hG1ne : ∃ w, w ∈ G1.nodes := by
        rcases addRootPhase_cases haddr with ⟨hlen, _, _⟩ | ⟨hroots, _⟩
        · have : rootsOf G1 ≠ [] := by
            intro hc
            rw [hc] at hlen
            simp at hlen
          rcases List.exists_mem_of_ne_nil _ this with ⟨w, hw⟩
          exact ⟨w, (mem_rootsOf.mp hw).1⟩
        · refine ⟨root, (mem_rootsOf.mp ?_).1⟩
          rw [hroots]
          exact List.mem_cons_self _ _
      rcases hG1ne with ⟨w, hw⟩
      rcases shape1 w hw with ⟨k, hk, rfl⟩
      refine ⟨k, hk, ?_⟩
      rw [hn32]
      exact sub12 _ hw
    rcases hkex with ⟨k, hk, hkmem⟩
    have hrowk : 0 < countNonzero (L.getD k []) := by
      refine hrows _ ?_
      rw [List.getD_eq_getElem L [] hk]
      exact List.getElem_mem hk
    obtain ⟨τ, hτ⟩ := attachPhase_has_terminal L G3 wf3 hsrc3 htgt3 hnoter3
      k hk hkmem hrowk
    have hpick : pick ⟨⟨G4, root, (findSecondary L G4 root).1,
        (findSecondary L G4 root).2⟩, none⟩ pe pt none replace strict =
        (⟨⟨G4, root, (findSecondary L G4 root).1,
            (findSecondary L G4 root).2⟩,
          some (prune strict (trimSecondary
            (trimSecondary G4 ((findSecondary L G4 root).1.map fun e => e.1)
              pe)
            ((findSecondary L G4 root).2.map fun e => e.1) pt))⟩,
         Except.ok (prune strict (trimSecondary
            (trimSecondary G4 ((findSecondary L G4 root).1.map fun e => e.1)
              pe)
            ((findSecondary L G4 root).2.map fun e => e.1) pt))) := rfl
    have heq2 := hpick.symm.trans hp
    have hsnd := congrArg Prod.snd heq2
    simp only at hsnd
    injection hsnd with hsnd
    have hT0inv : PruneInv f root τ (trimSecondary
        (trimSecondary G4 ((findSecondary L G4 root).1.map fun e => e.1) pe)
        ((findSecondary L G4 root).2.map fun e => e.1) pt) := by
      refine ⟨?_, ?_, ?_, ?_, ?_⟩
      · exact trimSecondary_WF _ _ _ (trimSecondary_WF _ _ _ wf4)
      · intro a b hab
        exact dec4 a b (trimSecondary_hasEdge_mono _ _ _ a b
          (trimSecondary_hasEdge_mono _ _ _ a b hab))
      · intro v hv hvr
        rw [trimSecondary_nodes, trimSecondary_nodes] at hv
        have hpos := nonroot4 v hv hvr
        rcases head_parent_survives L G4 root wf4 v hpos
          with ⟨p, hpe, hnp1, hnp2⟩
        rw [indeg_pos_iff]
        exact ⟨p, trimSecondary_hasEdge_keep _ _ _ p v
          (trimSecondary_hasEdge_keep _ _ _ p v hpe hnp1) hnp2⟩
      · intro s x
        cases hh : (trimSecondary (trimSecondary G4 _ pe) _ pt).hasEdge
            (Node.terminal s) x
        · rfl
        · exfalso
          have := trimSecondary_hasEdge_mono _ _ _ _ _
            (trimSecondary_hasEdge_mono _ _ _ _ _ hh)
          rw [noTermSrc4 s x] at this
          cases this
      · rw [trimSecondary_nodes, trimSecondary_nodes]
        exact hτ
    have hfin := prune_pruneInv strict f root τ _ hT0inv
    rw [hsnd] at hfin
    exact pruneInv_conclusions f root τ h hfin

/-- Witness for C2: on the weaver built from `exL` (levels 0,1,2, cutoff
0.8), `pick(100, 0)` succeeds and the resulting hierarchy is acyclic with a
unique in-degree-0 node. -/
theorem weave_hierarchy_acyclic_unique_root_witness :
    ∃ (ws' : WeaverState) (h : DiGraph),
      pick ⟨exBuild, none⟩ ⟨100, 1⟩ ⟨0, 1⟩ none false false =
        (ws', Except.ok h) ∧
      h.Acyclic ∧ ∃! r, r ∈ h.nodes ∧ h.inDeg r = 0 :=
  ⟨_, _, rfl,
    weave_hierarchy_acyclic_unique_root exL [0, 1, 2] false ⟨8, 10⟩
      (by decide) (by decide) (by decide) exBuild (by decide)
      ⟨100, 1⟩ ⟨0, 1⟩ false false _ _ rfl⟩
